import Mathlib

/-!
Verification of the data-layer core of the AOV strategy-assistant app
(`app.py`): the record normalizers (`ensure_fields`, `_normalize_comp_entry`),
the bidirectional-relationship reconciler (`ensure_bidirectional_relationships`),
the hero-deletion cascade, and the JSON persistence loader (`load_data`).

The embedding models Python values as a JSON-like inductive type `Val`
(Python dicts are ordered association lists; machine-level string interning,
hashing internals and floats are not observable in the modelled code paths).
Fallible Python code (code that can raise `TypeError`, `AttributeError`,
`KeyError`) is modelled in the `Except String` monad.
-/

/-- JSON-like Python value: strings, ints, booleans, None, lists, dicts.
Dicts are insertion-ordered association lists with string keys, as produced
by `json.load` and manipulated by the application. -/
inductive Val where
  | str (s : String)
  | num (n : Int)
  | bool (b : Bool)
  | null
  | list (xs : List Val)
  | dict (kvs : List (String × Val))

/-- A Python dict with string keys, e.g. the whole data collection or one
hero record. -/
abbrev PyDict := List (String × Val)

/-- The `LANE_CHOICES` list from app.py. -/
def LANE_CHOICES : List String := ["凱撒路", "中路", "打野", "魔龍路", "游走"]

/-- Python `k.startswith("__")`: the reserved-key test used throughout app.py. -/
def isReserved (k : String) : Bool := List.isPrefixOf "__".data k.data

/-- First-match lookup in an association list (Python dict lookup). -/
def alook : List (String × α) → String → Option α
  | [], _ => none
  | (k', v) :: t, k => if k' == k then some v else alook t k

/-- Python `d.get(k, dflt)`. -/
def aget (l : List (String × α)) (k : String) (dflt : α) : α :=
  (alook l k).getD dflt

/-- Python `d[k] = v`: replace the value at `k` in place, or append a new
binding at the end (Python dicts keep insertion order). -/
def dset : List (String × α) → String → α → List (String × α)
  | [], k, v => [(k, v)]
  | (k', v') :: t, k, v => if k' == k then (k, v) :: t else (k', v') :: dset t k v

/-- Python `k in d` for a dict. -/
def keyMem (l : List (String × α)) (k : String) : Bool := (alook l k).isSome

/-- Python `d.setdefault(k, v)` (value part of the state change). -/
def setdefault (d : List (String × α)) (k : String) (v : α) : List (String × α) :=
  if keyMem d k then d else d ++ [(k, v)]

/-- Python truthiness of a value. -/
def truthy : Val → Bool
  | .str s => s != ""
  | .num n => n != 0
  | .bool b => b
  | .null => false
  | .list xs => !xs.isEmpty
  | .dict kvs => !kvs.isEmpty

/-- Whether a Python value is hashable (usable in a `set` / as a dict key).
Lists and dicts are unhashable; using them in `x in someSet` raises. -/
def hashable : Val → Bool
  | .list _ => false
  | .dict _ => false
  | _ => true

/-- Python `==` on flat (hashable) values: `True == 1`, `False == 0`;
values of unrelated types compare unequal. -/
def pyEqFlat : Val → Val → Bool
  | .str a, .str b => a == b
  | .num a, .num b => a == b
  | .bool a, .bool b => a == b
  | .num a, .bool b => a == (if b then (1 : Int) else 0)
  | .bool a, .num b => (if a then (1 : Int) else 0) == b
  | .null, .null => true
  | _, _ => false

/-- Lexicographic order on character lists by code point, Python's string
ordering. -/
def charsLt : List Char → List Char → Bool
  | [], [] => false
  | [], _ :: _ => true
  | _ :: _, [] => false
  | a :: as, b :: bs =>
      if a.toNat < b.toNat then true
      else if b.toNat < a.toNat then false
      else charsLt as bs

/-- Python `<` on flat values: defined for numbers/booleans and for string
pairs; anything else raises `TypeError` (e.g. `None < None`, `1 < "a"`). -/
def pyLtFlat : Val → Val → Except String Bool
  | .num a, .num b => .ok (decide (a < b))
  | .num a, .bool b => .ok (decide (a < (if b then (1 : Int) else 0)))
  | .bool a, .num b => .ok (decide ((if a then (1 : Int) else 0) < b))
  | .bool a, .bool b => .ok (decide ((if a then (1 : Int) else 0) < (if b then (1 : Int) else 0)))
  | .str a, .str b => .ok (charsLt a.data b.data)
  | _, _ => .error "TypeError"

/-- Python `v == s` against a string literal/variable `s`. -/
def eqStr : Val → String → Bool
  | .str t, s => t == s
  | _, _ => false

/-- Python `x in LANE_CHOICES`. -/
def inLanes (x : Val) : Bool := LANE_CHOICES.any (fun s => eqStr x s)

/-- Python iteration `for x in v`: lists yield elements, strings yield
1-character strings, dicts yield keys; other types raise `TypeError`. -/
def pyList : Val → Except String (List Val)
  | .list xs => .ok xs
  | .str s => .ok (s.data.map (fun c => .str (String.singleton c)))
  | .dict kvs => .ok (kvs.map (fun kv => .str kv.1))
  | _ => .error "TypeError"

/-- Whether the first character list is a prefix of the second. -/
def charsPre : List Char → List Char → Bool
  | [], _ => true
  | _ :: _, [] => false
  | a :: as, b :: bs => a == b && charsPre as bs

/-- Whether the first character list occurs contiguously in the second. -/
def charsSub (needle : List Char) : List Char → Bool
  | [] => charsPre needle []
  | c :: cs => charsPre needle (c :: cs) || charsSub needle cs

/-- Python `s in v` for a string `s`: list membership, substring test for
strings, key membership for dicts; raises `TypeError` otherwise. -/
def pyContains (v : Val) (s : String) : Except String Bool :=
  match v with
  | .list xs => .ok (xs.any (fun x => eqStr x s))
  | .str t => .ok (charsSub s.data t.data)
  | .dict kvs => .ok (kvs.any (fun kv => kv.1 == s))
  | _ => .error "TypeError"

/-- View a value as a dict, raising (with the given Python exception name)
otherwise. -/
def asDict : Val → String → Except String PyDict
  | .dict d, _ => .ok d
  | _, e => .error e

/-- View a value as a list, raising otherwise. -/
def asList : Val → String → Except String (List Val)
  | .list l, _ => .ok l
  | _, e => .error e

/-- Python `d[k]` on a dict: `KeyError` if absent. -/
def dgetE (d : PyDict) (k : String) : Except String Val :=
  match alook d k with
  | some v => .ok v
  | none => .error "KeyError"

/-- Python `x in names` where `names` is a set of strings: hashing `x`
raises `TypeError` when `x` is unhashable. -/
def memNames (x : Val) (names : List String) : Except String Bool :=
  if hashable x then
    .ok (match x with | .str s => names.contains s | _ => false)
  else .error "TypeError"

/-- Monadic `map` over a list in `Except`. -/
def mapME (f : α → Except ε β) : List α → Except ε (List β)
  | [] => .ok []
  | x :: xs => do
      let y ← f x
      let ys ← mapME f xs
      .ok (y :: ys)

/-- Monadic left fold over a list in `Except`. -/
def foldME (f : β → α → Except ε β) (b : β) : List α → Except ε β
  | [] => .ok b
  | x :: xs => do
      let b' ← f b x
      foldME f b' xs

/-- Monadic filter over a list in `Except`. -/
def filterME (p : α → Except ε Bool) : List α → Except ε (List α)
  | [] => .ok []
  | x :: xs => do
      let b ← p x
      let rest ← filterME p xs
      .ok (if b then x :: rest else rest)

/-- Worker for `dedupe`: `seen` is the set of already-kept values; falsy
values are skipped before hashing (short-circuit `if x and x not in seen`),
truthy unhashable values raise `TypeError` at the set-membership test. -/
def dedupeGo (seen : List Val) : List Val → Except String (List Val)
  | [] => .ok []
  | x :: xs =>
      if !truthy x then dedupeGo seen xs
      else if !hashable x then .error "TypeError"
      else if seen.any (fun y => pyEqFlat y x) then dedupeGo seen xs
      else do
        let rest ← dedupeGo (x :: seen) xs
        .ok (x :: rest)

/-- Function `dedupe` from app.py: keep the first occurrence of each truthy value. -/
def dedupe (xs : List Val) : Except String (List Val) := dedupeGo [] xs

/-- Sorted insertion for `sortM`, comparing with Python `<`. -/
def insertM (x : Val) : List Val → Except String (List Val)
  | [] => .ok [x]
  | y :: ys => do
      if (← pyLtFlat x y) then .ok (x :: y :: ys)
      else do
        let r ← insertM x ys
        .ok (y :: r)

/-- Python `sorted` on a list of values (stability is irrelevant at the
call sites: `sorted` is only ever applied to `dedupe` output, which holds
no two equal-comparing elements). -/
def sortM : List Val → Except String (List Val)
  | [] => .ok []
  | x :: xs => do
      let r ← sortM xs
      insertM x r

/-- The `main_lane` defaulting logic of `ensure_fields`. -/
def mainCalc (m0 : Val) (lanes_list : List Val) : Val :=
  if truthy m0 then m0
  else
    match lanes_list with
    | [] => m0
    | x :: _ => if inLanes x then x else Val.str ""

/-- Function `ensure_fields` from app.py: coerce a raw hero record to the canonical
ten-field shape.  Raises (models an `AttributeError`/`TypeError`) on
non-dict input, on a truthy non-dict `lane_tiers`, and on non-iterable
list-valued fields, exactly as the Python does. -/
def ensure_fields (h : Val) : Except String PyDict := do
  let hd ← asDict h "AttributeError"
  let lt0 := aget hd "lane_tiers" (Val.dict [])
  let lt1 := if truthy lt0 then lt0 else Val.dict []
  let ltd ← asDict lt1 "AttributeError"
  let lane_tiers := LANE_CHOICES.foldl (fun d lane => setdefault d lane (Val.str "")) ltd
  let lanes_list ← pyList (aget hd "lanes" (Val.list []))
  let main_lane := mainCalc (aget hd "main_lane" (Val.str "")) lanes_list
  let roles ← pyList (aget hd "roles" (Val.list []))
  let synergy ← pyList (aget hd "synergy" (Val.list []))
  let counters ← pyList (aget hd "counters" (Val.list []))
  let countered_by ← pyList (aget hd "countered_by" (Val.list []))
  let ban_targets ← pyList (aget hd "ban_targets" (Val.list []))
  .ok [("tier", aget hd "tier" (Val.str "")),
       ("roles", Val.list roles),
       ("lanes", Val.list lanes_list),
       ("main_lane", main_lane),
       ("synergy", Val.list synergy),
       ("counters", Val.list counters),
       ("countered_by", Val.list countered_by),
       ("ban_targets", Val.list ban_targets),
       ("image", aget hd "image" (Val.str "")),
       ("lane_tiers", Val.dict lane_tiers)]

/-- Python `v or dflt`. -/
def orElse0 (v dflt : Val) : Val := if truthy v then v else dflt

/-- Function `_normalize_comp_entry` from app.py: composition entries may be a bare
member list (legacy), a dict, or anything else (coerced to empty). -/
def normalize_comp_entry (entry : Val) : Except String PyDict :=
  match entry with
  | .list xs => do
      let m ← dedupe xs
      let m ← sortM m
      .ok [("members", Val.list m), ("core", Val.str ""), ("counters", Val.list [])]
  | .dict d => do
      let members := orElse0 (aget d "members" (Val.list [])) (Val.list [])
      let core := orElse0 (aget d "core" (Val.str "")) (Val.str "")
      let counters := orElse0 (aget d "counters" (Val.list [])) (Val.list [])
      let ml ← pyList members
      let ml ← dedupe (ml.filter truthy)
      let ml ← sortM ml
      let cl ← pyList counters
      let cl ← dedupe (cl.filter truthy)
      let cl ← sortM cl
      .ok [("members", Val.list ml), ("core", core), ("counters", Val.list cl)]
  | _ => .ok [("members", Val.list []), ("core", Val.str ""), ("counters", Val.list [])]

/-- Function `get_compositions` from app.py: read `__compositions__`, skip falsy
composition names, normalize every entry. -/
def get_compositions (d : PyDict) : Except String (List (String × PyDict)) :=
  match aget d "__compositions__" (Val.dict []) with
  | .dict raw =>
      foldME (fun out nk =>
        if nk.1 == "" then .ok out
        else do
          let e ← normalize_comp_entry nk.2
          .ok (out ++ [(nk.1, e)])) [] raw
  | _ => .ok []

/-- Function `set_compositions` from app.py: re-normalize every entry and store the
result under `__compositions__`. -/
def set_compositions (d : PyDict) (comps : List (String × PyDict)) : Except String PyDict := do
  let clean ← foldME (fun acc ne =>
      if ne.1 == "" then .ok acc
      else do
        let e ← normalize_comp_entry (Val.dict ne.2)
        .ok (acc ++ [(ne.1, Val.dict e)])) ([] : PyDict) comps
  .ok (dset d "__compositions__" (Val.dict clean))

/-- Function `load_data` from app.py, with the file system as an explicit argument:
`none` models an absent backing file, `some (.error ())` a file whose read
or JSON parse fails, `some (.ok v)` a successfully parsed JSON value. -/
def load_data (fs : Option (Except Unit Val)) : Val :=
  match fs with
  | none => Val.dict []
  | some (.error _) => Val.dict []
  | some (.ok v) => match v with | .dict kvs => Val.dict kvs | _ => Val.dict []

/-- The four relationship fields repaired by the reconciler. -/
def relKeys : List String := ["counters", "countered_by", "ban_targets", "synergy"]

/-- The set `names = {n for n in data.keys() if not n.startswith("__")}`. -/
def namesOf (d : PyDict) : List String :=
  (d.map Prod.fst).filter (fun n => !isReserved n)

/-- Step 2 of the reconciler, for one hero: for each relationship field,
drop entries that are not existing hero names or that equal the hero's own
name, dedupe, and count 1 if the field's length changed. -/
def cleanupHero (names : List String) (name : String) (h : PyDict) :
    Except String (PyDict × Nat) :=
  foldME (fun hc key => do
      let xs ← pyList (aget hc.1 key (Val.list []))
      let before := xs.length
      let filtered ← filterME (fun x => do
          let m ← memNames x names
          .ok (m && !eqStr x name)) xs
      let dd ← dedupe filtered
      .ok (dset hc.1 key (Val.list dd),
           if dd.length ≠ before then hc.2 + 1 else hc.2)) (h, 0) relKeys

/-- Step 2 of the reconciler over the whole collection (reserved keys are
skipped). -/
def cleanupAll (names : List String) (data : PyDict) : Except String (PyDict × Nat) :=
  foldME (fun sc kv =>
      if isReserved kv.1 then .ok sc
      else do
        let hd ← asDict kv.2 "AttributeError"
        let (h', dc) ← cleanupHero names kv.1 hd
        .ok (dset sc.1 kv.1 (Val.dict h'), sc.2 + dc)) (data, 0) data

/-- Step 1 of the reconciler: `data[k] = ensure_fields(v)` for every
non-reserved key. -/
def normalizeAll (data : PyDict) : Except String PyDict :=
  mapME (fun kv =>
      if isReserved kv.1 then .ok kv
      else do
        let h ← ensure_fields kv.2
        .ok (kv.1, Val.dict h)) data

/-- One symmetric-link repair attempt of step 3:
`if b in data and a not in data[b][fld]: data[b][fld].append(a); dedupe`. -/
def addLink (a : String) (fld : String) (sc : PyDict × Nat) (b : Val) :
    Except String (PyDict × Nat) :=
  if !hashable b then .error "TypeError"
  else
    match b with
    | .str bs =>
        if !keyMem sc.1 bs then .ok sc
        else do
          let hb ← asDict (aget sc.1 bs Val.null) "TypeError"
          let cur ← dgetE hb fld
          if (← pyContains cur a) then .ok sc
          else do
            let l ← asList cur "AttributeError"
            let newl ← dedupe (l ++ [Val.str a])
            .ok (dset sc.1 bs (Val.dict (dset hb fld (Val.list newl))), sc.2 + 1)
    | _ => .ok sc

/-- Step 3 of the reconciler for one hero `a`: walk `a.counters` adding the
reverse `countered_by` links, then walk `a.countered_by` adding the reverse
`counters` links.  Reads go to the current state, as in the Python (the
snapshot aliases the mutated dicts). -/
def pass2Hero (sc : PyDict × Nat) (a : String) : Except String (PyDict × Nat) := do
  let ha ← asDict (aget sc.1 a Val.null) "TypeError"
  let cs ← pyList (← dgetE ha "counters")
  let sc ← foldME (addLink a "countered_by") sc cs
  let ha2 ← asDict (aget sc.1 a Val.null) "TypeError"
  let cbs ← pyList (← dgetE ha2 "countered_by")
  foldME (addLink a "counters") sc cbs

/-- Function `ensure_bidirectional_relationships` from app.py: normalize every hero,
drop dangling/self references counting changed fields, then repair symmetric
links counting each append; returns the final collection and the change
count. -/
def ensure_bidirectional_relationships (data : PyDict) : Except String (PyDict × Nat) := do
  let st ← normalizeAll data
  let names := namesOf st
  let (st, c) ← cleanupAll names st
  foldME (fun sc a => if isReserved a then .ok sc else pass2Hero sc a) (st, c)
    (st.map Prod.fst)

/-- Composition cascade performed by the delete handler for one entry:
strip the deleted hero from `members` and `counters`, clear `core` if it
matches; report whether anything changed. -/
def cascadeComp (picked : String) (e : PyDict) : Except String (PyDict × Bool) := do
  let members := aget e "members" (Val.list [])
  let r1 ←
    if (← pyContains members picked) then do
      let xs ← pyList members
      .ok (dset e "members" (Val.list (xs.filter (fun x => !eqStr x picked))), true)
    else .ok (e, false)
  let (e, ch) := r1
  let (e, ch) :=
    if eqStr (aget e "core" (Val.str "")) picked then (dset e "core" (Val.str ""), true)
    else (e, ch)
  let counters_c := aget e "counters" (Val.list [])
  if (← pyContains counters_c picked) then do
    let xs ← pyList counters_c
    .ok (dset e "counters" (Val.list (xs.filter (fun x => !eqStr x picked))), true)
  else .ok (e, ch)

/-- The `btn_delete` handler of app.py (data manipulation only): remove the
hero, strip its name from every dict value that has a `"counters"` key,
cascade through the compositions, then reconcile. -/
def delete_hero (picked : String) (data : PyDict) : Except String (PyDict × Nat) := do
  if !keyMem data picked then .error "KeyError"
  else do
    let data := data.filter (fun kv => kv.1 != picked)
    let data ← mapME (fun kv =>
        match kv.2 with
        | .dict hh =>
            if keyMem hh "counters" then do
              let hh ← foldME (fun hh key => do
                  let xs ← pyList (← dgetE hh key)
                  .ok (dset hh key (Val.list (xs.filter (fun x => !eqStr x picked))))) hh relKeys
              .ok (kv.1, Val.dict hh)
            else .ok kv
        | _ => .ok kv) data
    let comps ← get_compositions data
    let (comps, changed) ← foldME (fun acc ne => do
        let (e, ch2) ← cascadeComp picked ne.2
        .ok (acc.1 ++ [(ne.1, e)], acc.2 || ch2))
        (([] : List (String × PyDict)), false) comps
    let data ← if changed then set_compositions data comps else .ok data
    ensure_bidirectional_relationships data

/-- Observation: the raw list stored at relationship field `key` of hero
`n` in a collection (empty if absent or not a list). -/
def relList (st : PyDict) (n key : String) : List Val :=
  match aget st n Val.null with
  | .dict h =>
      match aget h key Val.null with
      | .list xs => xs
      | _ => []
  | _ => []

/-- Observation: whether hero `n`'s relationship field `key` contains the
name `b`. -/
def hasRel (st : PyDict) (n key b : String) : Bool :=
  (relList st n key).any (fun x => eqStr x b)

/-- String entries of a value list (in order). -/
def strEntries : List Val → List String :=
  List.filterMap (fun x => match x with | .str s => some s | _ => none)

/-- Pure counterpart of `dedupe` on string lists: drop empty strings and
duplicates, keeping first occurrences. -/
def dedupNames (seen : List String) : List String → List String
  | [] => []
  | s :: xs =>
      if s == "" then dedupNames seen xs
      else if seen.contains s then dedupNames seen xs
      else s :: dedupNames (s :: seen) xs

/-- Pure spec of one cleanup-field pass: keep string entries that name an
existing, different hero; then drop empties and duplicates. -/
def cleanNames (names : List String) (n : String) (xs : List Val) : List String :=
  dedupNames [] ((strEntries xs).filter (fun s => names.contains s && s != n))

/-- The normalized record of hero `n` in `d` (junk if normalization fails;
only used under a success hypothesis). -/
def heroN (d : PyDict) (n : String) : PyDict :=
  match ensure_fields (aget d n Val.null) with
  | .ok h => h
  | .error _ => []

/-- The raw (post-`ensure_fields`) entry list of a relationship field. -/
def rawRel (d : PyDict) (n key : String) : List Val :=
  match aget (heroN d n) key Val.null with
  | .list xs => xs
  | _ => []

/-- Cleaned `counters` of hero `n` (state after reconciler step 2). -/
def CIl (d : PyDict) (n : String) : List String :=
  cleanNames (namesOf d) n (rawRel d n "counters")

/-- Cleaned `countered_by` of hero `n`. -/
def CBl (d : PyDict) (n : String) : List String :=
  cleanNames (namesOf d) n (rawRel d n "countered_by")

/-- Cleaned `ban_targets` of hero `n`. -/
def BTl (d : PyDict) (n : String) : List String :=
  cleanNames (namesOf d) n (rawRel d n "ban_targets")

/-- Cleaned `synergy` of hero `n`. -/
def SYl (d : PyDict) (n : String) : List String :=
  cleanNames (namesOf d) n (rawRel d n "synergy")

/-- Whether hero `n` of `d` reconciles without raising: `ensure_fields`
succeeds and every relationship entry is hashable. -/
def heroOK (d : PyDict) (n : String) : Bool :=
  (ensure_fields (aget d n Val.null)).isOk &&
    relKeys.all (fun key => (rawRel d n key).all hashable)

/-- Whether the whole collection reconciles without raising. -/
def specOK (d : PyDict) : Bool := (namesOf d).all (heroOK d)

/-- Change count contributed by hero `n` in reconciler step 2: one per
relationship field whose length changed. -/
def heroCleanCount (d : PyDict) (n : String) : Nat :=
  relKeys.foldl (fun c key =>
    if (cleanNames (namesOf d) n (rawRel d n key)).length ≠ (rawRel d n key).length
    then c + 1 else c) 0

/-- Total change count of reconciler step 2. -/
def cleanCount (d : PyDict) : Nat := ((namesOf d).map (heroCleanCount d)).sum

/-- Change count contributed by hero `a` in reconciler step 3: one repair
attempt per asymmetric pair it participates in. -/
def wA (d : PyDict) (a : String) : Nat :=
  ((CIl d a).filter (fun b => !(CBl d b).contains a)).length +
    ((CBl d a).filter (fun b => !(CIl d b).contains a)).length

/-- Total change count returned by the reconciler. -/
def specCount (d : PyDict) : Nat := cleanCount d + ((namesOf d).map (wA d)).sum

/-- Field `counters` of hero `n` after step 3 has processed the heroes in `P`:
the cleaned list plus, in processing order, each processed hero that lists
`n` in its cleaned `countered_by` and was not already present. -/
def pC (d : PyDict) (P : List String) (n : String) : List String :=
  CIl d n ++ P.filter (fun a => a != "" && (CBl d a).contains n && !(CIl d n).contains a)

/-- Field `countered_by` of hero `n` after step 3 has processed the heroes in `P`. -/
def pCB (d : PyDict) (P : List String) (n : String) : List String :=
  CBl d n ++ P.filter (fun a => a != "" && (CIl d a).contains n && !(CBl d n).contains a)

/-- Replace the four relationship fields of a normalized hero record. -/
def withRel (h : PyDict) (cs cb bt sy : List String) : PyDict :=
  dset (dset (dset (dset h "counters" (Val.list (cs.map Val.str)))
    "countered_by" (Val.list (cb.map Val.str)))
    "ban_targets" (Val.list (bt.map Val.str)))
    "synergy" (Val.list (sy.map Val.str))

/-- Intermediate reconciler state: every non-reserved record normalized,
with `counters` given by `fC` and `countered_by` given by `fCB`. -/
def stB (d : PyDict) (fC fCB : String → List String) : PyDict :=
  d.map (fun kv => (kv.1,
    if isReserved kv.1 then kv.2
    else Val.dict (withRel (heroN d kv.1) (fC kv.1) (fCB kv.1) (BTl d kv.1) (SYl d kv.1))))

/-- Reconciler state with step-3 progress `Pc` on `counters` and `Pcb` on
`countered_by`. -/
def stAt2 (d : PyDict) (Pc Pcb : List String) : PyDict := stB d (pC d Pc) (pCB d Pcb)

/-- The reconciler's final state. -/
def specState (d : PyDict) : PyDict := stAt2 d (namesOf d) (namesOf d)

/-! ### Concrete example collections used by the verification results -/

/-- A collection in which a hero is literally named by the empty string. -/
def exC1 : PyDict :=
  [("", Val.dict [("counters", Val.list [Val.str "B"])]), ("B", Val.dict [])]

def exC1w : PyDict :=
  [("A", Val.dict [("counters", Val.list [Val.str "B"])]), ("B", Val.dict [])]

def stC1w : PyDict := specState exC1w

def exC2 : PyDict :=
  [("", Val.dict [("counters", Val.list [Val.str "C"])]), ("C", Val.dict [])]

def exC2w : PyDict :=
  [("D", Val.dict [("counters", Val.list [Val.str "E"])]), ("E", Val.dict [])]

def stC2w : PyDict := specState exC2w

def exC3w : PyDict :=
  [("F", Val.dict [("counters", Val.list [Val.str "G", Val.str "H"])]),
   ("G", Val.dict [])]

def stC3w : PyDict := specState exC3w

/-- One hero field holding two dangling references. -/
def exC4 : PyDict :=
  [("A", Val.dict [("counters", Val.list [Val.str "B", Val.str "C"])])]

def exC4w : PyDict :=
  [("J", Val.dict [("counters", Val.list [Val.str "K"])]), ("K", Val.dict [])]

def stC4w : PyDict := specState exC4w

def exC9 : PyDict :=
  [("__ban_list__", Val.list [Val.str "Z"]),
   ("A", Val.dict [("counters", Val.list [Val.str "__ban_list__"])])]

def exC9w : PyDict :=
  [("__lane_bans__", Val.dict [("mid", Val.list [])]),
   ("L", Val.dict [("counters", Val.list [Val.str "M"])]), ("M", Val.dict [])]

def stC9w : PyDict := specState exC9w

def recC10 : PyDict :=
  match ensure_fields (Val.dict [("tier", Val.str "S"), ("junk", Val.num 3)]) with
  | .ok h => h
  | .error _ => []

/-- The canonical shape of a normalized composition record. -/
def compRec (ms : List Val) (core : Val) (cl : List Val) : PyDict :=
  [("members", Val.list ms), ("core", core), ("counters", Val.list cl)]

/-- Observation: whether a composition record mentions the name `X` among
its members, as its core, or among its counters. -/
def compMentions (X : String) (e : PyDict) : Bool :=
  (match aget e "members" (Val.list []) with
   | .list xs => xs.any (fun x => eqStr x X)
   | _ => false) ||
  eqStr (aget e "core" (Val.str "")) X ||
  (match aget e "counters" (Val.list []) with
   | .list xs => xs.any (fun x => eqStr x X)
   | _ => false)

/-- A full hero record used by the delete-cascade example. -/
def heroRecEx (cs : List Val) : Val :=
  Val.dict [("tier", Val.str ""), ("roles", Val.list []), ("lanes", Val.list []),
    ("main_lane", Val.str ""), ("synergy", Val.list []),
    ("counters", Val.list cs), ("countered_by", Val.list []),
    ("ban_targets", Val.list []), ("image", Val.str ""),
    ("lane_tiers", Val.dict [])]

def exC6 : PyDict :=
  [("P", heroRecEx [Val.str "Q"]), ("Q", heroRecEx []),
   ("__compositions__", Val.dict [("team1", Val.dict
     [("members", Val.list [Val.str "P", Val.str "Q"]),
      ("core", Val.str "P"),
      ("counters", Val.list [Val.str "P"])])])]

def stC6 : PyDict :=
  match delete_hero "P" exC6 with
  | .ok p => p.1
  | .error _ => []

def cC6 : Nat :=
  match delete_hero "P" exC6 with
  | .ok p => p.2
  | .error _ => 0

/-- Two raw hero values equal up to the order of entries within each
relationship list: equal outright, or both dicts that agree on every
non-relationship key and whose relationship lists are permutations. -/
def valEquiv (v1 v2 : Val) : Prop :=
  v1 = v2 ∨ ∃ h1 h2 : PyDict, v1 = Val.dict h1 ∧ v2 = Val.dict h2 ∧
    (∀ k, k ∉ relKeys → alook h1 k = alook h2 k) ∧
    (∀ k ∈ relKeys, alook h1 k = alook h2 k ∨
      ∃ xs1 xs2, alook h1 k = some (Val.list xs1) ∧
        alook h2 k = some (Val.list xs2) ∧ xs1.Perm xs2)

/-- Two collections equal up to hero insertion order and up to the order of
entries within each relationship list. -/
def DataEquiv (d1 d2 : PyDict) : Prop :=
  (d1.map Prod.fst).Perm (d2.map Prod.fst) ∧
  ∀ k v1 v2, alook d1 k = some v1 → alook d2 k = some v2 → valEquiv v1 v2

def exC7a : PyDict :=
  [("A", Val.dict [("counters", Val.list [Val.str "B", Val.str "C"])]),
   ("B", Val.dict []), ("C", Val.dict [])]

def exC7b : PyDict :=
  [("C", Val.dict []), ("B", Val.dict []),
   ("A", Val.dict [("counters", Val.list [Val.str "C", Val.str "B"])])]

def stC7a : PyDict := specState exC7a

def stC7b : PyDict := specState exC7b

/-- The value-level predicate computed by the cleanup list comprehension
`x in names and x != name`, on hashable values. -/
def keepV (names : List String) (n : String) (x : Val) : Bool :=
  (match x with | .str s => names.contains s | _ => false) && !eqStr x n

/-- The canonical ten-field hero record built by `ensure_fields`. -/
def heroRec (t m im : Val) (r ls sy cs cb bt : List Val) (lt : PyDict) : PyDict :=
  [("tier", t), ("roles", Val.list r), ("lanes", Val.list ls), ("main_lane", m),
   ("synergy", Val.list sy), ("counters", Val.list cs), ("countered_by", Val.list cb),
   ("ban_targets", Val.list bt), ("image", im), ("lane_tiers", Val.dict lt)]

/-- Per-field change counter of the cleanup pass. -/
def cnt4 (names : List String) (n : String) (cs cb bt sy : List Val) : Nat :=
  (if (cleanNames names n cs).length ≠ cs.length then 1 else 0) +
  ((if (cleanNames names n cb).length ≠ cb.length then 1 else 0) +
  ((if (cleanNames names n bt).length ≠ bt.length then 1 else 0) +
  (if (cleanNames names n sy).length ≠ sy.length then 1 else 0)))

/-- The state after the normalization pass. -/
def normV (d : PyDict) (k : String) (v : Val) : Val :=
  if isReserved k then v else Val.dict (heroN d k)

/-- The record value after the cleanup pass. -/
def cleanV (d : PyDict) (k : String) (v : Val) : Val :=
  if isReserved k then v
  else Val.dict (withRel (heroN d k) (CIl d k) (CBl d k) (BTl d k) (SYl d k))

/-! ### Association-list lemmas -/

theorem alook_eq_none (l : List (String × α)) (k : String) :
    alook l k = none ↔ k ∉ l.map Prod.fst := by
  induction l with
  | nil => simp [alook]
  | cons kv t ih =>
      obtain ⟨k', v⟩ := kv
      by_cases h : k' = k
      · subst h; simp [alook]
      · simp [alook, h, ih, beq_iff_eq, Ne.symm h]

theorem alook_isSome_iff (l : List (String × α)) (k : String) :
    (alook l k).isSome = true ↔ k ∈ l.map Prod.fst := by
  rw [Option.isSome_iff_ne_none]
  constructor
  · intro h
    by_contra hmem
    exact h ((alook_eq_none l k).mpr hmem)
  · intro h hn
    exact ((alook_eq_none l k).mp hn) h

theorem keyMem_iff (l : List (String × α)) (k : String) :
    keyMem l k = true ↔ k ∈ l.map Prod.fst := by
  unfold keyMem; exact alook_isSome_iff l k

theorem alook_mem (l : List (String × α)) (k : String) (v : α) :
    alook l k = some v → (k, v) ∈ l := by
  induction l with
  | nil => simp [alook]
  | cons kv t ih =>
      obtain ⟨k', v'⟩ := kv
      by_cases h : k' = k
      · subst h
        simp only [alook, beq_self_eq_true, if_pos]
        intro hv
        cases hv
        exact List.mem_cons_self _ _
      · simp only [alook, beq_iff_eq, h, if_false]
        intro hv
        exact List.mem_cons_of_mem _ (ih hv)

theorem alook_of_mem_nodup (l : List (String × α)) (k : String) (v : α)
    (hnd : (l.map Prod.fst).Nodup) (hmem : (k, v) ∈ l) : alook l k = some v := by
  induction l with
  | nil => cases hmem
  | cons kv t ih =>
      obtain ⟨k', v'⟩ := kv
      simp only [List.map_cons, List.nodup_cons] at hnd
      rcases List.mem_cons.mp hmem with h | h
      · cases h; simp [alook]
      · have hk : k' ≠ k := by
          intro he
          refine hnd.1 ?_
          rw [he]
          exact List.mem_map.mpr ⟨(k, v), h, rfl⟩
        simp [alook, beq_iff_eq, hk]
        exact ih hnd.2 h

theorem alook_map (l : List (String × α)) (G : String → α → β) (k : String) :
    alook (l.map (fun kv => (kv.1, G kv.1 kv.2))) k = (alook l k).map (G k) := by
  induction l with
  | nil => simp [alook]
  | cons kv t ih =>
      obtain ⟨k', v'⟩ := kv
      by_cases h : k' = k
      · subst h; simp [alook]
      · simp [alook, beq_iff_eq, h, ih]

theorem alook_dset_self (l : List (String × α)) (k : String) (v : α) :
    alook (dset l k v) k = some v := by
  induction l with
  | nil => simp [dset, alook]
  | cons kv t ih =>
      obtain ⟨k', v'⟩ := kv
      by_cases h : k' = k
      · subst h; simp [dset, alook]
      · simp [dset, alook, beq_iff_eq, h, ih]

theorem alook_dset_ne (l : List (String × α)) (k k' : String) (v : α) (h : k' ≠ k) :
    alook (dset l k v) k' = alook l k' := by
  induction l with
  | nil => simp [dset, alook, beq_iff_eq, Ne.symm h]
  | cons kv t ih =>
      obtain ⟨k₀, v₀⟩ := kv
      by_cases h0 : k₀ = k
      · subst h0
        simp [dset, alook, beq_iff_eq, h, Ne.symm h]
      · simp [dset, alook, beq_iff_eq, h0, ih]

theorem dset_map_fst (l : List (String × α)) (k : String) (v : α)
    (h : k ∈ l.map Prod.fst) : (dset l k v).map Prod.fst = l.map Prod.fst := by
  induction l with
  | nil => cases h
  | cons kv t ih =>
      obtain ⟨k', v'⟩ := kv
      by_cases h0 : k' = k
      · subst h0; simp [dset]
      · simp only [List.map_cons, List.mem_cons] at h
        rcases h with h | h
        · exact absurd h.symm h0
        · simp [dset, beq_iff_eq, h0, ih h]

theorem dset_eq_of_alook (l : List (String × α)) (k : String) (v : α)
    (h : alook l k = some v) : dset l k v = l := by
  induction l with
  | nil => simp [alook] at h
  | cons kv t ih =>
      obtain ⟨k', v'⟩ := kv
      by_cases h0 : k' = k
      · subst h0
        simp only [alook, beq_self_eq_true, if_pos] at h
        cases h
        simp [dset]
      · simp only [alook, beq_iff_eq, h0, if_false] at h
        simp [dset, beq_iff_eq, h0, ih h]

theorem dset_map_nodup (l : List (String × α)) (G : String → α → α) (k : String) (w : α)
    (hnd : (l.map Prod.fst).Nodup) (hk : k ∈ l.map Prod.fst) :
    dset (l.map (fun kv => (kv.1, G kv.1 kv.2))) k w =
      l.map (fun kv => (kv.1, if kv.1 = k then w else G kv.1 kv.2)) := by
  induction l with
  | nil => cases hk
  | cons kv t ih =>
      obtain ⟨k', v'⟩ := kv
      simp only [List.map_cons, List.nodup_cons] at hnd
      by_cases h : k' = k
      · subst h
        simp only [List.map_cons, dset, beq_self_eq_true, if_pos, if_true]
        refine congrArg (fun r => (k', w) :: r) ?_
        refine (List.map_congr_left ?_).symm
        intro kv hmem
        have : kv.1 ≠ k' := by
          intro he
          exact hnd.1 (he ▸ List.mem_map.mpr ⟨kv, hmem, rfl⟩)
        simp [this]
      · simp only [List.map_cons, List.mem_cons] at hk
        rcases hk with hk | hk
        · exact absurd hk.symm h
        · simp [dset, beq_iff_eq, h, ih hnd.2 hk]

theorem aget_dset_self (l : List (String × α)) (k : String) (v dflt : α) :
    aget (dset l k v) k dflt = v := by
  unfold aget; rw [alook_dset_self]; rfl

theorem aget_dset_ne (l : List (String × α)) (k k' : String) (v dflt : α) (h : k' ≠ k) :
    aget (dset l k v) k' dflt = aget l k' dflt := by
  unfold aget; rw [alook_dset_ne _ _ _ _ h]

theorem dset_dset_self (l : List (String × α)) (k : String) (v w : α) :
    dset (dset l k v) k w = dset l k w := by
  induction l with
  | nil => simp [dset]
  | cons kv t ih =>
      obtain ⟨k', v'⟩ := kv
      by_cases h : k' = k
      · subst h; simp [dset]
      · simp [dset, beq_iff_eq, h, ih]

theorem keyMem_dset (l : List (String × α)) (k k' : String) (v : α) :
    keyMem (dset l k v) k' = (keyMem l k' || (k' == k)) := by
  by_cases h : k' = k
  · subst h
    simp [keyMem, alook_dset_self]
  · simp [keyMem, alook_dset_ne _ _ _ _ h, beq_iff_eq, h]

theorem setdefault_of_mem (d : List (String × α)) (k : String) (v : α)
    (h : keyMem d k = true) : setdefault d k v = d := by
  simp [setdefault, h]

theorem alook_append_left (l₁ l₂ : List (String × α)) (k : String)
    (h : k ∈ l₁.map Prod.fst) : alook (l₁ ++ l₂) k = alook l₁ k := by
  induction l₁ with
  | nil => cases h
  | cons kv t ih =>
      obtain ⟨k', v'⟩ := kv
      by_cases h0 : k' = k
      · subst h0; simp [alook]
      · simp only [List.map_cons, List.mem_cons] at h
        rcases h with h | h
        · exact absurd h.symm h0
        · simp [alook, beq_iff_eq, h0, ih h]

theorem alook_append_right (l₁ l₂ : List (String × α)) (k : String)
    (h : k ∉ l₁.map Prod.fst) : alook (l₁ ++ l₂) k = alook l₂ k := by
  induction l₁ with
  | nil => simp
  | cons kv t ih =>
      obtain ⟨k', v'⟩ := kv
      simp only [List.map_cons, List.mem_cons, not_or] at h
      simp [alook, beq_iff_eq, Ne.symm h.1, ih h.2]

theorem alook_setdefault_of_some (d : List (String × α)) (k k' : String) (v w : α)
    (h : alook d k' = some w) : alook (setdefault d k v) k' = some w := by
  unfold setdefault
  by_cases hm : keyMem d k
  · simp [hm, h]
  · simp only [hm, Bool.false_eq_true, if_false]
    rw [alook_append_left]
    · exact h
    · exact List.mem_map.mpr ⟨(k', w), alook_mem _ _ _ h, rfl⟩

theorem keyMem_setdefault_self (d : List (String × α)) (k : String) (v : α) :
    keyMem (setdefault d k v) k = true := by
  unfold setdefault
  by_cases hm : keyMem d k
  · simp [hm]
  · have hnone : alook d k = none := by
      cases ha : alook d k with
      | none => rfl
      | some w => exact absurd (by simp [keyMem, ha]) hm
    rw [if_neg hm]
    unfold keyMem
    rw [alook_append_right _ _ _ ((alook_eq_none d k).mp hnone)]
    simp [alook]

theorem keyMem_setdefault_mono (d : List (String × α)) (k k' : String) (v : α)
    (h : keyMem d k' = true) : keyMem (setdefault d k v) k' = true := by
  rcases Option.isSome_iff_exists.mp h with ⟨w, hw⟩
  exact Option.isSome_iff_exists.mpr ⟨w, alook_setdefault_of_some d k k' v w hw⟩

theorem alook_setdefault_of_none (d : List (String × α)) (k : String) (v : α)
    (h : alook d k = none) : alook (setdefault d k v) k = some v := by
  unfold setdefault
  have hm : keyMem d k = false := by simp [keyMem, h]
  simp only [hm, Bool.false_eq_true, if_false]
  rw [alook_append_right]
  · simp [alook]
  · exact (alook_eq_none d k).mp h

/-! ### Lemmas about the lane-tier completion fold -/

theorem sdFold_keeps (dflt : α) (k : String) (w : α) :
    ∀ (lanes : List String) (d : List (String × α)), alook d k = some w →
      alook (lanes.foldl (fun d lane => setdefault d lane dflt) d) k = some w := by
  intro lanes
  induction lanes with
  | nil => intro d h; exact h
  | cons lane rest ih =>
      intro d h
      exact ih _ (alook_setdefault_of_some d lane k dflt w h)

theorem sdFold_complete (dflt : α) (k : String) :
    ∀ (lanes : List String) (d : List (String × α)), k ∈ lanes →
      keyMem (lanes.foldl (fun d lane => setdefault d lane dflt) d) k = true := by
  intro lanes
  induction lanes with
  | nil => intro d hk; cases hk
  | cons lane rest ih =>
      intro d hk
      rcases List.mem_cons.mp hk with h | h
      · subst h
        rcases Option.isSome_iff_exists.mp (keyMem_setdefault_self d k dflt) with ⟨w, hw⟩
        exact Option.isSome_iff_exists.mpr ⟨w, sdFold_keeps dflt k w rest _ hw⟩
      · exact ih _ h

theorem sdFold_id (lanes : List String) (d : List (String × α)) (dflt : α)
    (h : ∀ lane ∈ lanes, keyMem d lane = true) :
    lanes.foldl (fun d lane => setdefault d lane dflt) d = d := by
  induction lanes with
  | nil => rfl
  | cons lane rest ih =>
      simp only [List.foldl_cons]
      rw [setdefault_of_mem d lane dflt (h lane (List.mem_cons_self _ _))]
      exact ih (fun l hl => h l (List.mem_cons_of_mem _ hl))

theorem sdFold_default (dflt : α) (k : String) :
    ∀ (lanes : List String) (d : List (String × α)), k ∈ lanes → alook d k = none →
      alook (lanes.foldl (fun d lane => setdefault d lane dflt) d) k = some dflt := by
  intro lanes
  induction lanes with
  | nil => intro d hk; cases hk
  | cons lane rest ih =>
      intro d hk h
      by_cases he : lane = k
      · subst he
        exact sdFold_keeps dflt lane dflt rest _ (alook_setdefault_of_none d lane dflt h)
      · rcases List.mem_cons.mp hk with h0 | h0
        · exact absurd h0.symm he
        · refine ih _ h0 ?_
          show alook (setdefault d lane dflt) k = none
          unfold setdefault
          by_cases hm : keyMem d lane
          · simpa [hm]
          · rw [if_neg hm, alook_append_right _ _ _ ((alook_eq_none d k).mp h)]
            simp [alook, beq_iff_eq, he]

/-! ### Lemmas about the monadic combinators -/

theorem foldME_append (f : β → α → Except ε β) (b : β) (l₁ l₂ : List α) :
    foldME f b (l₁ ++ l₂) = (foldME f b l₁).bind (fun b' => foldME f b' l₂) := by
  induction l₁ generalizing b with
  | nil => simp [foldME, Except.bind]
  | cons x xs ih =>
      simp only [List.cons_append, foldME]
      cases f b x with
      | error e => rfl
      | ok b' => exact ih b'

theorem mapME_eq_map (f : α → Except ε β) (g : α → β) (l : List α)
    (h : ∀ x ∈ l, f x = .ok (g x)) : mapME f l = .ok (l.map g) := by
  induction l with
  | nil => rfl
  | cons x xs ih =>
      simp only [mapME, h x (List.mem_cons_self _ _)]
      rw [ih (fun y hy => h y (List.mem_cons_of_mem _ hy))]
      rfl

theorem mapME_ok_mem (f : α → Except ε β) (l : List α) (r : List β)
    (h : mapME f l = .ok r) : ∀ x ∈ l, ∃ y, f x = .ok y := by
  induction l generalizing r with
  | nil => intro x hx; cases hx
  | cons a as ih =>
      intro x hx
      simp only [mapME] at h
      cases hfa : f a with
      | error e => rw [hfa] at h; exact Except.noConfusion h
      | ok y =>
          rw [hfa] at h
          cases hrest : mapME f as with
          | error e => rw [hrest] at h; exact Except.noConfusion h
          | ok ys =>
              rcases List.mem_cons.mp hx with he | hm
              · exact ⟨y, he ▸ hfa⟩
              · exact ih ys hrest x hm

theorem filterME_eq_filter (p : α → Except ε Bool) (q : α → Bool) (l : List α)
    (h : ∀ x ∈ l, p x = .ok (q x)) : filterME p l = .ok (l.filter q) := by
  induction l with
  | nil => rfl
  | cons x xs ih =>
      simp only [filterME, h x (List.mem_cons_self _ _)]
      rw [ih (fun y hy => h y (List.mem_cons_of_mem _ hy))]
      by_cases hq : q x
      · rw [List.filter_cons, if_pos hq, hq]
        rfl
      · simp only [Bool.not_eq_true] at hq
        rw [List.filter_cons, if_neg (by simp [hq]), hq]
        rfl

theorem filterME_ok_mem (p : α → Except ε Bool) (l : List α) (r : List α)
    (h : filterME p l = .ok r) : ∀ x ∈ l, ∃ b, p x = .ok b := by
  induction l generalizing r with
  | nil => intro x hx; cases hx
  | cons a as ih =>
      intro x hx
      simp only [filterME] at h
      cases hfa : p a with
      | error e => rw [hfa] at h; exact Except.noConfusion h
      | ok y =>
          rw [hfa] at h
          cases hrest : filterME p as with
          | error e => rw [hrest] at h; exact Except.noConfusion h
          | ok ys =>
              rcases List.mem_cons.mp hx with he | hm
              · exact ⟨y, he ▸ hfa⟩
              · exact ih ys hrest x hm

/-! ### dedupe on string lists and its pure counterpart -/

theorem contains_iff (l : List String) (s : String) : l.contains s = true ↔ s ∈ l :=
  List.elem_iff

theorem contains_false (l : List String) (s : String) : l.contains s = false ↔ s ∉ l := by
  constructor
  · intro h hm
    have := (contains_iff l s).mpr hm
    rw [h] at this
    cases this
  · intro h
    cases hc : l.contains s with
    | false => rfl
    | true => exact absurd ((contains_iff l s).mp hc) h

theorem str_any_eq_contains (seen : List String) (s : String) :
    (seen.map Val.str).any (fun y => pyEqFlat y (.str s)) = seen.contains s := by
  induction seen with
  | nil => rfl
  | cons t ts ih =>
      simp only [List.map_cons, List.any_cons, List.contains_cons]
      rw [ih, show pyEqFlat (Val.str t) (Val.str s) = (t == s) from rfl,
        show (s == t) = (t == s) by simp [beq_iff_eq, eq_comm]]

theorem dedupeGo_strs (l : List String) : ∀ seen : List String,
    dedupeGo (seen.map Val.str) (l.map Val.str) = .ok ((dedupNames seen l).map Val.str) := by
  induction l with
  | nil => intro seen; rfl
  | cons s xs ih =>
      intro seen
      by_cases h0 : s = ""
      · subst h0
        simp only [List.map_cons, dedupeGo, dedupNames, truthy]
        norm_num
        exact ih seen
      · have ht : truthy (.str s) = true := by simp [truthy, h0]
        by_cases h1 : seen.contains s
        · simp only [List.map_cons, dedupeGo, dedupNames, ht, str_any_eq_contains, h1,
            hashable, Bool.not_true, Bool.false_eq_true, if_false, if_true,
            beq_iff_eq, h0]
          exact ih seen
        · have h1f : seen.contains s = false := by
            cases hc : seen.contains s with
            | false => rfl
            | true => exact absurd hc h1
          simp only [List.map_cons, dedupeGo, dedupNames, ht, str_any_eq_contains, h1f,
            hashable, Bool.not_true, Bool.false_eq_true, if_false, if_true,
            beq_iff_eq, h0]
          rw [show (Val.str s :: List.map Val.str seen) = (s :: seen).map Val.str from rfl]
          rw [ih (s :: seen)]
          rfl

theorem dedupe_strs (l : List String) :
    dedupe (l.map Val.str) = .ok ((dedupNames [] l).map Val.str) := by
  have := dedupeGo_strs l []
  simpa [dedupe] using this

theorem mem_dedupNames (x : String) : ∀ (l seen : List String),
    x ∈ dedupNames seen l ↔ x ∈ l ∧ x ∉ seen ∧ x ≠ "" := by
  intro l
  induction l with
  | nil => intro seen; simp [dedupNames]
  | cons s xs ih =>
      intro seen
      by_cases h0 : s = ""
      · subst h0
        simp only [dedupNames, beq_self_eq_true, if_true, ih, List.mem_cons]
        constructor
        · rintro ⟨h1, h2, h3⟩; exact ⟨Or.inr h1, h2, h3⟩
        · rintro ⟨h1 | h1, h2, h3⟩
          · exact absurd h1 h3
          · exact ⟨h1, h2, h3⟩
      · have h0b : (s == "") = false := by simp [beq_iff_eq, h0]
        by_cases h1 : s ∈ seen
        · have h1b : seen.contains s = true := (contains_iff seen s).mpr h1
          simp only [dedupNames, h0b, Bool.false_eq_true, if_false, h1b, if_true, ih,
            List.mem_cons]
          constructor
          · rintro ⟨ha, hb, hc⟩; exact ⟨Or.inr ha, hb, hc⟩
          · rintro ⟨ha | ha, hb, hc⟩
            · exact absurd (ha ▸ h1) hb
            · exact ⟨ha, hb, hc⟩
        · have h1b : seen.contains s = false := (contains_false seen s).mpr h1
          simp only [dedupNames, h0b, Bool.false_eq_true, if_false, h1b, List.mem_cons, ih]
          constructor
          · rintro (he | ⟨ha, hb, hc⟩)
            · subst he; exact ⟨Or.inl rfl, h1, h0⟩
            · exact ⟨Or.inr ha, fun hm => hb (Or.inr hm), hc⟩
          · rintro ⟨ha | ha, hb, hc⟩
            · exact Or.inl ha
            · by_cases he : x = s
              · exact Or.inl he
              · refine Or.inr ⟨ha, ?_, hc⟩
                rintro (hm | hm)
                · exact he hm
                · exact hb hm

theorem dedupNames_nodup : ∀ (l seen : List String), (dedupNames seen l).Nodup := by
  intro l
  induction l with
  | nil => intro seen; simp [dedupNames]
  | cons s xs ih =>
      intro seen
      by_cases h0 : s = ""
      · subst h0; simpa [dedupNames] using ih seen
      · have h0b : (s == "") = false := by simp [beq_iff_eq, h0]
        by_cases h1 : seen.contains s
        · simp only [dedupNames, h0b, Bool.false_eq_true, if_false, h1, if_true]
          exact ih seen
        · have h1b : seen.contains s = false := by
            cases hc : seen.contains s with
            | false => rfl
            | true => exact absurd hc h1
          simp only [dedupNames, h0b, Bool.false_eq_true, if_false, h1b]
          refine List.nodup_cons.mpr ⟨?_, ih (s :: seen)⟩
          intro hmem
          exact ((mem_dedupNames s xs (s :: seen)).mp hmem).2.1 (List.mem_cons_self _ _)

theorem dedupNames_id : ∀ (l seen : List String), l.Nodup → "" ∉ l →
    (∀ x ∈ l, x ∉ seen) → dedupNames seen l = l := by
  intro l
  induction l with
  | nil => intro seen _ _ _; rfl
  | cons s xs ih =>
      intro seen hnd hne hseen
      have h0 : s ≠ "" := fun he => hne (he ▸ List.mem_cons_self _ _)
      have h0b : (s == "") = false := by simp [beq_iff_eq, h0]
      have h1b : seen.contains s = false :=
        (contains_false seen s).mpr (hseen s (List.mem_cons_self _ _))
      simp only [dedupNames, h0b, Bool.false_eq_true, if_false, h1b]
      refine congrArg (fun r => s :: r) ?_
      refine ih (s :: seen) (List.nodup_cons.mp hnd).2
        (fun hm => hne (List.mem_cons_of_mem _ hm)) ?_
      intro x hx hmem
      rcases List.mem_cons.mp hmem with he | hm
      · exact (List.nodup_cons.mp hnd).1 (he ▸ hx)
      · exact hseen x (List.mem_cons_of_mem _ hx) hm

theorem dedupNames_append_single (a : String) : ∀ (l seen : List String), l.Nodup →
    "" ∉ l → (∀ x ∈ l, x ∉ seen) →
    dedupNames seen (l ++ [a]) =
      if a = "" ∨ a ∈ l ∨ a ∈ seen then l else l ++ [a] := by
  intro l
  induction l with
  | nil =>
      intro seen _ _ _
      by_cases h0 : a = ""
      · simp [dedupNames, h0]
      · have h0b : (a == "") = false := by simp [beq_iff_eq, h0]
        by_cases h1 : a ∈ seen
        · simp [dedupNames, h0b, (contains_iff seen a).mpr h1, h0, h1]
        · simp [dedupNames, h0b, (contains_false seen a).mpr h1, h0, h1]
  | cons s xs ih =>
      intro seen hnd hne hseen
      have h0 : s ≠ "" := fun he => hne (he ▸ List.mem_cons_self _ _)
      have h0b : (s == "") = false := by simp [beq_iff_eq, h0]
      have h1b : seen.contains s = false :=
        (contains_false seen s).mpr (hseen s (List.mem_cons_self _ _))
      have hrec := ih (s :: seen) (List.nodup_cons.mp hnd).2
        (fun hm => hne (List.mem_cons_of_mem _ hm))
        (by
          intro x hx hmem
          rcases List.mem_cons.mp hmem with he | hm
          · exact (List.nodup_cons.mp hnd).1 (he ▸ hx)
          · exact hseen x (List.mem_cons_of_mem _ hx) hm)
      have hcond : (a = "" ∨ a ∈ xs ∨ a ∈ s :: seen) ↔ (a = "" ∨ a ∈ s :: xs ∨ a ∈ seen) := by
        simp only [List.mem_cons]
        tauto
      simp only [List.cons_append, dedupNames, h0b, Bool.false_eq_true, if_false, h1b,
        List.append_eq, hrec]
      by_cases hc : a = "" ∨ a ∈ s :: xs ∨ a ∈ seen
      · rw [if_pos (hcond.mpr hc), if_pos hc]
      · rw [if_neg (fun hx => hc (hcond.mp hx)), if_neg hc]

/-! ### The cleanup filter in pure form -/

theorem cleanup_filter_ok (names : List String) (n : String) (xs : List Val)
    (h : ∀ x ∈ xs, hashable x = true) :
    filterME (fun x => do
        let m ← memNames x names
        Except.ok (m && !eqStr x n)) xs = .ok (xs.filter (keepV names n)) := by
  refine filterME_eq_filter _ (keepV names n) xs ?_
  intro x hx
  unfold memNames
  rw [h x hx]
  rfl

theorem mem_strEntries (s : String) (xs : List Val) :
    s ∈ strEntries xs ↔ Val.str s ∈ xs := by
  unfold strEntries
  rw [List.mem_filterMap]
  constructor
  · rintro ⟨x, hx, hfx⟩
    cases x <;> simp_all
  · intro hx
    exact ⟨Val.str s, hx, rfl⟩

theorem strEntries_map_str (l : List String) : strEntries (l.map Val.str) = l := by
  induction l with
  | nil => rfl
  | cons s xs ih => simp [strEntries, List.filterMap_cons] at ih ⊢; exact ih

theorem filter_keepV_eq (names : List String) (n : String) (xs : List Val) :
    xs.filter (keepV names n) =
      ((strEntries xs).filter (fun s => names.contains s && s != n)).map Val.str := by
  induction xs with
  | nil => rfl
  | cons x rest ih =>
      cases x with
      | str s =>
          simp only [strEntries, List.filterMap_cons] at ih ⊢
          by_cases hk : (names.contains s && s != n) = true
          · have hkv : keepV names n (.str s) = true := by
              simpa [keepV, eqStr, Bool.and_eq_true, bne_iff_ne] using hk
            rw [List.filter_cons, if_pos hkv, List.filter_cons, if_pos hk]
            simp only [List.map_cons]
            rw [ih]
          · have hkv : keepV names n (.str s) = false := by
              cases hc : keepV names n (.str s) with
              | false => rfl
              | true =>
                  refine absurd ?_ hk
                  simpa [keepV, eqStr, Bool.and_eq_true, bne_iff_ne] using hc
            rw [List.filter_cons, if_neg (by simp [hkv]), List.filter_cons,
              if_neg hk]
            exact ih
      | num m =>
          rw [List.filter_cons, if_neg (by simp [keepV])]
          exact ih
      | bool b =>
          rw [List.filter_cons, if_neg (by simp [keepV])]
          exact ih
      | null =>
          rw [List.filter_cons, if_neg (by simp [keepV])]
          exact ih
      | list l =>
          rw [List.filter_cons, if_neg (by simp [keepV])]
          exact ih
      | dict kvs =>
          rw [List.filter_cons, if_neg (by simp [keepV])]
          exact ih

theorem mem_cleanNames (s : String) (names : List String) (n : String) (xs : List Val) :
    s ∈ cleanNames names n xs ↔
      Val.str s ∈ xs ∧ s ∈ names ∧ s ≠ n ∧ s ≠ "" := by
  unfold cleanNames
  rw [mem_dedupNames]
  simp only [List.mem_filter, mem_strEntries, Bool.and_eq_true, bne_iff_ne,
    List.not_mem_nil, not_false_iff, and_true, contains_iff]
  tauto

theorem cleanNames_nodup (names : List String) (n : String) (xs : List Val) :
    (cleanNames names n xs).Nodup := dedupNames_nodup _ _

theorem cleanNames_props (names : List String) (n : String) (xs : List Val) :
    ∀ s ∈ cleanNames names n xs, s ∈ names ∧ s ≠ n ∧ s ≠ "" := by
  intro s hs
  have := (mem_cleanNames s names n xs).mp hs
  exact ⟨this.2.1, this.2.2.1, this.2.2.2⟩

theorem cleanNames_id (names : List String) (n : String) (l : List String)
    (hnd : l.Nodup) (hne : "" ∉ l) (h : ∀ s ∈ l, s ∈ names ∧ s ≠ n) :
    cleanNames names n (l.map Val.str) = l := by
  unfold cleanNames
  rw [strEntries_map_str]
  rw [List.filter_eq_self.mpr]
  · exact dedupNames_id l [] hnd hne (by simp)
  · intro s hs
    simp only [Bool.and_eq_true, bne_iff_ne]
    exact ⟨(contains_iff names s).mpr (h s hs).1, (h s hs).2⟩

/-! ### Inversion and stability of ensure_fields -/

theorem bindE_ok (e : Except ε α) (f : α → Except ε β) (r : β)
    (h : e >>= f = .ok r) : ∃ x, e = .ok x ∧ f x = .ok r := by
  cases e with
  | error err => exact Except.noConfusion h
  | ok x => exact ⟨x, rfl, h⟩

theorem okBind (a : α) (f : α → Except ε β) : (Except.ok a >>= f) = f a := rfl

theorem asDict_ok (v : Val) (e : String) (d : PyDict) (h : asDict v e = .ok d) :
    v = Val.dict d := by
  cases v <;> simp [asDict] at h
  rw [h]

theorem inLanes_truthy (x : Val) (h : inLanes x = true) : truthy x = true := by
  unfold inLanes at h
  rw [List.any_eq_true] at h
  obtain ⟨s, hs, he⟩ := h
  cases x with
  | str t =>
      have ht : t = s := by simpa [eqStr, beq_iff_eq] using he
      subst ht
      have hne : t ≠ "" := by
        intro h0
        rw [h0] at hs
        exact absurd hs (by decide)
      simp [truthy, hne]
  | num n => simp [eqStr] at he
  | bool b => simp [eqStr] at he
  | null => simp [eqStr] at he
  | list xs => simp [eqStr] at he
  | dict kvs => simp [eqStr] at he

theorem mainCalc_stable (m0 : Val) (ls : List Val) :
    mainCalc (mainCalc m0 ls) ls = mainCalc m0 ls := by
  unfold mainCalc
  by_cases ht : truthy m0
  · simp [ht]
  · simp only [ht, Bool.false_eq_true, if_false]
    cases ls with
    | nil => simp [ht]
    | cons x rest =>
        by_cases hl : inLanes x
        · simp [hl, inLanes_truthy x hl]
        · simp [hl, truthy]

theorem withRel_heroRec (t m im : Val) (r ls sy cs cb bt : List Val) (lt : PyDict)
    (cs' cb' bt' sy' : List String) :
    withRel (heroRec t m im r ls sy cs cb bt lt) cs' cb' bt' sy' =
      heroRec t m im r ls (sy'.map Val.str) (cs'.map Val.str) (cb'.map Val.str)
        (bt'.map Val.str) lt := rfl

theorem ensure_fields_shape (v : Val) (h : PyDict) (hok : ensure_fields v = .ok h) :
    ∃ (t m im : Val) (r ls sy cs cb bt : List Val) (lt : PyDict),
      h = heroRec t m im r ls sy cs cb bt lt ∧
      (∀ lane ∈ LANE_CHOICES, keyMem lt lane = true) ∧
      mainCalc m ls = m := by
  unfold ensure_fields at hok
  obtain ⟨hd, hv, hok⟩ := bindE_ok _ _ _ hok
  obtain ⟨ltd, hltd, hok⟩ := bindE_ok _ _ _ hok
  obtain ⟨lanes_list, hll, hok⟩ := bindE_ok _ _ _ hok
  obtain ⟨roles, hr, hok⟩ := bindE_ok _ _ _ hok
  obtain ⟨synergy, hsy, hok⟩ := bindE_ok _ _ _ hok
  obtain ⟨counters, hcs, hok⟩ := bindE_ok _ _ _ hok
  obtain ⟨countered_by, hcb, hok⟩ := bindE_ok _ _ _ hok
  obtain ⟨ban_targets, hbt, hok⟩ := bindE_ok _ _ _ hok
  have hh := (Except.ok.inj hok).symm
  refine ⟨aget hd "tier" (Val.str ""), mainCalc (aget hd "main_lane" (Val.str "")) lanes_list,
    aget hd "image" (Val.str ""), roles, lanes_list, synergy, counters, countered_by,
    ban_targets, LANE_CHOICES.foldl (fun d lane => setdefault d lane (Val.str "")) ltd,
    hh, ?_, mainCalc_stable _ _⟩
  intro lane hlane
  exact sdFold_complete (Val.str "") lane LANE_CHOICES ltd hlane

theorem ensure_fields_heroRec (t m im : Val) (r ls sy cs cb bt : List Val) (lt : PyDict)
    (hlt : ∀ lane ∈ LANE_CHOICES, keyMem lt lane = true)
    (hml : mainCalc m ls = m) :
    ensure_fields (Val.dict (heroRec t m im r ls sy cs cb bt lt)) =
      .ok (heroRec t m im r ls sy cs cb bt lt) := by
  have hne : lt ≠ [] := by
    intro h0
    have := hlt "中路" (by decide)
    rw [h0] at this
    exact absurd this (by simp [keyMem, alook])
  have htr : truthy (Val.dict lt) = true := by
    simp [truthy, hne]
  have hfold : LANE_CHOICES.foldl (fun d lane => setdefault d lane (Val.str "")) lt = lt :=
    sdFold_id _ _ _ hlt
  unfold ensure_fields
  simp [asDict, okBind, aget, alook, pyList, heroRec, htr, hfold, hml]

theorem ensure_fields_withRel (v : Val) (h : PyDict) (hok : ensure_fields v = .ok h)
    (cs cb bt sy : List String) :
    ensure_fields (Val.dict (withRel h cs cb bt sy)) = .ok (withRel h cs cb bt sy) := by
  obtain ⟨t, m, im, r, ls, sy0, cs0, cb0, bt0, lt, hsh, hlt, hml⟩ :=
    ensure_fields_shape v h hok
  subst hsh
  rw [withRel_heroRec]
  exact ensure_fields_heroRec _ _ _ _ _ _ _ _ _ _ hlt hml

theorem cleanupHero_heroRec (names : List String) (n : String) (t m im : Val)
    (r ls sy cs cb bt : List Val) (lt : PyDict)
    (hcs : ∀ x ∈ cs, hashable x = true) (hcb : ∀ x ∈ cb, hashable x = true)
    (hbt : ∀ x ∈ bt, hashable x = true) (hsy : ∀ x ∈ sy, hashable x = true) :
    cleanupHero names n (heroRec t m im r ls sy cs cb bt lt) =
      .ok (heroRec t m im r ls ((cleanNames names n sy).map Val.str)
            ((cleanNames names n cs).map Val.str) ((cleanNames names n cb).map Val.str)
            ((cleanNames names n bt).map Val.str) lt,
           cnt4 names n cs cb bt sy) := by
  have e1 := cleanup_filter_ok names n cs hcs
  have e2 := cleanup_filter_ok names n cb hcb
  have e3 := cleanup_filter_ok names n bt hbt
  have e4 := cleanup_filter_ok names n sy hsy
  unfold cleanupHero relKeys
  simp only [foldME, okBind]
  rw [show pyList (aget (heroRec t m im r ls sy cs cb bt lt) "counters" (Val.list [])) =
    Except.ok cs from rfl, okBind, e1, okBind, filter_keepV_eq, dedupe_strs, okBind]
  rw [show (dset (heroRec t m im r ls sy cs cb bt lt) "counters"
      (Val.list ((dedupNames [] ((strEntries cs).filter (fun s => names.contains s && s != n))).map Val.str))) =
    heroRec t m im r ls sy ((cleanNames names n cs).map Val.str) cb bt lt from rfl]
  simp only [okBind]
  rw [show pyList (aget (heroRec t m im r ls sy ((cleanNames names n cs).map Val.str) cb bt lt)
      "countered_by" (Val.list [])) = Except.ok cb from rfl, okBind, e2, okBind,
    filter_keepV_eq, dedupe_strs, okBind]
  rw [show (dset (heroRec t m im r ls sy ((cleanNames names n cs).map Val.str) cb bt lt) "countered_by"
      (Val.list ((dedupNames [] ((strEntries cb).filter (fun s => names.contains s && s != n))).map Val.str))) =
    heroRec t m im r ls sy ((cleanNames names n cs).map Val.str) ((cleanNames names n cb).map Val.str) bt lt from rfl]
  simp only [okBind]
  rw [show pyList (aget (heroRec t m im r ls sy ((cleanNames names n cs).map Val.str)
      ((cleanNames names n cb).map Val.str) bt lt) "ban_targets" (Val.list [])) =
    Except.ok bt from rfl, okBind, e3, okBind, filter_keepV_eq, dedupe_strs, okBind]
  rw [show (dset (heroRec t m im r ls sy ((cleanNames names n cs).map Val.str) ((cleanNames names n cb).map Val.str) bt lt) "ban_targets"
      (Val.list ((dedupNames [] ((strEntries bt).filter (fun s => names.contains s && s != n))).map Val.str))) =
    heroRec t m im r ls sy ((cleanNames names n cs).map Val.str) ((cleanNames names n cb).map Val.str) ((cleanNames names n bt).map Val.str) lt from rfl]
  simp only [okBind]
  rw [show pyList (aget (heroRec t m im r ls sy ((cleanNames names n cs).map Val.str)
      ((cleanNames names n cb).map Val.str) ((cleanNames names n bt).map Val.str) lt) "synergy" (Val.list [])) =
    Except.ok sy from rfl, okBind, e4, okBind, filter_keepV_eq, dedupe_strs, okBind]
  rw [show (dset (heroRec t m im r ls sy ((cleanNames names n cs).map Val.str) ((cleanNames names n cb).map Val.str) ((cleanNames names n bt).map Val.str) lt) "synergy"
      (Val.list ((dedupNames [] ((strEntries sy).filter (fun s => names.contains s && s != n))).map Val.str))) =
    heroRec t m im r ls ((cleanNames names n sy).map Val.str) ((cleanNames names n cs).map Val.str) ((cleanNames names n cb).map Val.str) ((cleanNames names n bt).map Val.str) lt from rfl]
  simp only [okBind]
  simp only [List.length_map]
  rw [show (dedupNames [] ((strEntries cs).filter (fun s => names.contains s && s != n))) = cleanNames names n cs from rfl,
    show (dedupNames [] ((strEntries cb).filter (fun s => names.contains s && s != n))) = cleanNames names n cb from rfl,
    show (dedupNames [] ((strEntries bt).filter (fun s => names.contains s && s != n))) = cleanNames names n bt from rfl,
    show (dedupNames [] ((strEntries sy).filter (fun s => names.contains s && s != n))) = cleanNames names n sy from rfl]
  unfold cnt4
  split_ifs <;> rfl

/-! ### Facts extracted from specOK -/

theorem heroN_ok (d : PyDict) (hok : specOK d = true) (n : String) (hn : n ∈ namesOf d) :
    ensure_fields (aget d n Val.null) = .ok (heroN d n) := by
  have h1 : heroOK d n = true := List.all_eq_true.mp hok n hn
  unfold heroOK at h1
  rw [Bool.and_eq_true] at h1
  have h2 : (ensure_fields (aget d n Val.null)).isOk = true := h1.1
  cases he : ensure_fields (aget d n Val.null) with
  | error e => rw [he] at h2; cases h2
  | ok h => unfold heroN; rw [he]

theorem heroN_hashable (d : PyDict) (hok : specOK d = true) (n : String)
    (hn : n ∈ namesOf d) (key : String) (hkey : key ∈ relKeys) :
    ∀ x ∈ rawRel d n key, hashable x = true := by
  have h1 : heroOK d n = true := List.all_eq_true.mp hok n hn
  unfold heroOK at h1
  rw [Bool.and_eq_true] at h1
  have h3 := List.all_eq_true.mp h1.2 key hkey
  exact List.all_eq_true.mp h3

theorem heroN_shape (d : PyDict) (hok : specOK d = true) (n : String) (hn : n ∈ namesOf d) :
    ∃ (t m im : Val) (r ls sy cs cb bt : List Val) (lt : PyDict),
      heroN d n = heroRec t m im r ls sy cs cb bt lt ∧
      (∀ lane ∈ LANE_CHOICES, keyMem lt lane = true) ∧
      mainCalc m ls = m := by
  exact ensure_fields_shape _ _ (heroN_ok d hok n hn)

theorem mem_namesOf (d : PyDict) (n : String) :
    n ∈ namesOf d ↔ n ∈ d.map Prod.fst ∧ isReserved n = false := by
  unfold namesOf
  rw [List.mem_filter]
  simp

theorem aget_entry (d : PyDict) (hnd : (d.map Prod.fst).Nodup) (kv : String × Val)
    (hmem : kv ∈ d) : aget d kv.1 Val.null = kv.2 := by
  unfold aget
  rw [alook_of_mem_nodup d kv.1 kv.2 hnd (by cases kv; exact hmem)]
  rfl

theorem normalizeAll_spec (d : PyDict) (hnd : (d.map Prod.fst).Nodup)
    (hok : specOK d = true) :
    normalizeAll d = .ok (d.map (fun kv => (kv.1, normV d kv.1 kv.2))) := by
  unfold normalizeAll
  refine mapME_eq_map _ _ _ ?_
  intro kv hkv
  by_cases hres : isReserved kv.1
  · simp [hres, normV]
  · have hn : kv.1 ∈ namesOf d := by
      rw [mem_namesOf]
      refine ⟨List.mem_map.mpr ⟨kv, hkv, rfl⟩, by simpa using hres⟩
    have := heroN_ok d hok kv.1 hn
    rw [aget_entry d hnd kv hkv] at this
    simp [hres, normV, this, okBind]

theorem dset_append_right (A X : List (String × α)) (k : String) (w : α)
    (h : k ∉ A.map Prod.fst) : dset (A ++ X) k w = A ++ dset X k w := by
  induction A with
  | nil => rfl
  | cons kv t ih =>
      obtain ⟨k', v'⟩ := kv
      simp only [List.map_cons, List.mem_cons, not_or] at h
      simp only [List.cons_append, dset, beq_iff_eq, Ne.symm h.1, if_false, List.append_eq]
      rw [ih h.2]

theorem mapped_fst (l : List (String × α)) (G : String → α → β) :
    (l.map (fun kv => (kv.1, G kv.1 kv.2))).map Prod.fst = l.map Prod.fst := by
  induction l with
  | nil => rfl
  | cons kv t ih => simp [ih]

theorem rawRel_counters (d : PyDict) (n : String) (t m im : Val)
    (r ls sy cs cb bt : List Val) (lt : PyDict)
    (hsh : heroN d n = heroRec t m im r ls sy cs cb bt lt) :
    rawRel d n "counters" = cs := by
  unfold rawRel; rw [hsh]; rfl

theorem rawRel_countered_by (d : PyDict) (n : String) (t m im : Val)
    (r ls sy cs cb bt : List Val) (lt : PyDict)
    (hsh : heroN d n = heroRec t m im r ls sy cs cb bt lt) :
    rawRel d n "countered_by" = cb := by
  unfold rawRel; rw [hsh]; rfl

theorem rawRel_ban_targets (d : PyDict) (n : String) (t m im : Val)
    (r ls sy cs cb bt : List Val) (lt : PyDict)
    (hsh : heroN d n = heroRec t m im r ls sy cs cb bt lt) :
    rawRel d n "ban_targets" = bt := by
  unfold rawRel; rw [hsh]; rfl

theorem rawRel_synergy (d : PyDict) (n : String) (t m im : Val)
    (r ls sy cs cb bt : List Val) (lt : PyDict)
    (hsh : heroN d n = heroRec t m im r ls sy cs cb bt lt) :
    rawRel d n "synergy" = sy := by
  unfold rawRel; rw [hsh]; rfl

theorem CIl_eq (d : PyDict) (n : String) (t m im : Val)
    (r ls sy cs cb bt : List Val) (lt : PyDict)
    (hsh : heroN d n = heroRec t m im r ls sy cs cb bt lt) :
    CIl d n = cleanNames (namesOf d) n cs := by
  unfold CIl; rw [rawRel_counters d n t m im r ls sy cs cb bt lt hsh]

theorem CBl_eq (d : PyDict) (n : String) (t m im : Val)
    (r ls sy cs cb bt : List Val) (lt : PyDict)
    (hsh : heroN d n = heroRec t m im r ls sy cs cb bt lt) :
    CBl d n = cleanNames (namesOf d) n cb := by
  unfold CBl; rw [rawRel_countered_by d n t m im r ls sy cs cb bt lt hsh]

theorem BTl_eq (d : PyDict) (n : String) (t m im : Val)
    (r ls sy cs cb bt : List Val) (lt : PyDict)
    (hsh : heroN d n = heroRec t m im r ls sy cs cb bt lt) :
    BTl d n = cleanNames (namesOf d) n bt := by
  unfold BTl; rw [rawRel_ban_targets d n t m im r ls sy cs cb bt lt hsh]

theorem SYl_eq (d : PyDict) (n : String) (t m im : Val)
    (r ls sy cs cb bt : List Val) (lt : PyDict)
    (hsh : heroN d n = heroRec t m im r ls sy cs cb bt lt) :
    SYl d n = cleanNames (namesOf d) n sy := by
  unfold SYl; rw [rawRel_synergy d n t m im r ls sy cs cb bt lt hsh]

theorem heroCleanCount_cnt4 (d : PyDict) (n : String) (t m im : Val)
    (r ls sy cs cb bt : List Val) (lt : PyDict)
    (hsh : heroN d n = heroRec t m im r ls sy cs cb bt lt) :
    heroCleanCount d n = cnt4 (namesOf d) n cs cb bt sy := by
  unfold heroCleanCount relKeys cnt4
  simp only [List.foldl_cons, List.foldl_nil]
  rw [rawRel_counters d n t m im r ls sy cs cb bt lt hsh,
    rawRel_countered_by d n t m im r ls sy cs cb bt lt hsh,
    rawRel_ban_targets d n t m im r ls sy cs cb bt lt hsh,
    rawRel_synergy d n t m im r ls sy cs cb bt lt hsh]
  split_ifs <;> rfl

theorem cleanupAll_fold (d : PyDict) (hok : specOK d = true) :
    ∀ (d2 A : PyDict) (c0 : Nat),
      (∀ kv ∈ d2, kv ∈ d) →
      (∀ kv ∈ d2, kv.1 ∉ A.map Prod.fst) →
      (d2.map Prod.fst).Nodup →
      foldME (fun sc kv =>
          if isReserved kv.1 then .ok sc
          else do
            let hd ← asDict kv.2 "AttributeError"
            let (h', dc) ← cleanupHero (namesOf d) kv.1 hd
            .ok (dset sc.1 kv.1 (Val.dict h'), sc.2 + dc))
        (A ++ d2.map (fun kv => (kv.1, normV d kv.1 kv.2)), c0)
        (d2.map (fun kv => (kv.1, normV d kv.1 kv.2)))
      = .ok (A ++ d2.map (fun kv => (kv.1, cleanV d kv.1 kv.2)),
             c0 + (((d2.map Prod.fst).filter (fun n => !isReserved n)).map
                    (heroCleanCount d)).sum) := by
  intro d2
  induction d2 with
  | nil =>
      intro A c0 _ _ _
      simp [foldME]
  | cons kv d2' ih =>
      intro A c0 hsub hdisj hnd2
      obtain ⟨k, v⟩ := kv
      simp only [List.map_cons, List.nodup_cons] at hnd2
      by_cases hres : isReserved k
      · have hnv : normV d k v = v := by simp [normV, hres]
        have hcv : cleanV d k v = v := by simp [cleanV, hres]
        simp only [List.map_cons, hnv, hcv, foldME, hres, if_true, okBind]
        rw [List.filter_cons, if_neg (by simp [hres])]
        rw [show A ++ (k, v) :: d2'.map (fun kv => (kv.1, normV d kv.1 kv.2)) =
          (A ++ [(k, v)]) ++ d2'.map (fun kv => (kv.1, normV d kv.1 kv.2)) by simp]
        rw [show A ++ (k, v) :: d2'.map (fun kv => (kv.1, cleanV d kv.1 kv.2)) =
          (A ++ [(k, v)]) ++ d2'.map (fun kv => (kv.1, cleanV d kv.1 kv.2)) by simp]
        refine ih (A ++ [(k, v)]) c0 (fun kv h => hsub kv (List.mem_cons_of_mem _ h)) ?_ hnd2.2
        intro kv' hm
        simp only [List.map_append, List.mem_append, List.map_cons, List.map_nil,
          List.mem_singleton, List.mem_cons, not_or]
        refine ⟨fun hA => hdisj kv' (List.mem_cons_of_mem _ hm) hA, ?_, by simp⟩
        intro he
        exact hnd2.1 (he ▸ List.mem_map.mpr ⟨kv', hm, rfl⟩)
      · have hn : k ∈ namesOf d := by
          rw [mem_namesOf]
          exact ⟨List.mem_map.mpr ⟨(k, v), hsub (k, v) (List.mem_cons_self _ _), rfl⟩,
            by simpa using hres⟩
        obtain ⟨t, m, im, r, ls, sy, cs, cb, bt, lt, hsh, hlt, hml⟩ := heroN_shape d hok k hn
        have hcs := heroN_hashable d hok k hn "counters" (by decide)
        have hcb := heroN_hashable d hok k hn "countered_by" (by decide)
        have hbt := heroN_hashable d hok k hn "ban_targets" (by decide)
        have hsy := heroN_hashable d hok k hn "synergy" (by decide)
        rw [rawRel_counters d k t m im r ls sy cs cb bt lt hsh] at hcs
        rw [rawRel_countered_by d k t m im r ls sy cs cb bt lt hsh] at hcb
        rw [rawRel_ban_targets d k t m im r ls sy cs cb bt lt hsh] at hbt
        rw [rawRel_synergy d k t m im r ls sy cs cb bt lt hsh] at hsy
        have hnv : normV d k v = Val.dict (heroRec t m im r ls sy cs cb bt lt) := by
          simp [normV, hres, hsh]
        have hcv : cleanV d k v =
            Val.dict (heroRec t m im r ls ((cleanNames (namesOf d) k sy).map Val.str)
              ((cleanNames (namesOf d) k cs).map Val.str)
              ((cleanNames (namesOf d) k cb).map Val.str)
              ((cleanNames (namesOf d) k bt).map Val.str) lt) := by
          simp only [cleanV, hres, Bool.false_eq_true, if_false, hsh, withRel_heroRec,
            CIl_eq d k t m im r ls sy cs cb bt lt hsh,
            CBl_eq d k t m im r ls sy cs cb bt lt hsh,
            BTl_eq d k t m im r ls sy cs cb bt lt hsh,
            SYl_eq d k t m im r ls sy cs cb bt lt hsh]
        have hclean := cleanupHero_heroRec (namesOf d) k t m im r ls sy cs cb bt lt
          hcs hcb hbt hsy
        have hdisj0 : k ∉ A.map Prod.fst := hdisj (k, v) (List.mem_cons_self _ _)
        simp only [List.map_cons, hnv, foldME, hres, Bool.false_eq_true, if_false,
          okBind]
        rw [show asDict (Val.dict (heroRec t m im r ls sy cs cb bt lt)) "AttributeError" =
          Except.ok (heroRec t m im r ls sy cs cb bt lt) from rfl, okBind, hclean, okBind]
        rw [dset_append_right _ _ _ _ hdisj0]
        rw [show dset ((k, Val.dict (heroRec t m im r ls sy cs cb bt lt)) ::
            d2'.map (fun kv => (kv.1, normV d kv.1 kv.2))) k
            (Val.dict (heroRec t m im r ls ((cleanNames (namesOf d) k sy).map Val.str)
              ((cleanNames (namesOf d) k cs).map Val.str)
              ((cleanNames (namesOf d) k cb).map Val.str)
              ((cleanNames (namesOf d) k bt).map Val.str) lt)) =
          (k, Val.dict (heroRec t m im r ls ((cleanNames (namesOf d) k sy).map Val.str)
              ((cleanNames (namesOf d) k cs).map Val.str)
              ((cleanNames (namesOf d) k cb).map Val.str)
              ((cleanNames (namesOf d) k bt).map Val.str) lt)) ::
            d2'.map (fun kv => (kv.1, normV d kv.1 kv.2)) by simp [dset]]
        rw [show A ++ (k, Val.dict (heroRec t m im r ls ((cleanNames (namesOf d) k sy).map Val.str)
              ((cleanNames (namesOf d) k cs).map Val.str)
              ((cleanNames (namesOf d) k cb).map Val.str)
              ((cleanNames (namesOf d) k bt).map Val.str) lt)) ::
            d2'.map (fun kv => (kv.1, normV d kv.1 kv.2)) =
          (A ++ [(k, Val.dict (heroRec t m im r ls ((cleanNames (namesOf d) k sy).map Val.str)
              ((cleanNames (namesOf d) k cs).map Val.str)
              ((cleanNames (namesOf d) k cb).map Val.str)
              ((cleanNames (namesOf d) k bt).map Val.str) lt))]) ++
            d2'.map (fun kv => (kv.1, normV d kv.1 kv.2)) by simp]
        have hrw2 : A ++ (k, cleanV d k v) :: d2'.map (fun kv => (kv.1, cleanV d kv.1 kv.2)) =
          (A ++ [(k, Val.dict (heroRec t m im r ls ((cleanNames (namesOf d) k sy).map Val.str)
              ((cleanNames (namesOf d) k cs).map Val.str)
              ((cleanNames (namesOf d) k cb).map Val.str)
              ((cleanNames (namesOf d) k bt).map Val.str) lt))]) ++
            d2'.map (fun kv => (kv.1, cleanV d kv.1 kv.2)) := by
          rw [hcv]; simp
        rw [hrw2]
        have hcount : (((k :: d2'.map Prod.fst).filter (fun n => !isReserved n)).map
            (heroCleanCount d)).sum =
            cnt4 (namesOf d) k cs cb bt sy +
            (((d2'.map Prod.fst).filter (fun n => !isReserved n)).map (heroCleanCount d)).sum := by
          rw [List.filter_cons]
          rw [if_pos (by simpa using hres)]
          simp only [List.map_cons, List.sum_cons]
          rw [heroCleanCount_cnt4 d k t m im r ls sy cs cb bt lt hsh]
        rw [hcount, ← Nat.add_assoc]
        exact ih _ (c0 + cnt4 (namesOf d) k cs cb bt sy)
          (fun kv h => hsub kv (List.mem_cons_of_mem _ h))
          (by
            intro kv' hm
            simp only [List.map_append, List.mem_append, List.map_cons, List.map_nil,
              List.mem_singleton, List.mem_cons, not_or]
            refine ⟨fun hA => hdisj kv' (List.mem_cons_of_mem _ hm) hA, ?_, by simp⟩
            intro he
            exact hnd2.1 (he ▸ List.mem_map.mpr ⟨kv', hm, rfl⟩))
          hnd2.2

theorem cleanupAll_spec (d : PyDict) (hnd : (d.map Prod.fst).Nodup) (hok : specOK d = true) :
    cleanupAll (namesOf d) (d.map (fun kv => (kv.1, normV d kv.1 kv.2))) =
      .ok (d.map (fun kv => (kv.1, cleanV d kv.1 kv.2)), cleanCount d) := by
  unfold cleanupAll
  have := cleanupAll_fold d hok d [] 0 (fun kv h => h) (by simp) hnd
  simpa [cleanCount, namesOf] using this

/-! ### Properties of the cleaned and progressively repaired lists -/

theorem CIl_props (d : PyDict) (n : String) :
    ∀ s ∈ CIl d n, s ∈ namesOf d ∧ s ≠ n ∧ s ≠ "" := cleanNames_props _ _ _

theorem CBl_props (d : PyDict) (n : String) :
    ∀ s ∈ CBl d n, s ∈ namesOf d ∧ s ≠ n ∧ s ≠ "" := cleanNames_props _ _ _

theorem CIl_nodup (d : PyDict) (n : String) : (CIl d n).Nodup := cleanNames_nodup _ _ _

theorem CBl_nodup (d : PyDict) (n : String) : (CBl d n).Nodup := cleanNames_nodup _ _ _

theorem mem_pC (d : PyDict) (P : List String) (n b : String) :
    b ∈ pC d P n ↔ b ∈ CIl d n ∨
      (b ∈ P ∧ b ≠ "" ∧ n ∈ CBl d b ∧ b ∉ CIl d n) := by
  unfold pC
  simp [List.mem_filter, Bool.and_eq_true, bne_iff_ne, contains_iff, and_assoc]

theorem mem_pCB (d : PyDict) (P : List String) (n b : String) :
    b ∈ pCB d P n ↔ b ∈ CBl d n ∨
      (b ∈ P ∧ b ≠ "" ∧ n ∈ CIl d b ∧ b ∉ CBl d n) := by
  unfold pCB
  simp [List.mem_filter, Bool.and_eq_true, bne_iff_ne, contains_iff, and_assoc]

theorem pC_props (d : PyDict) (P : List String) (hP : ∀ p ∈ P, p ∈ namesOf d) (n : String) :
    ∀ b ∈ pC d P n, b ∈ namesOf d ∧ b ≠ n ∧ b ≠ "" := by
  intro b hb
  rcases (mem_pC d P n b).mp hb with h | ⟨h1, h2, h3, _⟩
  · exact CIl_props d n b h
  · refine ⟨hP b h1, ?_, h2⟩
    intro he
    exact (CBl_props d b n h3).2.1 he.symm

theorem pCB_props (d : PyDict) (P : List String) (hP : ∀ p ∈ P, p ∈ namesOf d) (n : String) :
    ∀ b ∈ pCB d P n, b ∈ namesOf d ∧ b ≠ n ∧ b ≠ "" := by
  intro b hb
  rcases (mem_pCB d P n b).mp hb with h | ⟨h1, h2, h3, _⟩
  · exact CBl_props d n b h
  · refine ⟨hP b h1, ?_, h2⟩
    intro he
    exact (CIl_props d b n h3).2.1 he.symm

theorem pC_nodup (d : PyDict) (P : List String) (hP : P.Nodup) (n : String) :
    (pC d P n).Nodup := by
  unfold pC
  rw [List.nodup_append]
  refine ⟨CIl_nodup d n, hP.filter _, ?_⟩
  intro b hb hbf
  rw [List.mem_filter] at hbf
  have := hbf.2
  simp only [Bool.and_eq_true, Bool.not_eq_true'] at this
  exact (contains_false _ _).mp this.2 hb

theorem pCB_nodup (d : PyDict) (P : List String) (hP : P.Nodup) (n : String) :
    (pCB d P n).Nodup := by
  unfold pCB
  rw [List.nodup_append]
  refine ⟨CBl_nodup d n, hP.filter _, ?_⟩
  intro b hb hbf
  rw [List.mem_filter] at hbf
  have := hbf.2
  simp only [Bool.and_eq_true, Bool.not_eq_true'] at this
  exact (contains_false _ _).mp this.2 hb

theorem pC_extend_self (d : PyDict) (P : List String) (a : String) :
    pC d (P ++ [a]) a = pC d P a := by
  unfold pC
  rw [List.filter_append]
  have : [a].filter (fun p => p != "" && (CBl d p).contains a && !(CIl d a).contains p) =
      ([] : List String) ∨
      [a].filter (fun p => p != "" && (CBl d p).contains a && !(CIl d a).contains p) = [a] := by
    by_cases h : (a != "" && (CBl d a).contains a && !(CIl d a).contains a) = true
    · right; rw [List.filter_cons, if_pos h]; rfl
    · left; rw [List.filter_cons, if_neg h]; rfl
  rcases this with h | h
  · rw [h, List.append_nil]
  · exfalso
    have ha : a ∈ [a].filter
        (fun p => p != "" && (CBl d p).contains a && !(CIl d a).contains p) := by
      rw [h]; exact List.mem_cons_self _ _
    rw [List.mem_filter] at ha
    have h2 := ha.2
    simp only [Bool.and_eq_true] at h2
    exact (CBl_props d a a ((contains_iff _ _).mp h2.1.2)).2.1 rfl

theorem pCB_extend_self (d : PyDict) (P : List String) (a : String) :
    pCB d (P ++ [a]) a = pCB d P a := by
  unfold pCB
  rw [List.filter_append]
  have : [a].filter (fun p => p != "" && (CIl d p).contains a && !(CBl d a).contains p) =
      ([] : List String) ∨
      [a].filter (fun p => p != "" && (CIl d p).contains a && !(CBl d a).contains p) = [a] := by
    by_cases h : (a != "" && (CIl d a).contains a && !(CBl d a).contains a) = true
    · right; rw [List.filter_cons, if_pos h]; rfl
    · left; rw [List.filter_cons, if_neg h]; rfl
  rcases this with h | h
  · rw [h, List.append_nil]
  · exfalso
    have ha : a ∈ [a].filter
        (fun p => p != "" && (CIl d p).contains a && !(CBl d a).contains p) := by
      rw [h]; exact List.mem_cons_self _ _
    rw [List.mem_filter] at ha
    have h2 := ha.2
    simp only [Bool.and_eq_true] at h2
    exact (CIl_props d a a ((contains_iff _ _).mp h2.1.2)).2.1 rfl

theorem pC_extend (d : PyDict) (P : List String) (b a : String) :
    pC d (P ++ [a]) b = pC d P b ++
      (if a ≠ "" ∧ b ∈ CBl d a ∧ a ∉ CIl d b then [a] else []) := by
  unfold pC
  rw [List.filter_append, List.append_assoc]
  refine congrArg (fun r => CIl d b ++ r) ?_
  refine congrArg (fun r => List.filter _ P ++ r) ?_
  rw [List.filter_cons]
  by_cases h : a ≠ "" ∧ b ∈ CBl d a ∧ a ∉ CIl d b
  · rw [if_pos (by
      simp only [Bool.and_eq_true, bne_iff_ne, Bool.not_eq_true']
      exact ⟨⟨h.1, (contains_iff _ _).mpr h.2.1⟩, (contains_false _ _).mpr h.2.2⟩),
      if_pos h]
    rfl
  · rw [if_neg (by
      intro hc
      simp only [Bool.and_eq_true, bne_iff_ne, Bool.not_eq_true'] at hc
      exact h ⟨hc.1.1, (contains_iff _ _).mp hc.1.2, (contains_false _ _).mp hc.2⟩),
      if_neg h]
    rfl

theorem pCB_extend (d : PyDict) (P : List String) (b a : String) :
    pCB d (P ++ [a]) b = pCB d P b ++
      (if a ≠ "" ∧ b ∈ CIl d a ∧ a ∉ CBl d b then [a] else []) := by
  unfold pCB
  rw [List.filter_append, List.append_assoc]
  refine congrArg (fun r => CBl d b ++ r) ?_
  refine congrArg (fun r => List.filter _ P ++ r) ?_
  rw [List.filter_cons]
  by_cases h : a ≠ "" ∧ b ∈ CIl d a ∧ a ∉ CBl d b
  · rw [if_pos (by
      simp only [Bool.and_eq_true, bne_iff_ne, Bool.not_eq_true']
      exact ⟨⟨h.1, (contains_iff _ _).mpr h.2.1⟩, (contains_false _ _).mpr h.2.2⟩),
      if_pos h]
    rfl
  · rw [if_neg (by
      intro hc
      simp only [Bool.and_eq_true, bne_iff_ne, Bool.not_eq_true'] at hc
      exact h ⟨hc.1.1, (contains_iff _ _).mp hc.1.2, (contains_false _ _).mp hc.2⟩),
      if_neg h]
    rfl

/-! ### State access lemmas for stB -/

theorem stB_keys (d : PyDict) (fC fCB : String → List String) :
    (stB d fC fCB).map Prod.fst = d.map Prod.fst := by
  unfold stB
  exact mapped_fst d (fun k v => if isReserved k then v else Val.dict (withRel (heroN d k) (fC k) (fCB k) (BTl d k) (SYl d k)))

theorem alook_stB (d : PyDict) (fC fCB : String → List String) (n : String) :
    alook (stB d fC fCB) n = (alook d n).map (fun v =>
      if isReserved n then v
      else Val.dict (withRel (heroN d n) (fC n) (fCB n) (BTl d n) (SYl d n))) := by
  unfold stB
  exact alook_map d (fun k v => if isReserved k then v else Val.dict (withRel (heroN d k) (fC k) (fCB k) (BTl d k) (SYl d k))) n

theorem aget_stB (d : PyDict) (fC fCB : String → List String) (n : String)
    (hn : n ∈ namesOf d) :
    aget (stB d fC fCB) n Val.null =
      Val.dict (withRel (heroN d n) (fC n) (fCB n) (BTl d n) (SYl d n)) := by
  rw [mem_namesOf] at hn
  have h1 : (alook d n).isSome = true := (alook_isSome_iff d n).mpr hn.1
  rcases Option.isSome_iff_exists.mp h1 with ⟨v, hv⟩
  unfold aget
  rw [alook_stB, hv]
  simp [hn.2]

theorem keyMem_stB (d : PyDict) (fC fCB : String → List String) (s : String) :
    keyMem (stB d fC fCB) s = keyMem d s := by
  unfold keyMem
  rw [alook_stB]
  cases alook d s <;> rfl

theorem stB_congr (d : PyDict) (fC fC' fCB fCB' : String → List String)
    (h1 : ∀ n ∈ namesOf d, fC n = fC' n) (h2 : ∀ n ∈ namesOf d, fCB n = fCB' n) :
    stB d fC fCB = stB d fC' fCB' := by
  unfold stB
  refine List.map_congr_left ?_
  intro kv hkv
  by_cases hres : isReserved kv.1
  · simp [hres]
  · have hn : kv.1 ∈ namesOf d := by
      rw [mem_namesOf]
      exact ⟨List.mem_map.mpr ⟨kv, hkv, rfl⟩, by simpa using hres⟩
    simp [hres, h1 kv.1 hn, h2 kv.1 hn]

theorem dset_stB (d : PyDict) (hnd : (d.map Prod.fst).Nodup)
    (fC fCB : String → List String) (b : String) (hb : b ∈ namesOf d)
    (cs' cb' : List String) :
    dset (stB d fC fCB) b
        (Val.dict (withRel (heroN d b) cs' cb' (BTl d b) (SYl d b))) =
      stB d (fun n => if n = b then cs' else fC n)
        (fun n => if n = b then cb' else fCB n) := by
  rw [mem_namesOf] at hb
  unfold stB
  rw [dset_map_nodup d (fun k v => if isReserved k then v else Val.dict (withRel (heroN d k) (fC k) (fCB k) (BTl d k) (SYl d k))) b (Val.dict (withRel (heroN d b) cs' cb' (BTl d b) (SYl d b))) hnd hb.1]
  refine List.map_congr_left ?_
  intro kv hkv
  by_cases he : kv.1 = b
  · rw [he]
    simp [hb.2]
  · simp [he]

theorem strsAny_eqStr (l : List String) (a : String) :
    (l.map Val.str).any (fun x => eqStr x a) = l.contains a := by
  induction l with
  | nil => rfl
  | cons t ts ih =>
      simp only [List.map_cons, List.any_cons, List.contains_cons, ih]
      rw [show eqStr (Val.str t) a = (t == a) from rfl,
        show (a == t) = (t == a) by simp [beq_iff_eq, eq_comm]]

theorem addLink_cb (d : PyDict) (hnd : (d.map Prod.fst).Nodup) (hok : specOK d = true)
    (fC fCB : String → List String) (a b : String) (hb : b ∈ namesOf d) (c : Nat)
    (hnodup : (fCB b).Nodup) (hne : "" ∉ fCB b) :
    addLink a "countered_by" (stB d fC fCB, c) (Val.str b) =
      if a ∈ fCB b then .ok (stB d fC fCB, c)
      else .ok (stB d fC (fun n => if n = b then
          (if a = "" then fCB b else fCB b ++ [a]) else fCB n), c + 1) := by
  obtain ⟨t, m, im, r, ls, sy, cs, cb, bt, lt, hsh, hlt, hml⟩ := heroN_shape d hok b hb
  unfold addLink
  rw [show (!hashable (Val.str b)) = false from rfl]
  simp only [Bool.false_eq_true, if_false]
  rw [show keyMem (stB d fC fCB) b = true from by
    rw [keyMem_stB]; exact (keyMem_iff _ _).mpr ((mem_namesOf d b).mp hb).1]
  simp only [Bool.not_true, Bool.false_eq_true, if_false]
  rw [aget_stB d fC fCB b hb]
  rw [show asDict (Val.dict (withRel (heroN d b) (fC b) (fCB b) (BTl d b) (SYl d b)))
    "TypeError" = Except.ok (withRel (heroN d b) (fC b) (fCB b) (BTl d b) (SYl d b))
    from rfl, okBind]
  rw [hsh, withRel_heroRec]
  rw [show dgetE (heroRec t m im r ls ((SYl d b).map Val.str) ((fC b).map Val.str)
      ((fCB b).map Val.str) ((BTl d b).map Val.str) lt) "countered_by" =
    Except.ok (Val.list ((fCB b).map Val.str)) from rfl, okBind]
  rw [show pyContains (Val.list ((fCB b).map Val.str)) a =
    Except.ok ((fCB b).contains a) from by
      rw [show pyContains (Val.list ((fCB b).map Val.str)) a =
        Except.ok (((fCB b).map Val.str).any (fun x => eqStr x a)) from rfl, strsAny_eqStr],
    okBind]
  by_cases hmem : a ∈ fCB b
  · rw [if_pos ((contains_iff _ _).mpr hmem), if_pos hmem]
  · rw [if_neg (by
      intro hc
      exact hmem ((contains_iff _ _).mp hc)), if_neg hmem]
    rw [show asList (Val.list ((fCB b).map Val.str)) "AttributeError" =
      Except.ok ((fCB b).map Val.str) from rfl, okBind]
    rw [show (fCB b).map Val.str ++ [Val.str a] = ((fCB b) ++ [a]).map Val.str by simp]
    rw [dedupe_strs, okBind]
    rw [dedupNames_append_single a (fCB b) [] hnodup hne (by simp)]
    have hcond : (a = "" ∨ a ∈ fCB b ∨ a ∈ ([] : List String)) ↔ a = "" := by
      simp [hmem]
    by_cases ha0 : a = ""
    · rw [if_pos (hcond.mpr ha0), if_pos ha0]
      rw [show dset (heroRec t m im r ls ((SYl d b).map Val.str) ((fC b).map Val.str)
          ((fCB b).map Val.str) ((BTl d b).map Val.str) lt) "countered_by"
          (Val.list ((fCB b).map Val.str)) =
        heroRec t m im r ls ((SYl d b).map Val.str) ((fC b).map Val.str)
          ((fCB b).map Val.str) ((BTl d b).map Val.str) lt from rfl]
      rw [show heroRec t m im r ls ((SYl d b).map Val.str) ((fC b).map Val.str)
          ((fCB b).map Val.str) ((BTl d b).map Val.str) lt =
        withRel (heroN d b) (fC b) (fCB b) (BTl d b) (SYl d b) from by
          rw [hsh, withRel_heroRec]]
      rw [dset_stB d hnd fC fCB b hb (fC b) (fCB b)]
      rw [stB_congr d (fun n => if n = b then fC b else fC n) fC
        (fun n => if n = b then fCB b else fCB n)
        (fun n => if n = b then fCB b else fCB n)
        (by intro n _; by_cases he : n = b <;> simp [he]) (by intro n _; rfl)]
    · rw [if_neg (fun hc => ha0 (hcond.mp hc)), if_neg ha0]
      rw [show dset (heroRec t m im r ls ((SYl d b).map Val.str) ((fC b).map Val.str)
          ((fCB b).map Val.str) ((BTl d b).map Val.str) lt) "countered_by"
          (Val.list (((fCB b) ++ [a]).map Val.str)) =
        heroRec t m im r ls ((SYl d b).map Val.str) ((fC b).map Val.str)
          (((fCB b) ++ [a]).map Val.str) ((BTl d b).map Val.str) lt from rfl]
      rw [show heroRec t m im r ls ((SYl d b).map Val.str) ((fC b).map Val.str)
          (((fCB b) ++ [a]).map Val.str) ((BTl d b).map Val.str) lt =
        withRel (heroN d b) (fC b) ((fCB b) ++ [a]) (BTl d b) (SYl d b) from by
          rw [hsh, withRel_heroRec]]
      rw [dset_stB d hnd fC fCB b hb (fC b) ((fCB b) ++ [a])]
      rw [stB_congr d (fun n => if n = b then fC b else fC n) fC
        (fun n => if n = b then fCB b ++ [a] else fCB n)
        (fun n => if n = b then fCB b ++ [a] else fCB n)
        (by intro n _; by_cases he : n = b <;> simp [he]) (by intro n _; rfl)]

theorem addLink_c (d : PyDict) (hnd : (d.map Prod.fst).Nodup) (hok : specOK d = true)
    (fC fCB : String → List String) (a b : String) (hb : b ∈ namesOf d) (c : Nat)
    (hnodup : (fC b).Nodup) (hne : "" ∉ fC b) :
    addLink a "counters" (stB d fC fCB, c) (Val.str b) =
      if a ∈ fC b then .ok (stB d fC fCB, c)
      else .ok (stB d (fun n => if n = b then
          (if a = "" then fC b else fC b ++ [a]) else fC n) fCB, c + 1) := by
  obtain ⟨t, m, im, r, ls, sy, cs, cb, bt, lt, hsh, hlt, hml⟩ := heroN_shape d hok b hb
  unfold addLink
  rw [show (!hashable (Val.str b)) = false from rfl]
  simp only [Bool.false_eq_true, if_false]
  rw [show keyMem (stB d fC fCB) b = true from by
    rw [keyMem_stB]; exact (keyMem_iff _ _).mpr ((mem_namesOf d b).mp hb).1]
  simp only [Bool.not_true, Bool.false_eq_true, if_false]
  rw [aget_stB d fC fCB b hb]
  rw [show asDict (Val.dict (withRel (heroN d b) (fC b) (fCB b) (BTl d b) (SYl d b)))
    "TypeError" = Except.ok (withRel (heroN d b) (fC b) (fCB b) (BTl d b) (SYl d b))
    from rfl, okBind]
  rw [hsh, withRel_heroRec]
  rw [show dgetE (heroRec t m im r ls ((SYl d b).map Val.str) ((fC b).map Val.str)
      ((fCB b).map Val.str) ((BTl d b).map Val.str) lt) "counters" =
    Except.ok (Val.list ((fC b).map Val.str)) from rfl, okBind]
  rw [show pyContains (Val.list ((fC b).map Val.str)) a =
    Except.ok ((fC b).contains a) from by
      rw [show pyContains (Val.list ((fC b).map Val.str)) a =
        Except.ok (((fC b).map Val.str).any (fun x => eqStr x a)) from rfl, strsAny_eqStr],
    okBind]
  by_cases hmem : a ∈ fC b
  · rw [if_pos ((contains_iff _ _).mpr hmem), if_pos hmem]
  · rw [if_neg (by
      intro hc
      exact hmem ((contains_iff _ _).mp hc)), if_neg hmem]
    rw [show asList (Val.list ((fC b).map Val.str)) "AttributeError" =
      Except.ok ((fC b).map Val.str) from rfl, okBind]
    rw [show (fC b).map Val.str ++ [Val.str a] = ((fC b) ++ [a]).map Val.str by simp]
    rw [dedupe_strs, okBind]
    rw [dedupNames_append_single a (fC b) [] hnodup hne (by simp)]
    have hcond : (a = "" ∨ a ∈ fC b ∨ a ∈ ([] : List String)) ↔ a = "" := by
      simp [hmem]
    by_cases ha0 : a = ""
    · rw [if_pos (hcond.mpr ha0), if_pos ha0]
      rw [show dset (heroRec t m im r ls ((SYl d b).map Val.str) ((fC b).map Val.str)
          ((fCB b).map Val.str) ((BTl d b).map Val.str) lt) "counters"
          (Val.list ((fC b).map Val.str)) =
        heroRec t m im r ls ((SYl d b).map Val.str) ((fC b).map Val.str)
          ((fCB b).map Val.str) ((BTl d b).map Val.str) lt from rfl]
      rw [show heroRec t m im r ls ((SYl d b).map Val.str) ((fC b).map Val.str)
          ((fCB b).map Val.str) ((BTl d b).map Val.str) lt =
        withRel (heroN d b) (fC b) (fCB b) (BTl d b) (SYl d b) from by
          rw [hsh, withRel_heroRec]]
      rw [dset_stB d hnd fC fCB b hb (fC b) (fCB b)]
      rw [stB_congr d (fun n => if n = b then fC b else fC n)
        (fun n => if n = b then fC b else fC n)
        (fun n => if n = b then fCB b else fCB n) fCB
        (by intro n _; rfl) (by intro n _; by_cases he : n = b <;> simp [he])]
    · rw [if_neg (fun hc => ha0 (hcond.mp hc)), if_neg ha0]
      rw [show dset (heroRec t m im r ls ((SYl d b).map Val.str) ((fC b).map Val.str)
          ((fCB b).map Val.str) ((BTl d b).map Val.str) lt) "counters"
          (Val.list (((fC b) ++ [a]).map Val.str)) =
        heroRec t m im r ls ((SYl d b).map Val.str) (((fC b) ++ [a]).map Val.str)
          ((fCB b).map Val.str) ((BTl d b).map Val.str) lt from rfl]
      rw [show heroRec t m im r ls ((SYl d b).map Val.str) (((fC b) ++ [a]).map Val.str)
          ((fCB b).map Val.str) ((BTl d b).map Val.str) lt =
        withRel (heroN d b) ((fC b) ++ [a]) (fCB b) (BTl d b) (SYl d b) from by
          rw [hsh, withRel_heroRec]]
      rw [dset_stB d hnd fC fCB b hb ((fC b) ++ [a]) (fCB b)]
      rw [stB_congr d (fun n => if n = b then fC b ++ [a] else fC n)
        (fun n => if n = b then fC b ++ [a] else fC n)
        (fun n => if n = b then fCB b else fCB n) fCB
        (by intro n _; rfl) (by intro n _; by_cases he : n = b <;> simp [he])]

theorem foldAdd_cb (d : PyDict) (hnd : (d.map Prod.fst).Nodup) (hok : specOK d = true)
    (a : String) (P : List String) (haP : a ∉ P)
    (hPsub : ∀ p ∈ P, p ∈ namesOf d) (hPnd : P.Nodup) (fC0 : String → List String) :
    ∀ (ts : List String) (g : String → List String) (c : Nat),
      (∀ b ∈ ts, b ∈ pC d P a) → ts.Nodup → (∀ b ∈ ts, g b = pCB d P b) →
      foldME (addLink a "countered_by") (stB d fC0 g, c) (ts.map Val.str) =
      .ok (stB d fC0 (fun n => if n ∈ ts then pCB d (P ++ [a]) n else g n),
           c + (ts.filter (fun b => !(pCB d P b).contains a)).length) := by
  intro ts
  induction ts with
  | nil =>
      intro g c _ _ _
      simp only [List.map_nil, foldME, List.filter_nil, List.length_nil, Nat.add_zero]
      rw [stB_congr d fC0 fC0 (fun n => if n ∈ ([] : List String) then pCB d (P ++ [a]) n else g n) g
        (fun n _ => rfl) (by intro n _; simp)]
  | cons b ts' ih =>
      intro g c hsub hnd' hold
      have hbmem : b ∈ pC d P a := hsub b (List.mem_cons_self _ _)
      have hbN : b ∈ namesOf d := (pC_props d P hPsub a b hbmem).1
      have hgb : g b = pCB d P b := hold b (List.mem_cons_self _ _)
      have hbts' : b ∉ ts' := (List.nodup_cons.mp hnd').1
      simp only [List.map_cons, foldME]
      rw [addLink_cb d hnd hok fC0 g a b hbN c
        (by rw [hgb]; exact pCB_nodup d P hPnd b)
        (by rw [hgb]; intro hc; exact (pCB_props d P hPsub b "" hc).2.2 rfl)]
      rw [hgb]
      by_cases hmem : a ∈ pCB d P b
      · rw [if_pos hmem, okBind]
        rw [ih g c (fun x hx => hsub x (List.mem_cons_of_mem _ hx))
          (List.nodup_cons.mp hnd').2 (fun x hx => hold x (List.mem_cons_of_mem _ hx))]
        have hext : pCB d (P ++ [a]) b = pCB d P b := by
          rw [pCB_extend]
          rw [if_neg, List.append_nil]
          rintro ⟨h1, h2, h3⟩
          rcases (mem_pCB d P b a).mp hmem with hc | ⟨hc, _⟩
          · exact h3 hc
          · exact haP hc
        have hcnt : (List.filter (fun x => !(pCB d P x).contains a) (b :: ts')).length =
            (List.filter (fun x => !(pCB d P x).contains a) ts').length := by
          rw [List.filter_cons, if_neg (by simp [contains_iff, hmem])]
        rw [hcnt]
        refine congrArg (fun st => Except.ok (st, c + _)) ?_
        refine stB_congr d fC0 fC0 _ _ (fun n _ => rfl) ?_
        intro n _
        by_cases hn : n ∈ ts'
        · simp [hn, List.mem_cons]
        · by_cases hnb : n = b
          · subst hnb
            simp [hbts', hext, hgb]
          · simp [hn, hnb, List.mem_cons]
      · rw [if_neg hmem, okBind]
        have hCIl : b ∈ CIl d a := by
          rcases (mem_pC d P a b).mp hbmem with hc | ⟨_, _, hc, _⟩
          · exact hc
          · exact absurd ((mem_pCB d P b a).mpr (Or.inl hc)) hmem
        have hnew : (if a = "" then pCB d P b else pCB d P b ++ [a]) = pCB d (P ++ [a]) b := by
          by_cases ha0 : a = ""
          · rw [if_pos ha0, pCB_extend, if_neg (by rintro ⟨h1, _, _⟩; exact h1 ha0),
              List.append_nil]
          · rw [if_neg ha0, pCB_extend, if_pos ⟨ha0, hCIl, fun hc =>
              hmem ((mem_pCB d P b a).mpr (Or.inl hc))⟩]
        set g1 : String → List String := fun n => if n = b then
            (if a = "" then pCB d P b else pCB d P b ++ [a]) else g n with hg1
        rw [ih g1 (c + 1) (fun x hx => hsub x (List.mem_cons_of_mem _ hx))
          (List.nodup_cons.mp hnd').2 (by
            intro x hx
            rw [hg1]
            simp only
            rw [if_neg (by rintro rfl; exact hbts' hx)]
            exact hold x (List.mem_cons_of_mem _ hx))]
        have hcnt : (List.filter (fun x => !(pCB d P x).contains a) (b :: ts')).length =
            (List.filter (fun x => !(pCB d P x).contains a) ts').length + 1 := by
          rw [List.filter_cons, if_pos (by simp [contains_false, hmem])]
          simp
        rw [hcnt]
        rw [show c + 1 + (List.filter (fun x => !(pCB d P x).contains a) ts').length =
          c + ((List.filter (fun x => !(pCB d P x).contains a) ts').length + 1) by omega]
        refine congrArg (fun st => Except.ok (st, c + _)) ?_
        refine stB_congr d fC0 fC0 _ _ (fun n _ => rfl) ?_
        intro n _
        by_cases hn : n ∈ ts'
        · simp [hn, List.mem_cons]
        · by_cases hnb : n = b
          · subst hnb
            rw [hg1]
            simp [hbts', hnew]
          · rw [hg1]
            simp [hn, hnb, List.mem_cons]

theorem foldAdd_c (d : PyDict) (hnd : (d.map Prod.fst).Nodup) (hok : specOK d = true)
    (a : String) (P : List String) (haP : a ∉ P)
    (hPsub : ∀ p ∈ P, p ∈ namesOf d) (hPnd : P.Nodup) (fCB0 : String → List String) :
    ∀ (ts : List String) (g : String → List String) (c : Nat),
      (∀ b ∈ ts, b ∈ pCB d P a) → ts.Nodup → (∀ b ∈ ts, g b = pC d P b) →
      foldME (addLink a "counters") (stB d g fCB0, c) (ts.map Val.str) =
      .ok (stB d (fun n => if n ∈ ts then pC d (P ++ [a]) n else g n) fCB0,
           c + (ts.filter (fun b => !(pC d P b).contains a)).length) := by
  intro ts
  induction ts with
  | nil =>
      intro g c _ _ _
      simp only [List.map_nil, foldME, List.filter_nil, List.length_nil, Nat.add_zero]
      rw [stB_congr d (fun n => if n ∈ ([] : List String) then pC d (P ++ [a]) n else g n) g
        fCB0 fCB0 (by intro n _; simp) (fun n _ => rfl)]
  | cons b ts' ih =>
      intro g c hsub hnd' hold
      have hbmem : b ∈ pCB d P a := hsub b (List.mem_cons_self _ _)
      have hbN : b ∈ namesOf d := (pCB_props d P hPsub a b hbmem).1
      have hgb : g b = pC d P b := hold b (List.mem_cons_self _ _)
      have hbts' : b ∉ ts' := (List.nodup_cons.mp hnd').1
      simp only [List.map_cons, foldME]
      rw [addLink_c d hnd hok g fCB0 a b hbN c
        (by rw [hgb]; exact pC_nodup d P hPnd b)
        (by rw [hgb]; intro hc; exact (pC_props d P hPsub b "" hc).2.2 rfl)]
      rw [hgb]
      by_cases hmem : a ∈ pC d P b
      · rw [if_pos hmem, okBind]
        rw [ih g c (fun x hx => hsub x (List.mem_cons_of_mem _ hx))
          (List.nodup_cons.mp hnd').2 (fun x hx => hold x (List.mem_cons_of_mem _ hx))]
        have hext : pC d (P ++ [a]) b = pC d P b := by
          rw [pC_extend]
          rw [if_neg, List.append_nil]
          rintro ⟨h1, h2, h3⟩
          rcases (mem_pC d P b a).mp hmem with hc | ⟨hc, _⟩
          · exact h3 hc
          · exact haP hc
        have hcnt : (List.filter (fun x => !(pC d P x).contains a) (b :: ts')).length =
            (List.filter (fun x => !(pC d P x).contains a) ts').length := by
          rw [List.filter_cons, if_neg (by simp [contains_iff, hmem])]
        rw [hcnt]
        refine congrArg (fun st => Except.ok (st, c + _)) ?_
        refine stB_congr d _ _ fCB0 fCB0 ?_ (fun n _ => rfl)
        intro n _
        by_cases hn : n ∈ ts'
        · simp [hn, List.mem_cons]
        · by_cases hnb : n = b
          · subst hnb
            simp [hbts', hext, hgb]
          · simp [hn, hnb, List.mem_cons]
      · rw [if_neg hmem, okBind]
        have hCBl : b ∈ CBl d a := by
          rcases (mem_pCB d P a b).mp hbmem with hc | ⟨_, _, hc, _⟩
          · exact hc
          · exact absurd ((mem_pC d P b a).mpr (Or.inl hc)) hmem
        have hnew : (if a = "" then pC d P b else pC d P b ++ [a]) = pC d (P ++ [a]) b := by
          by_cases ha0 : a = ""
          · rw [if_pos ha0, pC_extend, if_neg (by rintro ⟨h1, _, _⟩; exact h1 ha0),
              List.append_nil]
          · rw [if_neg ha0, pC_extend, if_pos ⟨ha0, hCBl, fun hc =>
              hmem ((mem_pC d P b a).mpr (Or.inl hc))⟩]
        set g1 : String → List String := fun n => if n = b then
            (if a = "" then pC d P b else pC d P b ++ [a]) else g n with hg1
        rw [ih g1 (c + 1) (fun x hx => hsub x (List.mem_cons_of_mem _ hx))
          (List.nodup_cons.mp hnd').2 (by
            intro x hx
            rw [hg1]
            simp only
            rw [if_neg (by rintro rfl; exact hbts' hx)]
            exact hold x (List.mem_cons_of_mem _ hx))]
        have hcnt : (List.filter (fun x => !(pC d P x).contains a) (b :: ts')).length =
            (List.filter (fun x => !(pC d P x).contains a) ts').length + 1 := by
          rw [List.filter_cons, if_pos (by simp [contains_false, hmem])]
          simp
        rw [hcnt]
        rw [show c + 1 + (List.filter (fun x => !(pC d P x).contains a) ts').length =
          c + ((List.filter (fun x => !(pC d P x).contains a) ts').length + 1) by omega]
        refine congrArg (fun st => Except.ok (st, c + _)) ?_
        refine stB_congr d _ _ fCB0 fCB0 ?_ (fun n _ => rfl)
        intro n _
        by_cases hn : n ∈ ts'
        · simp [hn, List.mem_cons]
        · by_cases hnb : n = b
          · subst hnb
            rw [hg1]
            simp [hbts', hnew]
          · rw [hg1]
            simp [hn, hnb, List.mem_cons]

theorem pCB_contains_frozen (d : PyDict) (P : List String) (a : String) (haP : a ∉ P)
    (b : String) : (pCB d P b).contains a = (CBl d b).contains a := by
  by_cases h : a ∈ CBl d b
  · rw [(contains_iff _ _).mpr h, (contains_iff _ _).mpr ((mem_pCB d P b a).mpr (Or.inl h))]
  · rw [(contains_false _ _).mpr h, (contains_false _ _).mpr (by
      intro hc
      rcases (mem_pCB d P b a).mp hc with hc | ⟨hc, _⟩
      · exact h hc
      · exact haP hc)]

theorem pC_contains_frozen (d : PyDict) (P : List String) (a : String) (haP : a ∉ P)
    (b : String) : (pC d P b).contains a = (CIl d b).contains a := by
  by_cases h : a ∈ CIl d b
  · rw [(contains_iff _ _).mpr h, (contains_iff _ _).mpr ((mem_pC d P b a).mpr (Or.inl h))]
  · rw [(contains_false _ _).mpr h, (contains_false _ _).mpr (by
      intro hc
      rcases (mem_pC d P b a).mp hc with hc | ⟨hc, _⟩
      · exact h hc
      · exact haP hc)]

theorem filter_pC_wA (d : PyDict) (P : List String) (a : String) (haP : a ∉ P) :
    (pC d P a).filter (fun b => !(pCB d P b).contains a) =
      (CIl d a).filter (fun b => !(CBl d b).contains a) := by
  unfold pC
  rw [List.filter_append]
  have h2 : List.filter (fun b => !(pCB d P b).contains a)
      (P.filter (fun x => x != "" && (CBl d x).contains a && !(CIl d a).contains x)) = [] := by
    rw [List.filter_eq_nil_iff]
    intro b hb
    rw [List.mem_filter] at hb
    have hmem : a ∈ CBl d b := by
      have := hb.2
      simp only [Bool.and_eq_true] at this
      exact (contains_iff _ _).mp this.1.2
    have hmem2 : a ∈ pCB d P b := (mem_pCB d P b a).mpr (Or.inl hmem)
    intro hc
    rw [(contains_iff _ _).mpr hmem2] at hc
    simp at hc
  rw [h2, List.append_nil]
  refine List.filter_congr ?_
  intro b _
  rw [pCB_contains_frozen d P a haP b]

theorem filter_pCB_wA (d : PyDict) (P : List String) (a : String) (haP : a ∉ P) :
    (pCB d P a).filter (fun b => !(pC d P b).contains a) =
      (CBl d a).filter (fun b => !(CIl d b).contains a) := by
  unfold pCB
  rw [List.filter_append]
  have h2 : List.filter (fun b => !(pC d P b).contains a)
      (P.filter (fun x => x != "" && (CIl d x).contains a && !(CBl d a).contains x)) = [] := by
    rw [List.filter_eq_nil_iff]
    intro b hb
    rw [List.mem_filter] at hb
    have hmem : a ∈ CIl d b := by
      have := hb.2
      simp only [Bool.and_eq_true] at this
      exact (contains_iff _ _).mp this.1.2
    have hmem2 : a ∈ pC d P b := (mem_pC d P b a).mpr (Or.inl hmem)
    intro hc
    rw [(contains_iff _ _).mpr hmem2] at hc
    simp at hc
  rw [h2, List.append_nil]
  refine List.filter_congr ?_
  intro b _
  rw [pC_contains_frozen d P a haP b]

theorem pass2Hero_spec (d : PyDict) (hnd : (d.map Prod.fst).Nodup) (hok : specOK d = true)
    (a : String) (haN : a ∈ namesOf d) (P : List String) (haP : a ∉ P)
    (hPsub : ∀ p ∈ P, p ∈ namesOf d) (hPnd : P.Nodup) (c : Nat) :
    pass2Hero (stAt2 d P P, c) a =
      .ok (stAt2 d (P ++ [a]) (P ++ [a]), c + wA d a) := by
  obtain ⟨t, m, im, r, ls, sy, cs, cb, bt, lt, hsh, hlt, hml⟩ := heroN_shape d hok a haN
  unfold pass2Hero stAt2
  rw [show ((stB d (pC d P) (pCB d P), c).1) = stB d (pC d P) (pCB d P) from rfl]
  rw [aget_stB d (pC d P) (pCB d P) a haN]
  rw [show asDict (Val.dict (withRel (heroN d a) (pC d P a) (pCB d P a) (BTl d a)
    (SYl d a))) "TypeError" = Except.ok (withRel (heroN d a) (pC d P a) (pCB d P a)
    (BTl d a) (SYl d a)) from rfl, okBind]
  rw [hsh, withRel_heroRec]
  rw [show dgetE (heroRec t m im r ls ((SYl d a).map Val.str) ((pC d P a).map Val.str)
      ((pCB d P a).map Val.str) ((BTl d a).map Val.str) lt) "counters" =
    Except.ok (Val.list ((pC d P a).map Val.str)) from rfl, okBind]
  rw [show pyList (Val.list ((pC d P a).map Val.str)) =
    Except.ok ((pC d P a).map Val.str) from rfl, okBind]
  rw [foldAdd_cb d hnd hok a P haP hPsub hPnd (pC d P) (pC d P a) (pCB d P) c
    (fun b hb => hb) (pC_nodup d P hPnd a) (fun b _ => rfl)]
  rw [stB_congr d (pC d P) (pC d P)
    (fun n => if n ∈ pC d P a then pCB d (P ++ [a]) n else pCB d P n) (pCB d (P ++ [a]))
    (fun n _ => rfl) (by
      intro n _
      show (if n ∈ pC d P a then pCB d (P ++ [a]) n else pCB d P n) = pCB d (P ++ [a]) n
      by_cases hmem : n ∈ pC d P a
      · rw [if_pos hmem]
      · rw [if_neg hmem, pCB_extend, if_neg (by
          rintro ⟨h1, h2, h3⟩
          exact hmem ((mem_pC d P a n).mpr (Or.inl h2))), List.append_nil])]
  rw [okBind]
  rw [show ((stB d (pC d P) (pCB d (P ++ [a])),
    c + (List.filter (fun b => !(pCB d P b).contains a) (pC d P a)).length).1) =
    stB d (pC d P) (pCB d (P ++ [a])) from rfl]
  rw [aget_stB d (pC d P) (pCB d (P ++ [a])) a haN]
  rw [show asDict (Val.dict (withRel (heroN d a) (pC d P a) (pCB d (P ++ [a]) a)
    (BTl d a) (SYl d a))) "TypeError" = Except.ok (withRel (heroN d a) (pC d P a)
    (pCB d (P ++ [a]) a) (BTl d a) (SYl d a)) from rfl, okBind]
  rw [hsh, withRel_heroRec]
  rw [show dgetE (heroRec t m im r ls ((SYl d a).map Val.str) ((pC d P a).map Val.str)
      ((pCB d (P ++ [a]) a).map Val.str) ((BTl d a).map Val.str) lt) "countered_by" =
    Except.ok (Val.list ((pCB d (P ++ [a]) a).map Val.str)) from rfl, okBind]
  rw [show pyList (Val.list ((pCB d (P ++ [a]) a).map Val.str)) =
    Except.ok ((pCB d (P ++ [a]) a).map Val.str) from rfl, okBind]
  rw [pCB_extend_self]
  rw [foldAdd_c d hnd hok a P haP hPsub hPnd (pCB d (P ++ [a])) (pCB d P a) (pC d P) _
    (fun b hb => hb) (pCB_nodup d P hPnd a) (fun b _ => rfl)]
  rw [stB_congr d
    (fun n => if n ∈ pCB d P a then pC d (P ++ [a]) n else pC d P n) (pC d (P ++ [a]))
    (pCB d (P ++ [a])) (pCB d (P ++ [a]))
    (by
      intro n _
      show (if n ∈ pCB d P a then pC d (P ++ [a]) n else pC d P n) = pC d (P ++ [a]) n
      by_cases hmem : n ∈ pCB d P a
      · rw [if_pos hmem]
      · rw [if_neg hmem, pC_extend, if_neg (by
          rintro ⟨h1, h2, h3⟩
          exact hmem ((mem_pCB d P a n).mpr (Or.inl h2))), List.append_nil])
    (fun n _ => rfl)]
  rw [filter_pC_wA d P a haP, filter_pCB_wA d P a haP]
  refine congrArg (fun k => Except.ok (stB d (pC d (P ++ [a])) (pCB d (P ++ [a])), k)) ?_
  unfold wA
  omega

theorem namesOf_nodup (d : PyDict) (hnd : (d.map Prod.fst).Nodup) : (namesOf d).Nodup :=
  hnd.filter _

theorem pass2_fold (d : PyDict) (hnd : (d.map Prod.fst).Nodup) (hok : specOK d = true) :
    ∀ (K P : List String) (c : Nat),
      namesOf d = P ++ K.filter (fun n => !isReserved n) →
      foldME (fun sc a => if isReserved a then .ok sc else pass2Hero sc a)
        (stAt2 d P P, c) K =
      .ok (stAt2 d (namesOf d) (namesOf d),
        c + ((K.filter (fun n => !isReserved n)).map (wA d)).sum) := by
  intro K
  induction K with
  | nil =>
      intro P c hP
      simp only [List.filter_nil, List.append_nil] at hP
      simp only [foldME, List.filter_nil, List.map_nil, List.sum_nil, Nat.add_zero, hP]
  | cons k K' ih =>
      intro P c hP
      by_cases hres : isReserved k
      · have hf : (k :: K').filter (fun n => !isReserved n) =
            K'.filter (fun n => !isReserved n) :=
          List.filter_cons_of_neg (by simp [hres])
        rw [hf] at hP
        simp only [foldME]
        rw [if_pos hres, okBind, hf]
        exact ih P c hP
      · have hf : (k :: K').filter (fun n => !isReserved n) =
            k :: K'.filter (fun n => !isReserved n) :=
          List.filter_cons_of_pos (by simp [hres])
        rw [hf] at hP
        have hkN : k ∈ namesOf d := by
          rw [hP]
          exact List.mem_append_right _ (List.mem_cons_self _ _)
        have hnodN : (namesOf d).Nodup := namesOf_nodup d hnd
        rw [hP, List.nodup_append] at hnodN
        have hkP : k ∉ P := fun hc => hnodN.2.2 hc (List.mem_cons_self _ _)
        have hPsub : ∀ p ∈ P, p ∈ namesOf d := by
          intro p hp
          rw [hP]
          exact List.mem_append_left _ hp
        simp only [foldME]
        rw [if_neg hres]
        rw [pass2Hero_spec d hnd hok k hkN P hkP hPsub hnodN.1 c, okBind]
        rw [ih (P ++ [k]) (c + wA d k) (by
          rw [hP, List.append_assoc]
          rfl)]
        rw [hf, List.map_cons, List.sum_cons]
        refine congrArg (fun n => Except.ok (stAt2 d (namesOf d) (namesOf d), n)) ?_
        omega

theorem clean_eq_stAt2 (d : PyDict) :
    d.map (fun kv => (kv.1, cleanV d kv.1 kv.2)) = stAt2 d [] [] := by
  unfold stAt2 stB
  refine List.map_congr_left ?_
  intro kv _
  by_cases hres : isReserved kv.1
  · simp [cleanV, hres]
  · simp [cleanV, hres, pC, pCB, CIl, CBl]

/-- On a duplicate-free collection every hero of which reconciles cleanly,
`ensure_bidirectional_relationships` succeeds and returns exactly the spec
state and the spec change count. -/
theorem reconcile_spec (d : PyDict) (hnd : (d.map Prod.fst).Nodup)
    (hok : specOK d = true) :
    ensure_bidirectional_relationships d = .ok (specState d, specCount d) := by
  unfold ensure_bidirectional_relationships
  rw [normalizeAll_spec d hnd hok, okBind]
  rw [show namesOf (d.map (fun kv => (kv.1, normV d kv.1 kv.2))) = namesOf d from by
    unfold namesOf
    rw [mapped_fst d (fun k v => normV d k v)]]
  dsimp only
  rw [cleanupAll_spec d hnd hok, okBind]
  dsimp only
  rw [clean_eq_stAt2 d]
  rw [show (stAt2 d ([] : List String) ([] : List String)).map Prod.fst =
    d.map Prod.fst from stB_keys d _ _]
  rw [pass2_fold d hnd hok (d.map Prod.fst) [] (cleanCount d) (by
    rw [List.nil_append]
    rfl)]
  unfold specState specCount
  rfl

theorem foldME_ok_mem (f : β → α → Except ε β) (b : β) (l : List α) (r : β)
    (h : foldME f b l = .ok r) : ∀ x ∈ l, ∃ b1 b2, f b1 x = .ok b2 := by
  induction l generalizing b with
  | nil => intro x hx; cases hx
  | cons a as ih =>
      intro x hx
      simp only [foldME] at h
      obtain ⟨b', hb', h⟩ := bindE_ok _ _ _ h
      rcases List.mem_cons.mp hx with rfl | hm
      · exact ⟨b, b', hb'⟩
      · exact ih b' h x hm

theorem mapME_ok_forall2 (f : α → Except ε β) :
    ∀ (l : List α) (r : List β), mapME f l = .ok r →
      List.Forall₂ (fun x y => f x = .ok y) l r := by
  intro l
  induction l with
  | nil =>
      intro r h
      simp only [mapME] at h
      rw [← Except.ok.inj h]
      exact List.Forall₂.nil
  | cons a as ih =>
      intro r h
      simp only [mapME] at h
      obtain ⟨y, hy, h⟩ := bindE_ok _ _ _ h
      obtain ⟨ys, hys, h⟩ := bindE_ok _ _ _ h
      rw [← Except.ok.inj h]
      exact List.Forall₂.cons hy (ih ys hys)

theorem forall2_mem_left (R : α → β → Prop) (l : List α) (r : List β)
    (h : List.Forall₂ R l r) : ∀ x ∈ l, ∃ y ∈ r, R x y := by
  induction h with
  | nil => intro x hx; cases hx
  | cons hR hrest ih =>
      intro x hx
      rcases List.mem_cons.mp hx with rfl | hm
      · exact ⟨_, List.mem_cons_self _ _, hR⟩
      · obtain ⟨y, hy, hRy⟩ := ih x hm
        exact ⟨y, List.mem_cons_of_mem _ hy, hRy⟩

theorem memNames_ok_hashable (x : Val) (names : List String) (b : Bool)
    (h : memNames x names = .ok b) : hashable x = true := by
  unfold memNames at h
  by_cases hh : hashable x
  · exact hh
  · rw [if_neg hh] at h
    exact Except.noConfusion h

theorem filterME_clean_hashable (names : List String) (name : String) (xs ys : List Val)
    (h : filterME (fun x => do
        let m ← memNames x names
        Except.ok (m && !eqStr x name)) xs = .ok ys) :
    ∀ x ∈ xs, hashable x = true := by
  intro x hx
  obtain ⟨b, hb⟩ := filterME_ok_mem _ _ _ h x hx
  obtain ⟨mb, hm, _⟩ := bindE_ok _ _ _ hb
  exact memNames_ok_hashable x names mb hm

theorem cleanupHero_ok_hashable (namesL : List String) (nameS : String) (t m im : Val)
    (r ls sy cs cb bt : List Val) (lt : PyDict) (pr : PyDict × Nat)
    (h : cleanupHero namesL nameS (heroRec t m im r ls sy cs cb bt lt) = .ok pr) :
    (∀ x ∈ cs, hashable x = true) ∧ (∀ x ∈ cb, hashable x = true) ∧
    (∀ x ∈ bt, hashable x = true) ∧ (∀ x ∈ sy, hashable x = true) := by
  unfold cleanupHero at h
  simp only [relKeys, foldME] at h
  obtain ⟨b1, h1, h⟩ := bindE_ok _ _ _ h
  rw [show pyList (aget ((heroRec t m im r ls sy cs cb bt lt, 0) : PyDict × Nat).1
    "counters" (Val.list [])) = Except.ok cs from rfl, okBind] at h1
  obtain ⟨f1, hf1, h1⟩ := bindE_ok _ _ _ h1
  obtain ⟨d1, hd1, h1⟩ := bindE_ok _ _ _ h1
  have hb1 := Except.ok.inj h1
  subst hb1
  obtain ⟨b2, h2, h⟩ := bindE_ok _ _ _ h
  rw [show pyList (aget ((dset ((heroRec t m im r ls sy cs cb bt lt, 0) : PyDict × Nat).1
      "counters" (Val.list d1), if d1.length ≠ cs.length then 1 else 0) : PyDict × Nat).1
    "countered_by" (Val.list [])) = Except.ok cb from rfl, okBind] at h2
  obtain ⟨f2, hf2, h2⟩ := bindE_ok _ _ _ h2
  obtain ⟨d2, hd2, h2⟩ := bindE_ok _ _ _ h2
  have hb2 := Except.ok.inj h2
  subst hb2
  obtain ⟨b3, h3, h⟩ := bindE_ok _ _ _ h
  rw [show pyList (aget (dset (dset ((heroRec t m im r ls sy cs cb bt lt, 0) : PyDict × Nat).1
      "counters" (Val.list d1)) "countered_by" (Val.list d2))
    "ban_targets" (Val.list [])) = Except.ok bt from rfl, okBind] at h3
  obtain ⟨f3, hf3, h3⟩ := bindE_ok _ _ _ h3
  obtain ⟨d3, hd3, h3⟩ := bindE_ok _ _ _ h3
  have hb3 := Except.ok.inj h3
  subst hb3
  obtain ⟨b4, h4, h⟩ := bindE_ok _ _ _ h
  rw [show pyList (aget (dset (dset (dset
      ((heroRec t m im r ls sy cs cb bt lt, 0) : PyDict × Nat).1
      "counters" (Val.list d1)) "countered_by" (Val.list d2)) "ban_targets" (Val.list d3))
    "synergy" (Val.list [])) = Except.ok sy from rfl, okBind] at h4
  obtain ⟨f4, hf4, h4⟩ := bindE_ok _ _ _ h4
  exact ⟨filterME_clean_hashable namesL nameS cs f1 hf1,
    filterME_clean_hashable namesL nameS cb f2 hf2,
    filterME_clean_hashable namesL nameS bt f3 hf3,
    filterME_clean_hashable namesL nameS sy f4 hf4⟩

/-- If `ensure_bidirectional_relationships` succeeds on a duplicate-free
collection, every hero reconciles cleanly. -/
theorem reconcile_ok_specOK (d : PyDict) (hnd : (d.map Prod.fst).Nodup)
    (p : PyDict × Nat) (hE : ensure_bidirectional_relationships d = .ok p) :
    specOK d = true := by
  unfold ensure_bidirectional_relationships at hE
  obtain ⟨st, h1, h2⟩ := bindE_ok _ _ _ hE
  dsimp only at h2
  obtain ⟨sc, h3, _⟩ := bindE_ok _ _ _ h2
  unfold specOK
  rw [List.all_eq_true]
  intro n hn
  have hn' := hn
  rw [mem_namesOf] at hn'
  obtain ⟨kv, hkv, hkv1⟩ := List.mem_map.mp hn'.1
  have hres : ¬ isReserved kv.1 = true := by
    rw [hkv1, hn'.2]
    exact Bool.false_ne_true
  obtain ⟨y, hym, hy⟩ := forall2_mem_left _ _ _ (mapME_ok_forall2 _ _ _ h1) kv hkv
  rw [if_neg hres] at hy
  obtain ⟨hrec, hef, hy2⟩ := bindE_ok _ _ _ hy
  have hyval : y = (kv.1, Val.dict hrec) := (Except.ok.inj hy2).symm
  have hag : aget d n Val.null = kv.2 := by
    rw [← hkv1]
    exact aget_entry d hnd kv hkv
  obtain ⟨t, m, im, r, ls, sy, cs, cb, bt, lt, hsh, _, _⟩ := ensure_fields_shape kv.2 hrec hef
  have hheroN : heroN d n = heroRec t m im r ls sy cs cb bt lt := by
    unfold heroN
    rw [hag, hef]
    exact hsh
  unfold heroOK
  rw [Bool.and_eq_true]
  constructor
  · rw [hag, hef]
    rfl
  · obtain ⟨sc1, sc2, hstep⟩ := foldME_ok_mem _ _ _ _ h3 y hym
    rw [hyval] at hstep
    rw [show ((kv.1, Val.dict hrec) : String × Val).1 = kv.1 from rfl,
      show ((kv.1, Val.dict hrec) : String × Val).2 = Val.dict hrec from rfl] at hstep
    rw [if_neg hres] at hstep
    rw [show asDict (Val.dict hrec) "AttributeError" = Except.ok hrec from rfl,
      okBind] at hstep
    obtain ⟨pr, hch, _⟩ := bindE_ok _ _ _ hstep
    rw [hsh] at hch
    obtain ⟨hcs, hcb, hbt, hsy⟩ :=
      cleanupHero_ok_hashable (namesOf st) kv.1 t m im r ls sy cs cb bt lt pr hch
    have hraw : ∀ key xs, aget (heroRec t m im r ls sy cs cb bt lt) key Val.null =
        Val.list xs → rawRel d n key = xs := by
      intro key xs hk
      unfold rawRel
      rw [hheroN, hk]
    simp only [relKeys, List.all_cons, List.all_nil, Bool.and_true, Bool.and_eq_true]
    refine ⟨?_, ?_, ?_, ?_⟩ <;> rw [List.all_eq_true]
    · rw [hraw "counters" cs rfl]
      exact hcs
    · rw [hraw "countered_by" cb rfl]
      exact hcb
    · rw [hraw "ban_targets" bt rfl]
      exact hbt
    · rw [hraw "synergy" sy rfl]
      exact hsy

/-! ### The reconciled state viewed as an input collection -/

theorem namesOf_stB (d : PyDict) (fC fCB : String → List String) :
    namesOf (stB d fC fCB) = namesOf d := by
  unfold namesOf
  rw [stB_keys]

theorem heroN_stB (d : PyDict) (hok : specOK d = true) (fC fCB : String → List String)
    (n : String) (hn : n ∈ namesOf d) :
    heroN (stB d fC fCB) n = withRel (heroN d n) (fC n) (fCB n) (BTl d n) (SYl d n) := by
  have h1 : ensure_fields (aget (stB d fC fCB) n Val.null) =
      .ok (withRel (heroN d n) (fC n) (fCB n) (BTl d n) (SYl d n)) := by
    rw [aget_stB d fC fCB n hn]
    exact ensure_fields_withRel _ _ (heroN_ok d hok n hn) (fC n) (fCB n) (BTl d n) (SYl d n)
  unfold heroN
  rw [h1, heroN_ok d hok n hn]

theorem rawRel_stB_c (d : PyDict) (hok : specOK d = true) (fC fCB : String → List String)
    (n : String) (hn : n ∈ namesOf d) :
    rawRel (stB d fC fCB) n "counters" = (fC n).map Val.str := by
  obtain ⟨t, m, im, r, ls, sy, cs, cb, bt, lt, hsh, _, _⟩ := heroN_shape d hok n hn
  unfold rawRel
  rw [heroN_stB d hok fC fCB n hn, hsh, withRel_heroRec]
  rfl

theorem rawRel_stB_cb (d : PyDict) (hok : specOK d = true) (fC fCB : String → List String)
    (n : String) (hn : n ∈ namesOf d) :
    rawRel (stB d fC fCB) n "countered_by" = (fCB n).map Val.str := by
  obtain ⟨t, m, im, r, ls, sy, cs, cb, bt, lt, hsh, _, _⟩ := heroN_shape d hok n hn
  unfold rawRel
  rw [heroN_stB d hok fC fCB n hn, hsh, withRel_heroRec]
  rfl

theorem rawRel_stB_bt (d : PyDict) (hok : specOK d = true) (fC fCB : String → List String)
    (n : String) (hn : n ∈ namesOf d) :
    rawRel (stB d fC fCB) n "ban_targets" = (BTl d n).map Val.str := by
  obtain ⟨t, m, im, r, ls, sy, cs, cb, bt, lt, hsh, _, _⟩ := heroN_shape d hok n hn
  unfold rawRel
  rw [heroN_stB d hok fC fCB n hn, hsh, withRel_heroRec]
  rfl

theorem rawRel_stB_sy (d : PyDict) (hok : specOK d = true) (fC fCB : String → List String)
    (n : String) (hn : n ∈ namesOf d) :
    rawRel (stB d fC fCB) n "synergy" = (SYl d n).map Val.str := by
  obtain ⟨t, m, im, r, ls, sy, cs, cb, bt, lt, hsh, _, _⟩ := heroN_shape d hok n hn
  unfold rawRel
  rw [heroN_stB d hok fC fCB n hn, hsh, withRel_heroRec]
  rfl

theorem CIl_stB (d : PyDict) (hok : specOK d = true) (fC fCB : String → List String)
    (n : String) (hn : n ∈ namesOf d)
    (hsub : ∀ s ∈ fC n, s ∈ namesOf d ∧ s ≠ n) (hnodup : (fC n).Nodup)
    (hne : "" ∉ fC n) :
    CIl (stB d fC fCB) n = fC n := by
  unfold CIl
  rw [namesOf_stB, rawRel_stB_c d hok fC fCB n hn,
    cleanNames_id _ _ _ hnodup hne hsub]

theorem CBl_stB (d : PyDict) (hok : specOK d = true) (fC fCB : String → List String)
    (n : String) (hn : n ∈ namesOf d)
    (hsub : ∀ s ∈ fCB n, s ∈ namesOf d ∧ s ≠ n) (hnodup : (fCB n).Nodup)
    (hne : "" ∉ fCB n) :
    CBl (stB d fC fCB) n = fCB n := by
  unfold CBl
  rw [namesOf_stB, rawRel_stB_cb d hok fC fCB n hn,
    cleanNames_id _ _ _ hnodup hne hsub]

theorem BTl_stB (d : PyDict) (hok : specOK d = true) (fC fCB : String → List String)
    (n : String) (hn : n ∈ namesOf d) :
    BTl (stB d fC fCB) n = BTl d n := by
  unfold BTl
  rw [namesOf_stB, rawRel_stB_bt d hok fC fCB n hn]
  exact cleanNames_id _ _ _ (cleanNames_nodup _ _ _)
    (fun hc => (cleanNames_props _ _ _ "" hc).2.2 rfl)
    (fun s hs => ⟨(cleanNames_props _ _ _ s hs).1, (cleanNames_props _ _ _ s hs).2.1⟩)

theorem SYl_stB (d : PyDict) (hok : specOK d = true) (fC fCB : String → List String)
    (n : String) (hn : n ∈ namesOf d) :
    SYl (stB d fC fCB) n = SYl d n := by
  unfold SYl
  rw [namesOf_stB, rawRel_stB_sy d hok fC fCB n hn]
  exact cleanNames_id _ _ _ (cleanNames_nodup _ _ _)
    (fun hc => (cleanNames_props _ _ _ "" hc).2.2 rfl)
    (fun s hs => ⟨(cleanNames_props _ _ _ s hs).1, (cleanNames_props _ _ _ s hs).2.1⟩)

theorem specOK_stB (d : PyDict) (hok : specOK d = true)
    (fC fCB : String → List String) : specOK (stB d fC fCB) = true := by
  unfold specOK
  rw [namesOf_stB, List.all_eq_true]
  intro n hn
  unfold heroOK
  rw [Bool.and_eq_true]
  refine ⟨?_, ?_⟩
  · rw [aget_stB d fC fCB n hn,
      ensure_fields_withRel _ _ (heroN_ok d hok n hn) (fC n) (fCB n) (BTl d n) (SYl d n)]
    rfl
  · simp only [relKeys, List.all_cons, List.all_nil, Bool.and_true, Bool.and_eq_true]
    refine ⟨?_, ?_, ?_, ?_⟩ <;> rw [List.all_eq_true]
    · rw [rawRel_stB_c d hok fC fCB n hn]
      intro x hx
      obtain ⟨s, _, rfl⟩ := List.mem_map.mp hx
      rfl
    · rw [rawRel_stB_cb d hok fC fCB n hn]
      intro x hx
      obtain ⟨s, _, rfl⟩ := List.mem_map.mp hx
      rfl
    · rw [rawRel_stB_bt d hok fC fCB n hn]
      intro x hx
      obtain ⟨s, _, rfl⟩ := List.mem_map.mp hx
      rfl
    · rw [rawRel_stB_sy d hok fC fCB n hn]
      intro x hx
      obtain ⟨s, _, rfl⟩ := List.mem_map.mp hx
      rfl

theorem stB_stB (d : PyDict) (hok : specOK d = true)
    (fC fCB fC2 fCB2 : String → List String) :
    stB (stB d fC fCB) fC2 fCB2 = stB d fC2 fCB2 := by
  have hunf : ∀ (e : PyDict) (g1 g2 : String → List String), stB e g1 g2 =
      e.map (fun kv => (kv.1, if isReserved kv.1 then kv.2
        else Val.dict (withRel (heroN e kv.1) (g1 kv.1) (g2 kv.1) (BTl e kv.1)
          (SYl e kv.1)))) := fun _ _ _ => rfl
  rw [hunf (stB d fC fCB) fC2 fCB2]
  nth_rewrite 4 [hunf d fC fCB]
  rw [List.map_map, hunf d fC2 fCB2]
  refine List.map_congr_left ?_
  intro kv hkv
  by_cases hres : isReserved kv.1
  · simp [hres]
  · have hn : kv.1 ∈ namesOf d := by
      rw [mem_namesOf]
      exact ⟨List.mem_map.mpr ⟨kv, hkv, rfl⟩, by simpa using hres⟩
    obtain ⟨t, m, im, r, ls, sy, cs, cb, bt, lt, hsh, _, _⟩ := heroN_shape d hok kv.1 hn
    simp only [Function.comp_apply, hres, Bool.false_eq_true, if_false]
    rw [heroN_stB d hok fC fCB kv.1 hn, BTl_stB d hok fC fCB kv.1 hn,
      SYl_stB d hok fC fCB kv.1 hn, hsh, withRel_heroRec, withRel_heroRec,
      withRel_heroRec]

/-- Symmetry of the specified final state when no hero is named by the
empty string: `B ∈ A.counters ↔ A ∈ B.countered_by`. -/
theorem spec_symm (d : PyDict) (h0 : "" ∉ namesOf d) (A B : String)
    (hA : A ∈ namesOf d) (hB : B ∈ namesOf d) :
    B ∈ pC d (namesOf d) A ↔ A ∈ pCB d (namesOf d) B := by
  rw [mem_pC, mem_pCB]
  constructor
  · rintro (h | ⟨_, _, h, _⟩)
    · by_cases hc : A ∈ CBl d B
      · exact Or.inl hc
      · exact Or.inr ⟨hA, fun he => h0 (he ▸ hA), h, hc⟩
    · exact Or.inl h
  · rintro (h | ⟨_, _, h, _⟩)
    · by_cases hc : B ∈ CIl d A
      · exact Or.inl hc
      · exact Or.inr ⟨hB, fun he => h0 (he ▸ hB), h, hc⟩
    · exact Or.inl h

theorem pC_spec_props (d : PyDict) (hnd : (d.map Prod.fst).Nodup) (n : String) :
    (∀ s ∈ pC d (namesOf d) n, s ∈ namesOf d ∧ s ≠ n) ∧
      (pC d (namesOf d) n).Nodup ∧ "" ∉ pC d (namesOf d) n := by
  refine ⟨fun s hs => ⟨(pC_props d _ (fun p hp => hp) n s hs).1,
    (pC_props d _ (fun p hp => hp) n s hs).2.1⟩,
    pC_nodup d _ (namesOf_nodup d hnd) n,
    fun hc => (pC_props d _ (fun p hp => hp) n "" hc).2.2 rfl⟩

theorem pCB_spec_props (d : PyDict) (hnd : (d.map Prod.fst).Nodup) (n : String) :
    (∀ s ∈ pCB d (namesOf d) n, s ∈ namesOf d ∧ s ≠ n) ∧
      (pCB d (namesOf d) n).Nodup ∧ "" ∉ pCB d (namesOf d) n := by
  refine ⟨fun s hs => ⟨(pCB_props d _ (fun p hp => hp) n s hs).1,
    (pCB_props d _ (fun p hp => hp) n s hs).2.1⟩,
    pCB_nodup d _ (namesOf_nodup d hnd) n,
    fun hc => (pCB_props d _ (fun p hp => hp) n "" hc).2.2 rfl⟩

theorem CIl_specState (d : PyDict) (hnd : (d.map Prod.fst).Nodup)
    (hok : specOK d = true) (n : String) (hn : n ∈ namesOf d) :
    CIl (specState d) n = pC d (namesOf d) n := by
  obtain ⟨hsub, hnodup, hne⟩ := pC_spec_props d hnd n
  exact CIl_stB d hok _ _ n hn hsub hnodup hne

theorem CBl_specState (d : PyDict) (hnd : (d.map Prod.fst).Nodup)
    (hok : specOK d = true) (n : String) (hn : n ∈ namesOf d) :
    CBl (specState d) n = pCB d (namesOf d) n := by
  obtain ⟨hsub, hnodup, hne⟩ := pCB_spec_props d hnd n
  exact CBl_stB d hok _ _ n hn hsub hnodup hne

theorem heroCleanCount_specState (d : PyDict) (hnd : (d.map Prod.fst).Nodup)
    (hok : specOK d = true) (n : String) (hn : n ∈ namesOf d) :
    heroCleanCount (specState d) n = 0 := by
  obtain ⟨t, m, im, r, ls, sy, cs, cb, bt, lt, hsh, _, _⟩ := heroN_shape d hok n hn
  have hsh2 : heroN (specState d) n = heroRec t m im r ls ((SYl d n).map Val.str)
      ((pC d (namesOf d) n).map Val.str) ((pCB d (namesOf d) n).map Val.str)
      ((BTl d n).map Val.str) lt := by
    rw [show heroN (specState d) n =
      heroN (stB d (pC d (namesOf d)) (pCB d (namesOf d))) n from rfl,
      heroN_stB d hok _ _ n hn, hsh, withRel_heroRec]
  rw [heroCleanCount_cnt4 (specState d) n _ _ _ _ _ _ _ _ _ _ hsh2]
  unfold cnt4
  rw [show namesOf (specState d) = namesOf d from namesOf_stB d _ _]
  obtain ⟨hsubC, hndC, hneC⟩ := pC_spec_props d hnd n
  obtain ⟨hsubB, hndB, hneB⟩ := pCB_spec_props d hnd n
  rw [cleanNames_id _ _ _ hndC hneC hsubC, cleanNames_id _ _ _ hndB hneB hsubB,
    cleanNames_id _ _ (BTl d n) (cleanNames_nodup _ _ _)
      (fun hc => (cleanNames_props _ _ _ "" hc).2.2 rfl)
      (fun s hs => ⟨(cleanNames_props _ _ _ s hs).1, (cleanNames_props _ _ _ s hs).2.1⟩),
    cleanNames_id _ _ (SYl d n) (cleanNames_nodup _ _ _)
      (fun hc => (cleanNames_props _ _ _ "" hc).2.2 rfl)
      (fun s hs => ⟨(cleanNames_props _ _ _ s hs).1, (cleanNames_props _ _ _ s hs).2.1⟩)]
  simp [List.length_map]

theorem wA_specState (d : PyDict) (hnd : (d.map Prod.fst).Nodup)
    (hok : specOK d = true) (h0 : "" ∉ namesOf d) (a : String) (ha : a ∈ namesOf d) :
    wA (specState d) a = 0 := by
  unfold wA
  have h1 : (CIl (specState d) a).filter
      (fun b => !(CBl (specState d) b).contains a) = [] := by
    rw [CIl_specState d hnd hok a ha, List.filter_eq_nil_iff]
    intro b hb
    have hbN : b ∈ namesOf d := (pC_props d _ (fun p hp => hp) a b hb).1
    have hmem : a ∈ pCB d (namesOf d) b := (spec_symm d h0 a b ha hbN).mp hb
    rw [CBl_specState d hnd hok b hbN]
    simp
    exact hmem
  have h2 : (CBl (specState d) a).filter
      (fun b => !(CIl (specState d) b).contains a) = [] := by
    rw [CBl_specState d hnd hok a ha, List.filter_eq_nil_iff]
    intro b hb
    have hbN : b ∈ namesOf d := (pCB_props d _ (fun p hp => hp) a b hb).1
    have hmem : a ∈ pC d (namesOf d) b := (spec_symm d h0 b a hbN ha).mpr hb
    rw [CIl_specState d hnd hok b hbN]
    simp
    exact hmem
  rw [h1, h2]
  rfl

theorem pC_specState (d : PyDict) (hnd : (d.map Prod.fst).Nodup)
    (hok : specOK d = true) (h0 : "" ∉ namesOf d) (n : String) (hn : n ∈ namesOf d) :
    pC (specState d) (namesOf d) n = pC d (namesOf d) n := by
  have hfil : List.filter (fun a => a != "" && (CBl (specState d) a).contains n &&
      !(CIl (specState d) n).contains a) (namesOf d) = [] := by
    rw [List.filter_eq_nil_iff]
    intro a haN
    simp only [Bool.and_eq_true, bne_iff_ne, Bool.not_eq_true']
    rintro ⟨⟨_, h2⟩, h3⟩
    rw [CBl_specState d hnd hok a haN] at h2
    rw [CIl_specState d hnd hok n hn] at h3
    have hc : a ∈ pC d (namesOf d) n :=
      (spec_symm d h0 n a hn haN).mpr ((contains_iff _ _).mp h2)
    rw [(contains_iff _ _).mpr hc] at h3
    exact Bool.noConfusion h3
  show CIl (specState d) n ++ List.filter (fun a => a != "" &&
      (CBl (specState d) a).contains n && !(CIl (specState d) n).contains a)
    (namesOf d) = pC d (namesOf d) n
  rw [hfil, List.append_nil, CIl_specState d hnd hok n hn]

theorem pCB_specState (d : PyDict) (hnd : (d.map Prod.fst).Nodup)
    (hok : specOK d = true) (h0 : "" ∉ namesOf d) (n : String) (hn : n ∈ namesOf d) :
    pCB (specState d) (namesOf d) n = pCB d (namesOf d) n := by
  have hfil : List.filter (fun a => a != "" && (CIl (specState d) a).contains n &&
      !(CBl (specState d) n).contains a) (namesOf d) = [] := by
    rw [List.filter_eq_nil_iff]
    intro a haN
    simp only [Bool.and_eq_true, bne_iff_ne, Bool.not_eq_true']
    rintro ⟨⟨_, h2⟩, h3⟩
    rw [CIl_specState d hnd hok a haN] at h2
    rw [CBl_specState d hnd hok n hn] at h3
    have hc : a ∈ pCB d (namesOf d) n :=
      (spec_symm d h0 a n haN hn).mp ((contains_iff _ _).mp h2)
    rw [(contains_iff _ _).mpr hc] at h3
    exact Bool.noConfusion h3
  show CBl (specState d) n ++ List.filter (fun a => a != "" &&
      (CIl (specState d) a).contains n && !(CBl (specState d) n).contains a)
    (namesOf d) = pCB d (namesOf d) n
  rw [hfil, List.append_nil, CBl_specState d hnd hok n hn]

theorem specState_specState (d : PyDict) (hnd : (d.map Prod.fst).Nodup)
    (hok : specOK d = true) (h0 : "" ∉ namesOf d) :
    specState (specState d) = specState d := by
  show stB (specState d) (pC (specState d) (namesOf (specState d)))
    (pCB (specState d) (namesOf (specState d))) = specState d
  rw [show namesOf (specState d) = namesOf d from namesOf_stB d _ _]
  rw [stB_congr (specState d) (pC (specState d) (namesOf d)) (pC d (namesOf d))
    (pCB (specState d) (namesOf d)) (pCB d (namesOf d))
    (by
      intro n hn
      rw [show namesOf (specState d) = namesOf d from namesOf_stB d _ _] at hn
      exact pC_specState d hnd hok h0 n hn)
    (by
      intro n hn
      rw [show namesOf (specState d) = namesOf d from namesOf_stB d _ _] at hn
      exact pCB_specState d hnd hok h0 n hn)]
  show stB (stB d (pC d (namesOf d)) (pCB d (namesOf d))) (pC d (namesOf d))
    (pCB d (namesOf d)) = specState d
  rw [stB_stB d hok]
  rfl

theorem specCount_specState (d : PyDict) (hnd : (d.map Prod.fst).Nodup)
    (hok : specOK d = true) (h0 : "" ∉ namesOf d) :
    specCount (specState d) = 0 := by
  unfold specCount cleanCount
  rw [show namesOf (specState d) = namesOf d from namesOf_stB d _ _]
  have hA : ((namesOf d).map (heroCleanCount (specState d))).sum = 0 :=
    List.sum_eq_zero (by
      intro x hx
      obtain ⟨n, hn, rfl⟩ := List.mem_map.mp hx
      exact heroCleanCount_specState d hnd hok n hn)
  have hB : ((namesOf d).map (wA (specState d))).sum = 0 :=
    List.sum_eq_zero (by
      intro x hx
      obtain ⟨n, hn, rfl⟩ := List.mem_map.mp hx
      exact wA_specState d hnd hok h0 n hn)
  rw [hA, hB]

/-- On success the reconciler returns exactly the specified state and count. -/
theorem reconcile_ok_char (d : PyDict) (hnd : (d.map Prod.fst).Nodup)
    (st : PyDict) (c : Nat)
    (hE : ensure_bidirectional_relationships d = .ok (st, c)) :
    st = specState d ∧ c = specCount d := by
  have hok := reconcile_ok_specOK d hnd _ hE
  have hchar := reconcile_spec d hnd hok
  rw [hE] at hchar
  have hp := Except.ok.inj hchar
  exact ⟨congrArg Prod.fst hp, congrArg Prod.snd hp⟩

theorem relList_stB_c (d : PyDict) (hok : specOK d = true)
    (fC fCB : String → List String) (n : String) (hn : n ∈ namesOf d) :
    relList (stB d fC fCB) n "counters" = (fC n).map Val.str := by
  obtain ⟨t, m, im, r, ls, sy, cs, cb, bt, lt, hsh, _, _⟩ := heroN_shape d hok n hn
  unfold relList
  rw [aget_stB d fC fCB n hn, hsh, withRel_heroRec]
  rfl

theorem relList_stB_cb (d : PyDict) (hok : specOK d = true)
    (fC fCB : String → List String) (n : String) (hn : n ∈ namesOf d) :
    relList (stB d fC fCB) n "countered_by" = (fCB n).map Val.str := by
  obtain ⟨t, m, im, r, ls, sy, cs, cb, bt, lt, hsh, _, _⟩ := heroN_shape d hok n hn
  unfold relList
  rw [aget_stB d fC fCB n hn, hsh, withRel_heroRec]
  rfl

theorem relList_stB_bt (d : PyDict) (hok : specOK d = true)
    (fC fCB : String → List String) (n : String) (hn : n ∈ namesOf d) :
    relList (stB d fC fCB) n "ban_targets" = (BTl d n).map Val.str := by
  obtain ⟨t, m, im, r, ls, sy, cs, cb, bt, lt, hsh, _, _⟩ := heroN_shape d hok n hn
  unfold relList
  rw [aget_stB d fC fCB n hn, hsh, withRel_heroRec]
  rfl

theorem relList_stB_sy (d : PyDict) (hok : specOK d = true)
    (fC fCB : String → List String) (n : String) (hn : n ∈ namesOf d) :
    relList (stB d fC fCB) n "synergy" = (SYl d n).map Val.str := by
  obtain ⟨t, m, im, r, ls, sy, cs, cb, bt, lt, hsh, _, _⟩ := heroN_shape d hok n hn
  unfold relList
  rw [aget_stB d fC fCB n hn, hsh, withRel_heroRec]
  rfl

theorem hasRel_stB_c (d : PyDict) (hok : specOK d = true)
    (fC fCB : String → List String) (n : String) (hn : n ∈ namesOf d) (b : String) :
    hasRel (stB d fC fCB) n "counters" b = (fC n).contains b := by
  unfold hasRel
  rw [relList_stB_c d hok fC fCB n hn, strsAny_eqStr]

theorem hasRel_stB_cb (d : PyDict) (hok : specOK d = true)
    (fC fCB : String → List String) (n : String) (hn : n ∈ namesOf d) (b : String) :
    hasRel (stB d fC fCB) n "countered_by" b = (fCB n).contains b := by
  unfold hasRel
  rw [relList_stB_cb d hok fC fCB n hn, strsAny_eqStr]

theorem hasRel_stB_bt (d : PyDict) (hok : specOK d = true)
    (fC fCB : String → List String) (n : String) (hn : n ∈ namesOf d) (b : String) :
    hasRel (stB d fC fCB) n "ban_targets" b = (BTl d n).contains b := by
  unfold hasRel
  rw [relList_stB_bt d hok fC fCB n hn, strsAny_eqStr]

theorem hasRel_stB_sy (d : PyDict) (hok : specOK d = true)
    (fC fCB : String → List String) (n : String) (hn : n ∈ namesOf d) (b : String) :
    hasRel (stB d fC fCB) n "synergy" b = (SYl d n).contains b := by
  unfold hasRel
  rw [relList_stB_sy d hok fC fCB n hn, strsAny_eqStr]

theorem aget_stB_reserved (d : PyDict) (fC fCB : String → List String)
    (k : String) (hres : isReserved k = true) (dflt : Val) :
    aget (stB d fC fCB) k dflt = aget d k dflt := by
  unfold aget
  rw [alook_stB]
  cases alook d k with
  | none => rfl
  | some v => simp [hres]

/-! ### Claim results -/

/-- C1 (corrected): on the collection `exC1`, which contains a hero named by
the empty string, the reconciler succeeds but symmetry fails: `"B"` is in
`""`'s counters while `""` is not in `"B"`'s countered_by, because the
dedupe step silently drops the falsy empty-string name. -/
theorem c1_counterexample :
    ∃ st, ensure_bidirectional_relationships exC1 = .ok (st, 1) ∧
      "" ∈ namesOf st ∧ "B" ∈ namesOf st ∧ ("" : String) ≠ "B" ∧
      hasRel st "" "counters" "B" = true ∧ hasRel st "B" "countered_by" "" = false :=
  ⟨specState exC1, rfl, by decide, by decide, by decide, rfl, rfl⟩

/-- C1 (amended): if the reconciler succeeds on a duplicate-free collection
none of whose keys is the empty string, then for any two heroes `A`, `B` of
the result, `B ∈ A.counters` iff `A ∈ B.countered_by`. -/
theorem c1_spec (d st : PyDict) (c : Nat) (hnd : (d.map Prod.fst).Nodup)
    (h0 : "" ∉ d.map Prod.fst)
    (hE : ensure_bidirectional_relationships d = .ok (st, c))
    (A B : String) (hA : A ∈ namesOf st) (hB : B ∈ namesOf st) (hAB : A ≠ B) :
    hasRel st A "counters" B = true ↔ hasRel st B "countered_by" A = true := by
  have hok := reconcile_ok_specOK d hnd _ hE
  have hst := (reconcile_ok_char d hnd st c hE).1
  subst hst
  rw [show namesOf (specState d) = namesOf d from namesOf_stB d _ _] at hA hB
  have h0' : "" ∉ namesOf d := fun hc => h0 (List.mem_of_mem_filter hc)
  rw [show hasRel (specState d) A "counters" B =
    (pC d (namesOf d) A).contains B from hasRel_stB_c d hok _ _ A hA B]
  rw [show hasRel (specState d) B "countered_by" A =
    (pCB d (namesOf d) B).contains A from hasRel_stB_cb d hok _ _ B hB A]
  rw [contains_iff (pC d (namesOf d) A) B, contains_iff (pCB d (namesOf d) B) A]
  exact spec_symm d h0' A B hA hB

/-- C1 (witness): the amended symmetry theorem applied to a concrete
two-hero collection. -/
theorem c1_spec_witness :
    hasRel stC1w "A" "counters" "B" = true ↔
      hasRel stC1w "B" "countered_by" "A" = true :=
  c1_spec exC1w stC1w (specCount exC1w) (by decide) (by decide) rfl "A" "B"
    (by decide) (by decide) (by decide)

/-- C2 (corrected): on `exC2`, which contains a hero named by the empty
string, a second reconciler run on the already-reconciled collection again
reports 1 change (the empty name is re-appended and re-dropped every run),
so the change count of the second run is not zero. -/
theorem c2_counterexample :
    ∃ st1 c2, ensure_bidirectional_relationships exC2 = .ok (st1, 1) ∧
      ensure_bidirectional_relationships st1 = .ok (st1, c2) ∧ c2 ≠ 0 :=
  ⟨specState exC2, 1, rfl, rfl, by decide⟩

/-- C2 (amended): if the reconciler succeeds on a duplicate-free collection
none of whose keys is the empty string, a second run returns the same
collection unchanged with change count zero. -/
theorem c2_spec (d st : PyDict) (c : Nat) (hnd : (d.map Prod.fst).Nodup)
    (h0 : "" ∉ d.map Prod.fst)
    (hE : ensure_bidirectional_relationships d = .ok (st, c)) :
    ensure_bidirectional_relationships st = .ok (st, 0) := by
  have hok := reconcile_ok_specOK d hnd _ hE
  have hst := (reconcile_ok_char d hnd st c hE).1
  subst hst
  have h0' : "" ∉ namesOf d := fun hc => h0 (List.mem_of_mem_filter hc)
  have hnd2 : ((specState d).map Prod.fst).Nodup := by
    rw [show (specState d).map Prod.fst = d.map Prod.fst from stB_keys d _ _]
    exact hnd
  have hok2 : specOK (specState d) = true := specOK_stB d hok _ _
  rw [reconcile_spec (specState d) hnd2 hok2,
    specState_specState d hnd hok h0', specCount_specState d hnd hok h0']

/-- C2 (witness): idempotence on a concrete two-hero collection. -/
theorem c2_spec_witness :
    ensure_bidirectional_relationships stC2w = .ok (stC2w, 0) :=
  c2_spec exC2w stC2w (specCount exC2w) (by decide) (by decide) rfl

/-- C3 (confirmed): after a successful reconciliation, every name in any
relationship field of any hero is a non-reserved key of the collection and
differs from the owning hero; dangling and self references were dropped
without an error. -/
theorem c3_spec (d st : PyDict) (c : Nat) (hnd : (d.map Prod.fst).Nodup)
    (hE : ensure_bidirectional_relationships d = .ok (st, c))
    (n : String) (hn : n ∈ namesOf st) (key : String) (hkey : key ∈ relKeys)
    (X : String) (hX : hasRel st n key X = true) :
    X ∈ namesOf st ∧ X ≠ n := by
  have hok := reconcile_ok_specOK d hnd _ hE
  have hst := (reconcile_ok_char d hnd st c hE).1
  subst hst
  rw [show namesOf (specState d) = namesOf d from namesOf_stB d _ _] at hn ⊢
  simp only [relKeys, List.mem_cons, List.not_mem_nil, or_false] at hkey
  rcases hkey with rfl | rfl | rfl | rfl
  · rw [show hasRel (specState d) n "counters" X =
      (pC d (namesOf d) n).contains X from hasRel_stB_c d hok _ _ n hn X] at hX
    have hm := (contains_iff _ _).mp hX
    exact ⟨(pC_props d _ (fun p hp => hp) n X hm).1,
      (pC_props d _ (fun p hp => hp) n X hm).2.1⟩
  · rw [show hasRel (specState d) n "countered_by" X =
      (pCB d (namesOf d) n).contains X from hasRel_stB_cb d hok _ _ n hn X] at hX
    have hm := (contains_iff _ _).mp hX
    exact ⟨(pCB_props d _ (fun p hp => hp) n X hm).1,
      (pCB_props d _ (fun p hp => hp) n X hm).2.1⟩
  · rw [show hasRel (specState d) n "ban_targets" X =
      (BTl d n).contains X from hasRel_stB_bt d hok _ _ n hn X] at hX
    have hm := (contains_iff _ _).mp hX
    exact ⟨(cleanNames_props _ _ _ X hm).1, (cleanNames_props _ _ _ X hm).2.1⟩
  · rw [show hasRel (specState d) n "synergy" X =
      (SYl d n).contains X from hasRel_stB_sy d hok _ _ n hn X] at hX
    have hm := (contains_iff _ _).mp hX
    exact ⟨(cleanNames_props _ _ _ X hm).1, (cleanNames_props _ _ _ X hm).2.1⟩

/-- C3 (witness): referential integrity applied to a concrete repaired
link. -/
theorem c3_spec_witness : "F" ∈ namesOf stC3w ∧ "F" ≠ "G" :=
  c3_spec exC3w stC3w (specCount exC3w) (by decide) rfl "G" (by decide)
    "countered_by" (by decide) "F" rfl

/-- C4 (corrected): on `exC4`, hero `A`'s counters field loses two dangling
entries, but the reconciler returns 1 (one per changed field), not 2 as the
claim's per-entry counting predicts. -/
theorem c4_counterexample :
    ∃ st, ensure_bidirectional_relationships exC4 = .ok (st, 1) ∧ (1 : Nat) ≠ 2 :=
  ⟨specState exC4, rfl, by decide⟩

/-- C4 (amended): on success the returned count equals `specCount`: one per
relationship field whose length changed in the cleanup pass (regardless of
how many entries that field lost), plus one per symmetric-link repair
attempt. -/
theorem c4_spec (d st : PyDict) (c : Nat) (hnd : (d.map Prod.fst).Nodup)
    (hE : ensure_bidirectional_relationships d = .ok (st, c)) :
    c = specCount d :=
  (reconcile_ok_char d hnd st c hE).2

/-- C4 (witness): the count law applied to a concrete collection with one
symmetric repair. -/
theorem c4_spec_witness : (1 : Nat) = specCount exC4w :=
  c4_spec exC4w stC4w 1 (by decide) rfl

/-- C5 (corrected): the hero normalizer raises on every non-dict input
(Python `AttributeError` from `h.get`) instead of coercing it; the
composition normalizer coerces only scalar (non-list, non-dict) entries to
the zero record. -/
theorem c5_spec :
    (∀ v : Val, (∀ kvs : PyDict, v ≠ Val.dict kvs) →
      ensure_fields v = .error "AttributeError") ∧
    (∀ v : Val, (∀ xs : List Val, v ≠ Val.list xs) →
      (∀ kvs : PyDict, v ≠ Val.dict kvs) →
      normalize_comp_entry v =
        .ok [("members", Val.list []), ("core", Val.str ""),
             ("counters", Val.list [])]) := by
  constructor
  · intro v hv
    cases v
    case dict kvs => exact absurd rfl (hv _)
    all_goals rfl
  · intro v hl hd
    cases v
    case list xs => exact absurd rfl (hl _)
    case dict kvs => exact absurd rfl (hd _)
    all_goals rfl

/-- C5 (witness): both normalizer facts applied at a number input. -/
theorem c5_spec_witness :
    ensure_fields (Val.num 7) = .error "AttributeError" ∧
    normalize_comp_entry (Val.num 7) =
      .ok [("members", Val.list []), ("core", Val.str ""),
           ("counters", Val.list [])] :=
  ⟨c5_spec.1 (Val.num 7) (fun kvs h => Val.noConfusion h),
   c5_spec.2 (Val.num 7) (fun xs h => Val.noConfusion h)
     (fun kvs h => Val.noConfusion h)⟩

/-- C5 (counterexample): normalizing a bare list input raises instead of
returning a canonical hero record. -/
theorem c5_counterexample : ensure_fields (Val.list []) = .error "AttributeError" :=
  rfl

/-- C8 (corrected): a failed read and a missing backing file return the very
same empty collection, so a persistence read failure is not surfaced
distinctly from the "nothing yet" first-run result. -/
theorem c8_counterexample :
    load_data (some (.error ())) = Val.dict [] ∧ load_data none = Val.dict [] :=
  ⟨rfl, rfl⟩

/-- C8 (amended): on every outcome that is not a successfully parsed JSON
object — absent file, unreadable or invalid JSON, or JSON of another
shape — `load_data` returns the same result as on a first run. -/
theorem c8_spec (fs : Option (Except Unit Val))
    (hfail : ∀ kvs : PyDict, fs ≠ some (.ok (Val.dict kvs))) :
    load_data fs = load_data none := by
  cases fs with
  | none => rfl
  | some e =>
      cases e with
      | error u => rfl
      | ok v =>
          cases v
          case dict kvs => exact absurd rfl (hfail kvs)
          all_goals rfl

/-- C8 (witness): the failure-collapse fact applied at a failing read. -/
theorem c8_spec_witness : load_data (some (.error ())) = load_data none :=
  c8_spec (some (.error ())) (by intro kvs h; simp at h)

/-- C9 (corrected): on `exC9` the reconciler strips the reserved name
`__ban_list__` out of hero `A`'s counters field, contradicting the part of
the claim that says no reserved key is ever removed from a hero's
relationship fields. -/
theorem c9_counterexample :
    ∃ st c, ensure_bidirectional_relationships exC9 = .ok (st, c) ∧
      hasRel exC9 "A" "counters" "__ban_list__" = true ∧
      isReserved "__ban_list__" = true ∧
      hasRel st "A" "counters" "__ban_list__" = false :=
  ⟨specState exC9, specCount exC9, rfl, rfl, by decide, rfl⟩

/-- C9 (amended): on success the values stored under reserved
double-underscore keys are exactly what they were before the call and the
key list of the collection is unchanged; reserved names are however dropped
from hero relationship fields like any other dangling reference. -/
theorem c9_spec (d st : PyDict) (c : Nat) (hnd : (d.map Prod.fst).Nodup)
    (hE : ensure_bidirectional_relationships d = .ok (st, c)) :
    (∀ k, isReserved k = true → aget st k Val.null = aget d k Val.null) ∧
      st.map Prod.fst = d.map Prod.fst := by
  have hst := (reconcile_ok_char d hnd st c hE).1
  subst hst
  exact ⟨fun k hk => aget_stB_reserved d _ _ k hk Val.null, stB_keys d _ _⟩

/-- C9 (witness): the reserved-key frame applied to a concrete collection
with a lane-ban table. -/
theorem c9_spec_witness :
    (∀ k, isReserved k = true → aget stC9w k Val.null = aget exC9w k Val.null) ∧
      stC9w.map Prod.fst = exC9w.map Prod.fst :=
  c9_spec exC9w stC9w (specCount exC9w) (by decide) rfl

/-- C10 (corrected): `ensure_fields` does not return a record for every
input dictionary — a dict whose `lane_tiers` is a truthy non-dict makes it
raise. -/
theorem c10_counterexample :
    ensure_fields (Val.dict [("lane_tiers", Val.str "x")]) =
      .error "AttributeError" := rfl

/-- C10 (amended): whenever `ensure_fields` returns a record, its key set is
exactly the ten canonical fields in order, any other input field having been
discarded, and the returned `lane_tiers` has an entry for every known
lane. -/
theorem c10_spec (v : Val) (h : PyDict) (hok : ensure_fields v = .ok h) :
    h.map Prod.fst = ["tier", "roles", "lanes", "main_lane", "synergy",
      "counters", "countered_by", "ban_targets", "image", "lane_tiers"] ∧
    ∃ lt : PyDict, alook h "lane_tiers" = some (Val.dict lt) ∧
      ∀ lane ∈ LANE_CHOICES, keyMem lt lane = true := by
  obtain ⟨t, m, im, r, ls, sy, cs, cb, bt, lt, hsh, hlt, _⟩ :=
    ensure_fields_shape v h hok
  subst hsh
  exact ⟨rfl, lt, rfl, hlt⟩

/-- C10 (witness): the canonical field set on a dict input carrying an
unknown field. -/
theorem c10_spec_witness :
    recC10.map Prod.fst = ["tier", "roles", "lanes", "main_lane", "synergy",
      "counters", "countered_by", "ban_targets", "image", "lane_tiers"] ∧
    ∃ lt : PyDict, alook recC10 "lane_tiers" = some (Val.dict lt) ∧
      ∀ lane ∈ LANE_CHOICES, keyMem lt lane = true :=
  c10_spec (Val.dict [("tier", Val.str "S"), ("junk", Val.num 3)]) recC10 rfl

/-! ### Delete-cascade support -/

theorem any_eqStr_false_of_sub (X : String) (l1 l2 : List Val)
    (hsub : ∀ x ∈ l2, x ∈ l1) (h : l1.any (fun x => eqStr x X) = false) :
    l2.any (fun x => eqStr x X) = false := by
  rw [List.any_eq_false] at h ⊢
  exact fun x hx => h x (hsub x hx)

theorem any_filter_not_eqStr (X : String) (l : List Val) :
    (l.filter (fun x => !eqStr x X)).any (fun x => eqStr x X) = false := by
  rw [List.any_eq_false]
  intro x hx
  rw [List.mem_filter] at hx
  have := hx.2
  simp only [Bool.not_eq_true'] at this
  simp [this]

theorem dedupeGo_sub (xs : List Val) :
    ∀ (seen ys : List Val), dedupeGo seen xs = .ok ys → ∀ y ∈ ys, y ∈ xs := by
  induction xs with
  | nil =>
      intro seen ys h y hy
      simp only [dedupeGo] at h
      rw [← Except.ok.inj h] at hy
      cases hy
  | cons x xs' ih =>
      intro seen ys h y hy
      simp only [dedupeGo] at h
      by_cases ht : truthy x
      · rw [if_neg (by simp [ht])] at h
        by_cases hh : hashable x
        · rw [if_neg (by simp [hh])] at h
          by_cases hs : seen.any (fun z => pyEqFlat z x)
          · rw [if_pos (by simpa using hs)] at h
            exact List.mem_cons_of_mem _ (ih seen ys h y hy)
          · rw [if_neg (by simpa using hs)] at h
            obtain ⟨rest, hrest, heq⟩ := bindE_ok _ _ _ h
            rw [← Except.ok.inj heq] at hy
            rcases List.mem_cons.mp hy with rfl | hm
            · exact List.mem_cons_self _ _
            · exact List.mem_cons_of_mem _ (ih (x :: seen) rest hrest y hm)
        · rw [if_pos (by simp [hh])] at h
          exact Except.noConfusion h
      · rw [if_pos (by simp [ht])] at h
        exact List.mem_cons_of_mem _ (ih seen ys h y hy)

theorem dedupe_sub (xs ys : List Val) (h : dedupe xs = .ok ys) :
    ∀ y ∈ ys, y ∈ xs := dedupeGo_sub xs [] ys h

theorem insertM_sub (x : Val) (l : List Val) :
    ∀ (r : List Val), insertM x l = .ok r → ∀ y ∈ r, y = x ∨ y ∈ l := by
  induction l with
  | nil =>
      intro r h y hy
      simp only [insertM] at h
      rw [← Except.ok.inj h] at hy
      rcases List.mem_cons.mp hy with rfl | hm
      · exact Or.inl rfl
      · cases hm
  | cons z zs ih =>
      intro r h y hy
      simp only [insertM] at h
      cases hp : pyLtFlat x z with
      | error e => rw [hp] at h; exact Except.noConfusion h
      | ok b =>
          rw [hp, okBind] at h
          by_cases hb : b
          · rw [if_pos hb] at h
            rw [← Except.ok.inj h] at hy
            rcases List.mem_cons.mp hy with rfl | hm
            · exact Or.inl rfl
            · exact Or.inr hm
          · rw [if_neg hb] at h
            obtain ⟨r', hr', heq⟩ := bindE_ok _ _ _ h
            rw [← Except.ok.inj heq] at hy
            rcases List.mem_cons.mp hy with rfl | hm
            · exact Or.inr (List.mem_cons_self _ _)
            · rcases ih r' hr' y hm with h1 | h1
              · exact Or.inl h1
              · exact Or.inr (List.mem_cons_of_mem _ h1)

theorem sortM_sub (l : List Val) :
    ∀ (r : List Val), sortM l = .ok r → ∀ y ∈ r, y ∈ l := by
  induction l with
  | nil =>
      intro r h y hy
      simp only [sortM] at h
      rw [← Except.ok.inj h] at hy
      cases hy
  | cons x xs ih =>
      intro r h y hy
      simp only [sortM] at h
      obtain ⟨r0, hr0, hins⟩ := bindE_ok _ _ _ h
      rcases insertM_sub x r0 r hins y hy with rfl | hm
      · exact List.mem_cons_self _ _
      · exact List.mem_cons_of_mem _ (ih r0 hr0 y hm)

theorem compMentions_compRec (X : String) (ms cl : List Val) (core : Val) :
    compMentions X (compRec ms core cl) =
      (ms.any (fun x => eqStr x X) || eqStr core X ||
        cl.any (fun x => eqStr x X)) := rfl

theorem normalize_shape (v : Val) (e : PyDict)
    (h : normalize_comp_entry v = .ok e) :
    ∃ ms core cl, e = compRec ms core cl := by
  cases v with
  | list xs =>
      simp only [normalize_comp_entry] at h
      obtain ⟨m1, _, h⟩ := bindE_ok _ _ _ h
      obtain ⟨m2, _, h⟩ := bindE_ok _ _ _ h
      exact ⟨m2, Val.str "", [], (Except.ok.inj h).symm⟩
  | dict dd =>
      simp only [normalize_comp_entry] at h
      obtain ⟨ml, _, h⟩ := bindE_ok _ _ _ h
      obtain ⟨ml2, _, h⟩ := bindE_ok _ _ _ h
      obtain ⟨ml3, _, h⟩ := bindE_ok _ _ _ h
      obtain ⟨cl1, _, h⟩ := bindE_ok _ _ _ h
      obtain ⟨cl2, _, h⟩ := bindE_ok _ _ _ h
      obtain ⟨cl3, _, h⟩ := bindE_ok _ _ _ h
      exact ⟨ml3, aget dd "core" (Val.str "") |> (fun cv => orElse0 cv (Val.str "")),
        cl3, (Except.ok.inj h).symm⟩
  | str s => exact ⟨[], Val.str "", [], (Except.ok.inj h).symm⟩
  | num n => exact ⟨[], Val.str "", [], (Except.ok.inj h).symm⟩
  | bool b => exact ⟨[], Val.str "", [], (Except.ok.inj h).symm⟩
  | null => exact ⟨[], Val.str "", [], (Except.ok.inj h).symm⟩

theorem normalize_free (X : String) (hX0 : X ≠ "") (ms cl : List Val) (core : Val)
    (e : PyDict)
    (h : normalize_comp_entry (Val.dict (compRec ms core cl)) = .ok e)
    (hfree : compMentions X (compRec ms core cl) = false) :
    compMentions X e = false := by
  rw [compMentions_compRec] at hfree
  simp only [Bool.or_eq_false_iff] at hfree
  obtain ⟨⟨h1, h2⟩, h3⟩ := hfree
  simp only [normalize_comp_entry] at h
  rw [show aget (compRec ms core cl) "members" (Val.list []) = Val.list ms from rfl,
    show aget (compRec ms core cl) "core" (Val.str "") = core from rfl,
    show aget (compRec ms core cl) "counters" (Val.list []) = Val.list cl from rfl] at h
  obtain ⟨ml, hml, h⟩ := bindE_ok _ _ _ h
  obtain ⟨ml2, hml2, h⟩ := bindE_ok _ _ _ h
  obtain ⟨ml3, hml3, h⟩ := bindE_ok _ _ _ h
  obtain ⟨cl1, hcl1, h⟩ := bindE_ok _ _ _ h
  obtain ⟨cl2, hcl2, h⟩ := bindE_ok _ _ _ h
  obtain ⟨cl3, hcl3, h⟩ := bindE_ok _ _ _ h
  rw [← Except.ok.inj h]
  have hmlsub : ∀ y ∈ ml, y ∈ ms := by
    unfold orElse0 at hml
    by_cases ht : truthy (Val.list ms)
    · rw [if_pos ht] at hml
      rw [show (pyList (Val.list ms) : Except String (List Val)) = .ok ms from rfl] at hml
      rw [← Except.ok.inj hml]
      exact fun y hy => hy
    · rw [if_neg ht] at hml
      rw [show (pyList (Val.list []) : Except String (List Val)) = .ok [] from rfl] at hml
      rw [← Except.ok.inj hml]
      intro y hy
      cases hy
  have hclsub : ∀ y ∈ cl1, y ∈ cl := by
    unfold orElse0 at hcl1
    by_cases ht : truthy (Val.list cl)
    · rw [if_pos ht] at hcl1
      rw [show (pyList (Val.list cl) : Except String (List Val)) = .ok cl from rfl] at hcl1
      rw [← Except.ok.inj hcl1]
      exact fun y hy => hy
    · rw [if_neg ht] at hcl1
      rw [show (pyList (Val.list []) : Except String (List Val)) = .ok [] from rfl] at hcl1
      rw [← Except.ok.inj hcl1]
      intro y hy
      cases hy
  have hml3sub : ∀ y ∈ ml3, y ∈ ms := by
    intro y hy
    have hy2 := sortM_sub ml2 ml3 hml3 y hy
    have hy3 := dedupe_sub _ ml2 hml2 y hy2
    exact hmlsub y (List.mem_of_mem_filter hy3)
  have hcl3sub : ∀ y ∈ cl3, y ∈ cl := by
    intro y hy
    have hy2 := sortM_sub cl2 cl3 hcl3 y hy
    have hy3 := dedupe_sub _ cl2 hcl2 y hy2
    exact hclsub y (List.mem_of_mem_filter hy3)
  show compMentions X (compRec ml3 (orElse0 core (Val.str "")) cl3) = false
  rw [compMentions_compRec]
  rw [any_eqStr_false_of_sub X ms ml3 hml3sub h1,
    any_eqStr_false_of_sub X cl cl3 hcl3sub h3]
  have hcore : eqStr (orElse0 core (Val.str "")) X = false := by
    unfold orElse0
    by_cases ht : truthy core
    · rw [if_pos ht]
      exact h2
    · rw [if_neg ht]
      show (("" : String) == X) = false
      exact beq_eq_false_iff_ne.mpr (fun hc => hX0 hc.symm)
  rw [hcore]
  rfl

theorem cascade_inv (X : String) (hX0 : X ≠ "") (ms cl : List Val) (core : Val)
    (e' : PyDict) (ch : Bool)
    (h : cascadeComp X (compRec ms core cl) = .ok (e', ch)) :
    (∃ ms2 core2 cl2, e' = compRec ms2 core2 cl2 ∧ compMentions X e' = false) ∧
    (ch = false → compMentions X (compRec ms core cl) = false) := by
  have hemp : eqStr (Val.str "") X = false :=
    beq_eq_false_iff_ne.mpr (fun hc => hX0 hc.symm)
  unfold cascadeComp at h
  dsimp only at h
  rw [show aget (compRec ms core cl) "members" (Val.list []) = Val.list ms from rfl,
    show pyContains (Val.list ms) X = Except.ok (ms.any (fun x => eqStr x X)) from rfl,
    okBind] at h
  by_cases hb1 : ms.any (fun x => eqStr x X) = true
  · rw [if_pos hb1,
      show (pyList (Val.list ms) : Except String (List Val)) = .ok ms from rfl] at h
    simp only [okBind] at h
    rw [show dset (compRec ms core cl) "members"
        (Val.list (ms.filter (fun x => !eqStr x X))) =
      compRec (ms.filter (fun x => !eqStr x X)) core cl from rfl] at h
    rw [show aget (compRec (ms.filter (fun x => !eqStr x X)) core cl) "core"
      (Val.str "") = core from rfl] at h
    by_cases hc : eqStr core X = true
    · rw [if_pos hc] at h
      rw [show dset (compRec (ms.filter (fun x => !eqStr x X)) core cl) "core"
          (Val.str "") =
        compRec (ms.filter (fun x => !eqStr x X)) (Val.str "") cl from rfl] at h
      dsimp only at h
      rw [show aget (compRec (ms.filter (fun x => !eqStr x X)) (Val.str "") cl)
          "counters" (Val.list []) = Val.list cl from rfl,
        show pyContains (Val.list cl) X =
          Except.ok (cl.any (fun x => eqStr x X)) from rfl, okBind] at h
      by_cases hb3 : cl.any (fun x => eqStr x X) = true
      · rw [if_pos hb3,
          show (pyList (Val.list cl) : Except String (List Val)) = .ok cl from rfl] at h
        simp only [okBind] at h
        have hp := Except.ok.inj h
        rw [Prod.mk.injEq] at hp
        obtain ⟨he', hch⟩ := hp
        rw [← he']
        refine ⟨⟨_, _, _, rfl, ?_⟩, fun hcon => by rw [← hch] at hcon; cases hcon⟩
        rw [show dset (compRec (ms.filter (fun x => !eqStr x X)) (Val.str "") cl)
            "counters" (Val.list (cl.filter (fun x => !eqStr x X))) =
          compRec (ms.filter (fun x => !eqStr x X)) (Val.str "")
            (cl.filter (fun x => !eqStr x X)) from rfl]
        rw [compMentions_compRec, any_filter_not_eqStr, any_filter_not_eqStr, hemp]
        rfl
      · rw [if_neg hb3] at h
        have hp := Except.ok.inj h
        rw [Prod.mk.injEq] at hp
        obtain ⟨he', hch⟩ := hp
        rw [← he']
        refine ⟨⟨_, _, _, rfl, ?_⟩, fun hcon => by rw [← hch] at hcon; cases hcon⟩
        rw [compMentions_compRec, any_filter_not_eqStr, hemp,
          (by simpa using hb3 : cl.any (fun x => eqStr x X) = false)]
        rfl
    · rw [if_neg hc] at h
      dsimp only at h
      rw [show aget (compRec (ms.filter (fun x => !eqStr x X)) core cl)
          "counters" (Val.list []) = Val.list cl from rfl,
        show pyContains (Val.list cl) X =
          Except.ok (cl.any (fun x => eqStr x X)) from rfl, okBind] at h
      by_cases hb3 : cl.any (fun x => eqStr x X) = true
      · rw [if_pos hb3,
          show (pyList (Val.list cl) : Except String (List Val)) = .ok cl from rfl] at h
        simp only [okBind] at h
        have hp := Except.ok.inj h
        rw [Prod.mk.injEq] at hp
        obtain ⟨he', hch⟩ := hp
        rw [← he']
        refine ⟨⟨_, _, _, rfl, ?_⟩, fun hcon => by rw [← hch] at hcon; cases hcon⟩
        rw [show dset (compRec (ms.filter (fun x => !eqStr x X)) core cl)
            "counters" (Val.list (cl.filter (fun x => !eqStr x X))) =
          compRec (ms.filter (fun x => !eqStr x X)) core
            (cl.filter (fun x => !eqStr x X)) from rfl]
        rw [compMentions_compRec, any_filter_not_eqStr, any_filter_not_eqStr,
          (by simpa using hc : eqStr core X = false)]
        rfl
      · rw [if_neg hb3] at h
        have hp := Except.ok.inj h
        rw [Prod.mk.injEq] at hp
        obtain ⟨he', hch⟩ := hp
        rw [← he']
        refine ⟨⟨_, _, _, rfl, ?_⟩, fun hcon => by rw [← hch] at hcon; cases hcon⟩
        rw [compMentions_compRec, any_filter_not_eqStr,
          (by simpa using hc : eqStr core X = false),
          (by simpa using hb3 : cl.any (fun x => eqStr x X) = false)]
        rfl
  · rw [if_neg hb1] at h
    simp only [okBind] at h
    rw [show aget (compRec ms core cl) "core" (Val.str "") = core from rfl] at h
    by_cases hc : eqStr core X = true
    · rw [if_pos hc] at h
      rw [show dset (compRec ms core cl) "core" (Val.str "") =
        compRec ms (Val.str "") cl from rfl] at h
      dsimp only at h
      rw [show aget (compRec ms (Val.str "") cl) "counters" (Val.list []) =
          Val.list cl from rfl,
        show pyContains (Val.list cl) X =
          Except.ok (cl.any (fun x => eqStr x X)) from rfl, okBind] at h
      by_cases hb3 : cl.any (fun x => eqStr x X) = true
      · rw [if_pos hb3,
          show (pyList (Val.list cl) : Except String (List Val)) = .ok cl from rfl] at h
        simp only [okBind] at h
        have hp := Except.ok.inj h
        rw [Prod.mk.injEq] at hp
        obtain ⟨he', hch⟩ := hp
        rw [← he']
        refine ⟨⟨_, _, _, rfl, ?_⟩, fun hcon => by rw [← hch] at hcon; cases hcon⟩
        rw [show dset (compRec ms (Val.str "") cl) "counters"
            (Val.list (cl.filter (fun x => !eqStr x X))) =
          compRec ms (Val.str "") (cl.filter (fun x => !eqStr x X)) from rfl]
        rw [compMentions_compRec, any_filter_not_eqStr, hemp,
          (by simpa using hb1 : ms.any (fun x => eqStr x X) = false)]
        rfl
      · rw [if_neg hb3] at h
        have hp := Except.ok.inj h
        rw [Prod.mk.injEq] at hp
        obtain ⟨he', hch⟩ := hp
        rw [← he']
        refine ⟨⟨_, _, _, rfl, ?_⟩, fun hcon => by rw [← hch] at hcon; cases hcon⟩
        rw [compMentions_compRec, hemp,
          (by simpa using hb1 : ms.any (fun x => eqStr x X) = false),
          (by simpa using hb3 : cl.any (fun x => eqStr x X) = false)]
        rfl
    · rw [if_neg hc] at h
      dsimp only at h
      rw [show aget (compRec ms core cl) "counters" (Val.list []) =
          Val.list cl from rfl,
        show pyContains (Val.list cl) X =
          Except.ok (cl.any (fun x => eqStr x X)) from rfl, okBind] at h
      by_cases hb3 : cl.any (fun x => eqStr x X) = true
      · rw [if_pos hb3,
          show (pyList (Val.list cl) : Except String (List Val)) = .ok cl from rfl] at h
        simp only [okBind] at h
        have hp := Except.ok.inj h
        rw [Prod.mk.injEq] at hp
        obtain ⟨he', hch⟩ := hp
        rw [← he']
        refine ⟨⟨_, _, _, rfl, ?_⟩, fun hcon => by rw [← hch] at hcon; cases hcon⟩
        rw [show dset (compRec ms core cl) "counters"
            (Val.list (cl.filter (fun x => !eqStr x X))) =
          compRec ms core (cl.filter (fun x => !eqStr x X)) from rfl]
        rw [compMentions_compRec, any_filter_not_eqStr,
          (by simpa using hb1 : ms.any (fun x => eqStr x X) = false),
          (by simpa using hc : eqStr core X = false)]
        rfl
      · rw [if_neg hb3] at h
        have hp := Except.ok.inj h
        rw [Prod.mk.injEq] at hp
        obtain ⟨he', hch⟩ := hp
        rw [← he']
        have hfree : compMentions X (compRec ms core cl) = false := by
          rw [compMentions_compRec,
            (by simpa using hb1 : ms.any (fun x => eqStr x X) = false),
            (by simpa using hc : eqStr core X = false),
            (by simpa using hb3 : cl.any (fun x => eqStr x X) = false)]
          rfl
        exact ⟨⟨ms, core, cl, rfl, hfree⟩, fun _ => hfree⟩

theorem dset_fst (l : List (String × α)) (k : String) (v : α) :
    (dset l k v).map Prod.fst =
      if keyMem l k then l.map Prod.fst else l.map Prod.fst ++ [k] := by
  induction l with
  | nil => simp [dset, keyMem, alook]
  | cons kv t ih =>
      by_cases hk : kv.1 == k
      · have hk' : kv.1 = k := eq_of_beq hk
        simp [dset, keyMem, alook, hk, hk']
      · have : keyMem (kv :: t) k = keyMem t k := by
          simp [keyMem, alook, hk]
        rw [show dset (kv :: t) k v = kv :: dset t k v from by
          cases kv
          simp [dset, hk]]
        rw [List.map_cons, ih, this]
        by_cases hm : keyMem t k
        · rw [if_pos hm, if_pos hm, List.map_cons]
        · rw [if_neg hm, if_neg hm, List.map_cons, List.cons_append]

theorem mapME_fst_eq (f : (String × Val) → Except String (String × Val))
    (hf : ∀ x y, f x = .ok y → y.1 = x.1) (l r : List (String × Val))
    (h : mapME f l = .ok r) : r.map Prod.fst = l.map Prod.fst := by
  have h2 := mapME_ok_forall2 f l r h
  clear h
  induction h2 with
  | nil => rfl
  | cons hR hrest ih => simp [List.map_cons, hf _ _ hR, ih]

theorem cascadeFold_mono (X : String) (l : List (String × PyDict)) :
    ∀ (acc : List (String × PyDict) × Bool) (r : List (String × PyDict) × Bool),
      foldME (fun acc ne => do
        let (e, ch2) ← cascadeComp X ne.2
        .ok (acc.1 ++ [(ne.1, e)], acc.2 || ch2)) acc l = .ok r →
      acc.2 = true → r.2 = true := by
  induction l with
  | nil =>
      intro acc r h hacc
      simp only [foldME] at h
      rw [← Except.ok.inj h]
      exact hacc
  | cons ne l' ih =>
      intro acc r h hacc
      simp only [foldME] at h
      obtain ⟨p, hp, hrest⟩ := bindE_ok _ _ _ h
      obtain ⟨⟨e, ch2⟩, hcc, hpk⟩ := bindE_ok _ _ _ hp
      rw [← Except.ok.inj hpk] at hrest
      exact ih _ r hrest (by rw [hacc]; rfl)

theorem cascadeFold_false (X : String) (hX0 : X ≠ "") (l : List (String × PyDict)) :
    ∀ (acc : List (String × PyDict) × Bool) (r : List (String × PyDict) × Bool),
      foldME (fun acc ne => do
        let (e, ch2) ← cascadeComp X ne.2
        .ok (acc.1 ++ [(ne.1, e)], acc.2 || ch2)) acc l = .ok r →
      r.2 = false →
      (∀ ne ∈ l, ∃ ms core cl, ne.2 = compRec ms core cl) →
      ∀ ne ∈ l, compMentions X ne.2 = false := by
  induction l with
  | nil =>
      intro acc r _ _ _ ne hne
      cases hne
  | cons q l' ih =>
      intro acc r h hr hshape ne hne
      simp only [foldME] at h
      obtain ⟨p, hp, hrest⟩ := bindE_ok _ _ _ h
      obtain ⟨⟨e, ch2⟩, hcc, hpk⟩ := bindE_ok _ _ _ hp
      rw [← Except.ok.inj hpk] at hrest
      have hch2 : ch2 = false := by
        by_cases hc : ch2 = true
        · have := cascadeFold_mono X l' _ r hrest (by
            show (acc.2 || ch2) = true
            rw [hc]
            simp)
          rw [this] at hr
          exact Bool.noConfusion hr
        · simpa using hc
      rcases List.mem_cons.mp hne with rfl | hm
      · obtain ⟨ms, core, cl, hsh⟩ := hshape ne (List.mem_cons_self _ _)
        rw [hsh] at hcc
        rw [hch2] at hcc
        rw [hsh]
        exact (cascade_inv X hX0 ms cl core e false hcc).2 rfl
      · exact ih _ r hrest hr (fun q2 hq2 => hshape q2 (List.mem_cons_of_mem _ hq2))
          ne hm

theorem cascadeFold_out (X : String) (hX0 : X ≠ "") (l : List (String × PyDict)) :
    ∀ (acc : List (String × PyDict) × Bool) (r : List (String × PyDict) × Bool),
      foldME (fun acc ne => do
        let (e, ch2) ← cascadeComp X ne.2
        .ok (acc.1 ++ [(ne.1, e)], acc.2 || ch2)) acc l = .ok r →
      (∀ ne ∈ l, ∃ ms core cl, ne.2 = compRec ms core cl) →
      ∀ p ∈ r.1, p ∈ acc.1 ∨
        (∃ ms core cl, p.2 = compRec ms core cl ∧ compMentions X p.2 = false) := by
  induction l with
  | nil =>
      intro acc r h _ p hp
      simp only [foldME] at h
      rw [← Except.ok.inj h] at hp
      exact Or.inl hp
  | cons q l' ih =>
      intro acc r h hshape p hp
      simp only [foldME] at h
      obtain ⟨pp, hpp, hrest⟩ := bindE_ok _ _ _ h
      obtain ⟨⟨e, ch2⟩, hcc, hpk⟩ := bindE_ok _ _ _ hpp
      rw [← Except.ok.inj hpk] at hrest
      obtain ⟨ms, core, cl, hsh⟩ := hshape q (List.mem_cons_self _ _)
      rw [hsh] at hcc
      obtain ⟨⟨ms2, core2, cl2, hshape2, hfree2⟩, _⟩ :=
        cascade_inv X hX0 ms cl core e ch2 hcc
      rcases ih _ r hrest (fun q2 hq2 => hshape q2 (List.mem_cons_of_mem _ hq2))
        p hp with hmem | hrich
      · rcases List.mem_append.mp hmem with hmem2 | hmem2
        · exact Or.inl hmem2
        · rw [List.mem_singleton.mp hmem2]
          exact Or.inr ⟨ms2, core2, cl2, hshape2, hfree2⟩
      · exact Or.inr hrich

theorem getCompsFold_shape (raw : PyDict) :
    ∀ (acc r : List (String × PyDict)),
      foldME (fun out nk =>
        if nk.1 == "" then .ok out
        else do
          let e ← normalize_comp_entry nk.2
          .ok (out ++ [(nk.1, e)])) acc raw = .ok r →
      (∀ p ∈ acc, ∃ ms core cl, p.2 = compRec ms core cl) →
      ∀ p ∈ r, ∃ ms core cl, p.2 = compRec ms core cl := by
  induction raw with
  | nil =>
      intro acc r h hacc p hp
      simp only [foldME] at h
      rw [← Except.ok.inj h] at hp
      exact hacc p hp
  | cons nk raw' ih =>
      intro acc r h hacc p hp
      simp only [foldME] at h
      by_cases hnm : nk.1 == ""
      · rw [if_pos hnm, okBind] at h
        exact ih acc r h hacc p hp
      · rw [if_neg hnm] at h
        obtain ⟨acc2, hstep, hrest⟩ := bindE_ok _ _ _ h
        obtain ⟨e, hnorm, heq⟩ := bindE_ok _ _ _ hstep
        rw [← Except.ok.inj heq] at hrest
        refine ih _ r hrest ?_ p hp
        intro q hq
        rcases List.mem_append.mp hq with hq2 | hq2
        · exact hacc q hq2
        · rw [List.mem_singleton.mp hq2]
          exact normalize_shape nk.2 e hnorm

theorem getCompsFold_free (X : String) (raw : PyDict) :
    ∀ (acc r : List (String × PyDict)),
      foldME (fun out nk =>
        if nk.1 == "" then .ok out
        else do
          let e ← normalize_comp_entry nk.2
          .ok (out ++ [(nk.1, e)])) acc raw = .ok r →
      (∀ p ∈ acc, compMentions X p.2 = false) →
      (∀ nk ∈ raw, ∀ e, normalize_comp_entry nk.2 = .ok e →
        compMentions X e = false) →
      ∀ p ∈ r, compMentions X p.2 = false := by
  induction raw with
  | nil =>
      intro acc r h hacc _ p hp
      simp only [foldME] at h
      rw [← Except.ok.inj h] at hp
      exact hacc p hp
  | cons nk raw' ih =>
      intro acc r h hacc hraw p hp
      simp only [foldME] at h
      by_cases hnm : nk.1 == ""
      · rw [if_pos hnm, okBind] at h
        exact ih acc r h hacc
          (fun q hq => hraw q (List.mem_cons_of_mem _ hq)) p hp
      · rw [if_neg hnm] at h
        obtain ⟨acc2, hstep, hrest⟩ := bindE_ok _ _ _ h
        obtain ⟨e, hnorm, heq⟩ := bindE_ok _ _ _ hstep
        rw [← Except.ok.inj heq] at hrest
        refine ih _ r hrest ?_
          (fun q hq => hraw q (List.mem_cons_of_mem _ hq)) p hp
        intro q hq
        rcases List.mem_append.mp hq with hq2 | hq2
        · exact hacc q hq2
        · rw [List.mem_singleton.mp hq2]
          exact hraw nk (List.mem_cons_self _ _) e hnorm

theorem setCompsFold_free (X : String) (hX0 : X ≠ "")
    (l : List (String × PyDict)) :
    ∀ (acc : PyDict) (r : PyDict),
      foldME (fun acc ne =>
        if ne.1 == "" then .ok acc
        else do
          let e ← normalize_comp_entry (Val.dict ne.2)
          .ok (acc ++ [(ne.1, Val.dict e)])) acc l = .ok r →
      (∀ ne ∈ l, ∃ ms core cl, ne.2 = compRec ms core cl ∧
        compMentions X ne.2 = false) →
      (∀ q ∈ acc, ∀ e4, normalize_comp_entry q.2 = .ok e4 →
        compMentions X e4 = false) →
      ∀ q ∈ r, ∀ e4, normalize_comp_entry q.2 = .ok e4 →
        compMentions X e4 = false := by
  induction l with
  | nil =>
      intro acc r h _ hacc q hq
      simp only [foldME] at h
      rw [← Except.ok.inj h] at hq
      exact hacc q hq
  | cons ne l' ih =>
      intro acc r h hshape hacc q hq
      simp only [foldME] at h
      by_cases hnm : ne.1 == ""
      · rw [if_pos hnm, okBind] at h
        exact ih acc r h
          (fun p hp => hshape p (List.mem_cons_of_mem _ hp)) hacc q hq
      · rw [if_neg hnm] at h
        obtain ⟨acc2, hstep, hrest⟩ := bindE_ok _ _ _ h
        obtain ⟨e3, hnorm, heq⟩ := bindE_ok _ _ _ hstep
        rw [← Except.ok.inj heq] at hrest
        refine ih _ r hrest
          (fun p hp => hshape p (List.mem_cons_of_mem _ hp)) ?_ q hq
        intro p hp e4 hnorm4
        rcases List.mem_append.mp hp with hp2 | hp2
        · exact hacc p hp2 e4 hnorm4
        · obtain ⟨ms, core, cl, hsh, hfree⟩ := hshape ne (List.mem_cons_self _ _)
          rw [List.mem_singleton.mp hp2] at hnorm4
          rw [hsh] at hnorm
          obtain ⟨ms3, core3, cl3, hsh3⟩ := normalize_shape _ _ hnorm
          rw [hsh] at hfree
          have hfree3 : compMentions X e3 = false :=
            normalize_free X hX0 ms cl core e3 hnorm hfree
          rw [hsh3] at hfree3
          have hnorm4' : normalize_comp_entry (Val.dict (compRec ms3 core3 cl3)) =
              .ok e4 := by
            rw [← hsh3]
            exact hnorm4
          exact normalize_free X hX0 ms3 cl3 core3 e4 hnorm4' hfree3

theorem filter_fst (l : List (String × Val)) (X : String) :
    (l.filter (fun kv => kv.1 != X)).map Prod.fst =
      (l.map Prod.fst).filter (fun k => k != X) := by
  induction l with
  | nil => rfl
  | cons kv t ih =>
      by_cases h : kv.1 != X
      · simp [List.filter_cons, h, ih]
      · simp [List.filter_cons, h, ih]

theorem get_compositions_shape (dd : PyDict) (comps : List (String × PyDict))
    (h : get_compositions dd = .ok comps) :
    ∀ p ∈ comps, ∃ ms core cl, p.2 = compRec ms core cl := by
  unfold get_compositions at h
  cases hv : aget dd "__compositions__" (Val.dict []) with
  | dict raw =>
      rw [hv] at h
      exact getCompsFold_shape raw [] comps h (fun p hp => absurd hp (List.not_mem_nil p))
  | str s =>
      rw [hv] at h
      rw [← Except.ok.inj h]
      exact fun p hp => absurd hp (List.not_mem_nil p)
  | num n =>
      rw [hv] at h
      rw [← Except.ok.inj h]
      exact fun p hp => absurd hp (List.not_mem_nil p)
  | bool b =>
      rw [hv] at h
      rw [← Except.ok.inj h]
      exact fun p hp => absurd hp (List.not_mem_nil p)
  | null =>
      rw [hv] at h
      rw [← Except.ok.inj h]
      exact fun p hp => absurd hp (List.not_mem_nil p)
  | list xs =>
      rw [hv] at h
      rw [← Except.ok.inj h]
      exact fun p hp => absurd hp (List.not_mem_nil p)

/-- C6 (confirmed): deleting a (non-reserved, non-empty-named) hero `X` and
reconciling leaves no trace of `X`: its record is gone, no hero's
relationship field contains it, and every composition read back from the
result neither lists it as a member or counter nor keeps it as core. -/
theorem c6_spec (d : PyDict) (hnd : (d.map Prod.fst).Nodup) (X : String)
    (hX0 : X ≠ "") (hXr : isReserved X = false) (st : PyDict) (c : Nat)
    (hdel : delete_hero X d = .ok (st, c)) :
    keyMem st X = false ∧
    (∀ n ∈ namesOf st, ∀ key ∈ relKeys, hasRel st n key X = false) ∧
    (∀ comps2, get_compositions st = .ok comps2 →
      ∀ p ∈ comps2, compMentions X p.2 = false) := by
  unfold delete_hero at hdel
  by_cases hkm : keyMem d X = true
  case neg =>
    rw [show (!keyMem d X) = true from by
      rw [show keyMem d X = false from by simpa using hkm]
      rfl] at hdel
    rw [if_pos rfl] at hdel
    exact Except.noConfusion hdel
  case pos =>
  rw [show (!keyMem d X) = false from by rw [hkm]; rfl] at hdel
  simp only [Bool.false_eq_true, if_false] at hdel
  obtain ⟨data1', hmap, hdel⟩ := bindE_ok _ _ _ hdel
  obtain ⟨comps, hcomps, hdel⟩ := bindE_ok _ _ _ hdel
  obtain ⟨⟨comps1, changed⟩, hfold, hdel⟩ := bindE_ok _ _ _ hdel
  dsimp only at hdel
  have hpack : ∃ data2, ensure_bidirectional_relationships data2 = .ok (st, c) ∧
      ((changed = true ∧ set_compositions data1' comps1 = .ok data2) ∨
       (changed = false ∧ data2 = data1')) := by
    by_cases hch : changed = true
    · rw [if_pos hch] at hdel
      obtain ⟨data2, hset, hdel⟩ := bindE_ok _ _ _ hdel
      exact ⟨data2, hdel, Or.inl ⟨hch, hset⟩⟩
    · rw [if_neg hch] at hdel
      rw [okBind] at hdel
      exact ⟨data1', hdel, Or.inr ⟨by simpa using hch, rfl⟩⟩
  obtain ⟨data2, hdel2, hcase⟩ := hpack
  clear hdel
  have hnd1 : ((d.filter (fun kv => kv.1 != X)).map Prod.fst).Nodup := by
    rw [filter_fst]
    exact hnd.filter _
  have hX1 : X ∉ (d.filter (fun kv => kv.1 != X)).map Prod.fst := by
    rw [filter_fst]
    intro hc
    have := (List.mem_filter.mp hc).2
    simp at this
  have hstrip : ∀ (x y : String × Val),
      ((fun kv => match kv.2 with
        | Val.dict hh =>
            if keyMem hh "counters" then do
              let hh ← foldME (fun hh key => do
                  let xs ← pyList (← dgetE hh key)
                  .ok (dset hh key (Val.list
                    (xs.filter (fun x => !eqStr x X))))) hh relKeys
              .ok (kv.1, Val.dict hh)
            else .ok kv
        | _ => .ok kv) :
        (String × Val) → Except String (String × Val)) x = .ok y → y.1 = x.1 := by
    intro x y hxy
    dsimp only at hxy
    cases hx2 : x.2 with
    | dict hh =>
        rw [hx2] at hxy
        dsimp only at hxy
        by_cases hkc : keyMem hh "counters"
        · rw [if_pos hkc] at hxy
          obtain ⟨hh2, _, heq⟩ := bindE_ok _ _ _ hxy
          rw [← Except.ok.inj heq]
        · rw [if_neg hkc] at hxy
          rw [← Except.ok.inj hxy]
    | str s => rw [hx2] at hxy; rw [← Except.ok.inj hxy]
    | num n => rw [hx2] at hxy; rw [← Except.ok.inj hxy]
    | bool b => rw [hx2] at hxy; rw [← Except.ok.inj hxy]
    | null => rw [hx2] at hxy; rw [← Except.ok.inj hxy]
    | list xs => rw [hx2] at hxy; rw [← Except.ok.inj hxy]
  have hkeys1 : data1'.map Prod.fst = (d.filter (fun kv => kv.1 != X)).map Prod.fst :=
    mapME_fst_eq _ hstrip _ data1' hmap
  have hnd1' : (data1'.map Prod.fst).Nodup := by rw [hkeys1]; exact hnd1
  have hX1' : X ∉ data1'.map Prod.fst := by rw [hkeys1]; exact hX1
  have hXc : X ≠ "__compositions__" := by
    intro hc
    rw [hc] at hXr
    exact absurd hXr (by decide)
  have hkeys2 : data2.map Prod.fst = data1'.map Prod.fst ∨
      (data2.map Prod.fst = data1'.map Prod.fst ++ ["__compositions__"] ∧
        "__compositions__" ∉ data1'.map Prod.fst) := by
    rcases hcase with ⟨hch, hset⟩ | ⟨hch, hdd⟩
    · unfold set_compositions at hset
      obtain ⟨clean, hclean, heq⟩ := bindE_ok _ _ _ hset
      rw [← Except.ok.inj heq, dset_fst]
      by_cases hkc : keyMem data1' "__compositions__"
      · rw [if_pos hkc]
        exact Or.inl rfl
      · rw [if_neg hkc]
        refine Or.inr ⟨rfl, fun hc => hkc ((keyMem_iff _ _).mpr hc)⟩
    · rw [hdd]
      exact Or.inl rfl
  have hnd2 : (data2.map Prod.fst).Nodup := by
    rcases hkeys2 with hk | ⟨hk, hdisj⟩
    · rw [hk]
      exact hnd1'
    · rw [hk, List.nodup_append]
      exact ⟨hnd1', List.nodup_singleton _, fun a ha hb =>
        (List.mem_singleton.mp hb ▸ hdisj) ((List.mem_singleton.mp hb) ▸ ha)⟩
  have hX2 : X ∉ data2.map Prod.fst := by
    rcases hkeys2 with hk | ⟨hk, _⟩
    · rw [hk]
      exact hX1'
    · rw [hk]
      intro hc
      rcases List.mem_append.mp hc with h1 | h1
      · exact hX1' h1
      · exact hXc (List.mem_singleton.mp h1)
  obtain ⟨hst, hcc⟩ := reconcile_ok_char data2 hnd2 st c hdel2
  have hok2 := reconcile_ok_specOK data2 hnd2 _ hdel2
  subst hst
  refine ⟨?_, ?_, ?_⟩
  · rw [show keyMem (specState data2) X = keyMem data2 X from keyMem_stB data2 _ _ X]
    cases hkm2 : keyMem data2 X
    · rfl
    · exact absurd ((keyMem_iff _ _).mp hkm2) hX2
  · intro n hn key hkey
    rw [show namesOf (specState data2) = namesOf data2 from namesOf_stB data2 _ _] at hn
    have hnotin : ∀ l : List String, (∀ s ∈ l, s ∈ namesOf data2) →
        l.contains X = false := by
      intro l hl
      refine (contains_false _ _).mpr ?_
      intro hc
      exact hX2 (List.mem_of_mem_filter (hl X hc))
    simp only [relKeys, List.mem_cons, List.not_mem_nil, or_false] at hkey
    rcases hkey with rfl | rfl | rfl | rfl
    · rw [show hasRel (specState data2) n "counters" X =
        (pC data2 (namesOf data2) n).contains X from hasRel_stB_c data2 hok2 _ _ n hn X]
      exact hnotin _ (fun s hs => (pC_props data2 _ (fun p hp => hp) n s hs).1)
    · rw [show hasRel (specState data2) n "countered_by" X =
        (pCB data2 (namesOf data2) n).contains X from
        hasRel_stB_cb data2 hok2 _ _ n hn X]
      exact hnotin _ (fun s hs => (pCB_props data2 _ (fun p hp => hp) n s hs).1)
    · rw [show hasRel (specState data2) n "ban_targets" X =
        (BTl data2 n).contains X from hasRel_stB_bt data2 hok2 _ _ n hn X]
      exact hnotin _ (fun s hs => (cleanNames_props _ _ _ s hs).1)
    · rw [show hasRel (specState data2) n "synergy" X =
        (SYl data2 n).contains X from hasRel_stB_sy data2 hok2 _ _ n hn X]
      exact hnotin _ (fun s hs => (cleanNames_props _ _ _ s hs).1)
  · intro comps2 hgc p hp
    have hagg : get_compositions (specState data2) = get_compositions data2 := by
      unfold get_compositions
      rw [show aget (specState data2) "__compositions__" (Val.dict []) =
        aget data2 "__compositions__" (Val.dict []) from
        aget_stB_reserved data2 _ _ "__compositions__" (by decide) (Val.dict [])]
    rw [hagg] at hgc
    rcases hcase with ⟨hch, hset⟩ | ⟨hch, hdd⟩
    · unfold set_compositions at hset
      obtain ⟨clean, hclean, heq⟩ := bindE_ok _ _ _ hset
      have hdata2 : data2 = dset data1' "__compositions__" (Val.dict clean) :=
        (Except.ok.inj heq).symm
      have hcompshape := get_compositions_shape _ comps hcomps
      have hcomps1 : ∀ q ∈ comps1, ∃ ms core cl, q.2 = compRec ms core cl ∧
          compMentions X q.2 = false := by
        intro q hq
        rcases cascadeFold_out X hX0 comps ([], false) (comps1, changed) hfold
          hcompshape q hq with h1 | h1
        · cases h1
        · exact h1
      have hclean2 : ∀ q ∈ clean, ∀ e4, normalize_comp_entry q.2 = .ok e4 →
          compMentions X e4 = false :=
        setCompsFold_free X hX0 comps1 [] clean hclean hcomps1
          (fun q hq => absurd hq (List.not_mem_nil q))
      rw [hdata2] at hgc
      unfold get_compositions at hgc
      rw [aget_dset_self data1' "__compositions__" (Val.dict clean)
        (Val.dict [])] at hgc
      exact getCompsFold_free X clean [] comps2 hgc
        (fun q hq => absurd hq (List.not_mem_nil q)) hclean2 p hp
    · rw [hdd] at hgc
      have hceq : comps = comps2 := Except.ok.inj (hcomps.symm.trans hgc)
      have hfree := cascadeFold_false X hX0 comps ([], false) (comps1, changed)
        hfold (by rw [hch]) (get_compositions_shape _ comps hcomps)
      rw [← hceq] at hp
      exact hfree p hp

/-- C6 (witness): the delete cascade applied to a concrete collection with
one composition referencing the deleted hero. -/
theorem c6_spec_witness :
    keyMem stC6 "P" = false ∧
    (∀ n ∈ namesOf stC6, ∀ key ∈ relKeys, hasRel stC6 n key "P" = false) ∧
    (∀ comps2, get_compositions stC6 = .ok comps2 →
      ∀ p ∈ comps2, compMentions "P" p.2 = false) :=
  c6_spec exC6 (by decide) "P" (by decide) (by decide) stC6 cC6 rfl

/-! ### Order-independence support -/

theorem ensure_fields_equiv (hd1 hd2 : PyDict)
    (hnon : ∀ k, k ∉ relKeys → alook hd1 k = alook hd2 k)
    (hrel : ∀ k ∈ relKeys, alook hd1 k = alook hd2 k ∨
      ∃ xs1 xs2, alook hd1 k = some (Val.list xs1) ∧
        alook hd2 k = some (Val.list xs2) ∧ xs1.Perm xs2)
    (h1 : PyDict) (hok1 : ensure_fields (Val.dict hd1) = .ok h1) :
    ∃ (sy1 cs1 cb1 bt1 sy2 cs2 cb2 bt2 : List Val) (t m im : Val)
      (r ls : List Val) (lt : PyDict),
      h1 = heroRec t m im r ls sy1 cs1 cb1 bt1 lt ∧
      ensure_fields (Val.dict hd2) = .ok (heroRec t m im r ls sy2 cs2 cb2 bt2 lt) ∧
      sy1.Perm sy2 ∧ cs1.Perm cs2 ∧ cb1.Perm cb2 ∧ bt1.Perm bt2 := by
  have hag : ∀ (k : String) (dflt : Val), k ∉ relKeys →
      aget hd1 k dflt = aget hd2 k dflt := by
    intro k dflt hk
    unfold aget
    rw [hnon k hk]
  have hjoint : ∀ k, k ∈ relKeys → ∀ xs1 : List Val,
      pyList (aget hd1 k (Val.list [])) = .ok xs1 →
      ∃ xs2, pyList (aget hd2 k (Val.list [])) = .ok xs2 ∧ xs1.Perm xs2 := by
    intro k hk xs1 hxs
    rcases hrel k hk with he | ⟨ys1, ys2, ha1, ha2, hperm⟩
    · refine ⟨xs1, ?_, List.Perm.refl xs1⟩
      rw [show aget hd2 k (Val.list []) = aget hd1 k (Val.list []) from by
        unfold aget
        rw [he]]
      exact hxs
    · unfold aget at hxs ⊢
      rw [ha1] at hxs
      rw [ha2]
      have hxs1 : ys1 = xs1 := Except.ok.inj hxs
      refine ⟨ys2, rfl, ?_⟩
      rw [← hxs1]
      exact hperm
  unfold ensure_fields at hok1
  rw [show asDict (Val.dict hd1) "AttributeError" = .ok hd1 from rfl, okBind] at hok1
  dsimp only at hok1
  obtain ⟨ltd, hltd, hok1⟩ := bindE_ok _ _ _ hok1
  obtain ⟨ls, hls, hok1⟩ := bindE_ok _ _ _ hok1
  obtain ⟨r, hr, hok1⟩ := bindE_ok _ _ _ hok1
  obtain ⟨sy1, hsy, hok1⟩ := bindE_ok _ _ _ hok1
  obtain ⟨cs1, hcs, hok1⟩ := bindE_ok _ _ _ hok1
  obtain ⟨cb1, hcb, hok1⟩ := bindE_ok _ _ _ hok1
  obtain ⟨bt1, hbt, hok1⟩ := bindE_ok _ _ _ hok1
  obtain ⟨sy2, hsy2, hpsy⟩ := hjoint "synergy" (by decide) sy1 hsy
  obtain ⟨cs2, hcs2, hpcs⟩ := hjoint "counters" (by decide) cs1 hcs
  obtain ⟨cb2, hcb2, hpcb⟩ := hjoint "countered_by" (by decide) cb1 hcb
  obtain ⟨bt2, hbt2, hpbt⟩ := hjoint "ban_targets" (by decide) bt1 hbt
  refine ⟨sy1, cs1, cb1, bt1, sy2, cs2, cb2, bt2, aget hd1 "tier" (Val.str ""),
    mainCalc (aget hd1 "main_lane" (Val.str "")) ls, aget hd1 "image" (Val.str ""),
    r, ls, LANE_CHOICES.foldl (fun d lane => setdefault d lane (Val.str "")) ltd,
    (Except.ok.inj hok1).symm, ?_, hpsy, hpcs, hpcb, hpbt⟩
  unfold ensure_fields
  rw [show asDict (Val.dict hd2) "AttributeError" = .ok hd2 from rfl, okBind]
  dsimp only
  rw [← hag "lane_tiers" (Val.dict []) (by decide)]
  rw [hltd, okBind]
  rw [← hag "lanes" (Val.list []) (by decide), hls, okBind]
  rw [← hag "roles" (Val.list []) (by decide), hr, okBind]
  rw [hsy2, okBind, hcs2, okBind, hcb2, okBind, hbt2, okBind]
  rw [← hag "tier" (Val.str "") (by decide), ← hag "main_lane" (Val.str "") (by decide),
    ← hag "image" (Val.str "") (by decide)]
  rfl

theorem perm_contains (l1 l2 : List String) (hp : l1.Perm l2) (a : String) :
    l1.contains a = l2.contains a := by
  by_cases hm : a ∈ l1
  · rw [(contains_iff _ _).mpr hm, (contains_iff _ _).mpr (hp.mem_iff.mp hm)]
  · rw [(contains_false _ _).mpr hm,
      (contains_false _ _).mpr (fun hc => hm (hp.mem_iff.mpr hc))]

theorem cleanNames_perm (names1 names2 : List String)
    (hnames : ∀ s : String, s ∈ names1 ↔ s ∈ names2) (n : String)
    (xs1 xs2 : List Val) (hp : xs1.Perm xs2) :
    (cleanNames names1 n xs1).Perm (cleanNames names2 n xs2) := by
  rw [List.perm_ext_iff_of_nodup (cleanNames_nodup _ _ _) (cleanNames_nodup _ _ _)]
  intro s
  rw [mem_cleanNames, mem_cleanNames]
  constructor
  · rintro ⟨hx, hn, hne, h0⟩
    exact ⟨hp.mem_iff.mp hx, (hnames s).mp hn, hne, h0⟩
  · rintro ⟨hx, hn, hne, h0⟩
    exact ⟨hp.mem_iff.mpr hx, (hnames s).mpr hn, hne, h0⟩

theorem perm_map_sum (l1 l2 : List String) (hp : l1.Perm l2) (f g : String → Nat)
    (hfg : ∀ x ∈ l1, f x = g x) : (l1.map f).sum = (l2.map g).sum := by
  rw [List.map_congr_left hfg]
  exact (hp.map g).sum_eq

theorem heroN_equiv (d1 d2 : PyDict) (heq : DataEquiv d1 d2)
    (hok1 : specOK d1 = true) (n : String) (hn : n ∈ namesOf d1) :
    ∃ (t m im : Val) (r ls : List Val) (lt : PyDict)
      (sy1 cs1 cb1 bt1 sy2 cs2 cb2 bt2 : List Val),
      heroN d1 n = heroRec t m im r ls sy1 cs1 cb1 bt1 lt ∧
      heroN d2 n = heroRec t m im r ls sy2 cs2 cb2 bt2 lt ∧
      sy1.Perm sy2 ∧ cs1.Perm cs2 ∧ cb1.Perm cb2 ∧ bt1.Perm bt2 := by
  have hn1 : n ∈ d1.map Prod.fst := ((mem_namesOf d1 n).mp hn).1
  have hn2 : n ∈ d2.map Prod.fst := heq.1.mem_iff.mp hn1
  obtain ⟨v1, hv1⟩ := Option.isSome_iff_exists.mp ((alook_isSome_iff d1 n).mpr hn1)
  obtain ⟨v2, hv2⟩ := Option.isSome_iff_exists.mp ((alook_isSome_iff d2 n).mpr hn2)
  have hag1 : aget d1 n Val.null = v1 := by unfold aget; rw [hv1]; rfl
  have hag2 : aget d2 n Val.null = v2 := by unfold aget; rw [hv2]; rfl
  have hef1 : ensure_fields v1 = .ok (heroN d1 n) := by
    rw [← hag1]
    exact heroN_ok d1 hok1 n hn
  rcases heq.2 n v1 v2 hv1 hv2 with rfl | ⟨hh1, hh2, rfl, rfl, hnon, hrelk⟩
  · obtain ⟨t, m, im, r, ls, sy, cs, cb, bt, lt, hsh, _, _⟩ := heroN_shape d1 hok1 n hn
    refine ⟨t, m, im, r, ls, lt, sy, cs, cb, bt, sy, cs, cb, bt, hsh, ?_,
      List.Perm.refl _, List.Perm.refl _, List.Perm.refl _, List.Perm.refl _⟩
    unfold heroN
    rw [hag2, hef1, ← hsh]
  · obtain ⟨sy1, cs1, cb1, bt1, sy2, cs2, cb2, bt2, t, m, im, r, ls, lt,
      hsh1, hef2, hpsy, hpcs, hpcb, hpbt⟩ :=
      ensure_fields_equiv hh1 hh2 hnon hrelk (heroN d1 n) hef1
    refine ⟨t, m, im, r, ls, lt, sy1, cs1, cb1, bt1, sy2, cs2, cb2, bt2, hsh1, ?_,
      hpsy, hpcs, hpcb, hpbt⟩
    unfold heroN
    rw [hag2, hef2]

theorem contains_eq_of_mem_iff (l1 l2 : List String) (a : String)
    (h : a ∈ l1 ↔ a ∈ l2) : l1.contains a = l2.contains a := by
  by_cases hm : a ∈ l1
  · rw [(contains_iff _ _).mpr hm, (contains_iff _ _).mpr (h.mp hm)]
  · rw [(contains_false _ _).mpr hm, (contains_false _ _).mpr (fun hc => hm (h.mpr hc))]

theorem heroData_equiv (d1 d2 : PyDict) (heq : DataEquiv d1 d2)
    (hok1 : specOK d1 = true)
    (hnames : ∀ s : String, s ∈ namesOf d1 ↔ s ∈ namesOf d2)
    (n : String) (hn : n ∈ namesOf d1) :
    (CIl d1 n).Perm (CIl d2 n) ∧ (CBl d1 n).Perm (CBl d2 n) ∧
    (BTl d1 n).Perm (BTl d2 n) ∧ (SYl d1 n).Perm (SYl d2 n) ∧
    heroCleanCount d1 n = heroCleanCount d2 n := by
  obtain ⟨t, m, im, r, ls, lt, sy1, cs1, cb1, bt1, sy2, cs2, cb2, bt2,
    hsh1, hsh2, hpsy, hpcs, hpcb, hpbt⟩ := heroN_equiv d1 d2 heq hok1 n hn
  have hC : (CIl d1 n).Perm (CIl d2 n) := by
    unfold CIl
    rw [rawRel_counters d1 n t m im r ls sy1 cs1 cb1 bt1 lt hsh1,
      rawRel_counters d2 n t m im r ls sy2 cs2 cb2 bt2 lt hsh2]
    exact cleanNames_perm _ _ hnames n cs1 cs2 hpcs
  have hB : (CBl d1 n).Perm (CBl d2 n) := by
    unfold CBl
    rw [rawRel_countered_by d1 n t m im r ls sy1 cs1 cb1 bt1 lt hsh1,
      rawRel_countered_by d2 n t m im r ls sy2 cs2 cb2 bt2 lt hsh2]
    exact cleanNames_perm _ _ hnames n cb1 cb2 hpcb
  have hT : (BTl d1 n).Perm (BTl d2 n) := by
    unfold BTl
    rw [rawRel_ban_targets d1 n t m im r ls sy1 cs1 cb1 bt1 lt hsh1,
      rawRel_ban_targets d2 n t m im r ls sy2 cs2 cb2 bt2 lt hsh2]
    exact cleanNames_perm _ _ hnames n bt1 bt2 hpbt
  have hS : (SYl d1 n).Perm (SYl d2 n) := by
    unfold SYl
    rw [rawRel_synergy d1 n t m im r ls sy1 cs1 cb1 bt1 lt hsh1,
      rawRel_synergy d2 n t m im r ls sy2 cs2 cb2 bt2 lt hsh2]
    exact cleanNames_perm _ _ hnames n sy1 sy2 hpsy
  refine ⟨hC, hB, hT, hS, ?_⟩
  rw [heroCleanCount_cnt4 d1 n t m im r ls sy1 cs1 cb1 bt1 lt hsh1,
    heroCleanCount_cnt4 d2 n t m im r ls sy2 cs2 cb2 bt2 lt hsh2]
  unfold cnt4
  rw [(cleanNames_perm _ _ hnames n cs1 cs2 hpcs).length_eq, hpcs.length_eq,
    (cleanNames_perm _ _ hnames n cb1 cb2 hpcb).length_eq, hpcb.length_eq,
    (cleanNames_perm _ _ hnames n bt1 bt2 hpbt).length_eq, hpbt.length_eq,
    (cleanNames_perm _ _ hnames n sy1 sy2 hpsy).length_eq, hpsy.length_eq]

theorem wA_equiv (d1 d2 : PyDict) (heq : DataEquiv d1 d2)
    (hok1 : specOK d1 = true)
    (hnames : ∀ s : String, s ∈ namesOf d1 ↔ s ∈ namesOf d2)
    (a : String) (ha : a ∈ namesOf d1) : wA d1 a = wA d2 a := by
  unfold wA
  have hCa := (heroData_equiv d1 d2 heq hok1 hnames a ha).1
  have hBa := (heroData_equiv d1 d2 heq hok1 hnames a ha).2.1
  have hf1 : ((CIl d1 a).filter (fun b => !(CBl d1 b).contains a)).length =
      ((CIl d2 a).filter (fun b => !(CBl d2 b).contains a)).length := by
    rw [List.filter_congr (fun b hb => by
      rw [perm_contains _ _ ((heroData_equiv d1 d2 heq hok1 hnames b
        (CIl_props d1 a b hb).1).2.1) a])]
    exact (hCa.filter _).length_eq
  have hf2 : ((CBl d1 a).filter (fun b => !(CIl d1 b).contains a)).length =
      ((CBl d2 a).filter (fun b => !(CIl d2 b).contains a)).length := by
    rw [List.filter_congr (fun b hb => by
      rw [perm_contains _ _ ((heroData_equiv d1 d2 heq hok1 hnames b
        (CBl_props d1 a b hb).1).1) a])]
    exact (hBa.filter _).length_eq
  rw [hf1, hf2]

theorem specCount_equiv (d1 d2 : PyDict) (heq : DataEquiv d1 d2)
    (hok1 : specOK d1 = true) : specCount d1 = specCount d2 := by
  have hNperm : (namesOf d1).Perm (namesOf d2) := heq.1.filter _
  have hnames : ∀ s : String, s ∈ namesOf d1 ↔ s ∈ namesOf d2 :=
    fun s => hNperm.mem_iff
  unfold specCount cleanCount
  rw [perm_map_sum (namesOf d1) (namesOf d2) hNperm (heroCleanCount d1)
      (heroCleanCount d2)
      (fun n hn => (heroData_equiv d1 d2 heq hok1 hnames n hn).2.2.2.2),
    perm_map_sum (namesOf d1) (namesOf d2) hNperm (wA d1) (wA d2)
      (fun n hn => wA_equiv d1 d2 heq hok1 hnames n hn)]

theorem pC_mem_equiv (d1 d2 : PyDict) (heq : DataEquiv d1 d2)
    (hok1 : specOK d1 = true)
    (hnames : ∀ s : String, s ∈ namesOf d1 ↔ s ∈ namesOf d2)
    (n : String) (hn : n ∈ namesOf d1) (b : String) :
    b ∈ pC d1 (namesOf d1) n ↔ b ∈ pC d2 (namesOf d2) n := by
  rw [mem_pC, mem_pC]
  have hCI := (heroData_equiv d1 d2 heq hok1 hnames n hn).1
  constructor
  · rintro (h | ⟨hbN, hb0, hcb, hnotci⟩)
    · exact Or.inl (hCI.mem_iff.mp h)
    · have hCBb := (heroData_equiv d1 d2 heq hok1 hnames b hbN).2.1
      exact Or.inr ⟨(hnames b).mp hbN, hb0, hCBb.mem_iff.mp hcb,
        fun hc => hnotci (hCI.mem_iff.mpr hc)⟩
  · rintro (h | ⟨hbN, hb0, hcb, hnotci⟩)
    · exact Or.inl (hCI.mem_iff.mpr h)
    · have hbN1 : b ∈ namesOf d1 := (hnames b).mpr hbN
      have hCBb := (heroData_equiv d1 d2 heq hok1 hnames b hbN1).2.1
      exact Or.inr ⟨hbN1, hb0, hCBb.mem_iff.mpr hcb,
        fun hc => hnotci (hCI.mem_iff.mp hc)⟩

theorem pCB_mem_equiv (d1 d2 : PyDict) (heq : DataEquiv d1 d2)
    (hok1 : specOK d1 = true)
    (hnames : ∀ s : String, s ∈ namesOf d1 ↔ s ∈ namesOf d2)
    (n : String) (hn : n ∈ namesOf d1) (b : String) :
    b ∈ pCB d1 (namesOf d1) n ↔ b ∈ pCB d2 (namesOf d2) n := by
  rw [mem_pCB, mem_pCB]
  have hCB := (heroData_equiv d1 d2 heq hok1 hnames n hn).2.1
  constructor
  · rintro (h | ⟨hbN, hb0, hci, hnotcb⟩)
    · exact Or.inl (hCB.mem_iff.mp h)
    · have hCIb := (heroData_equiv d1 d2 heq hok1 hnames b hbN).1
      exact Or.inr ⟨(hnames b).mp hbN, hb0, hCIb.mem_iff.mp hci,
        fun hc => hnotcb (hCB.mem_iff.mpr hc)⟩
  · rintro (h | ⟨hbN, hb0, hci, hnotcb⟩)
    · exact Or.inl (hCB.mem_iff.mpr h)
    · have hbN1 : b ∈ namesOf d1 := (hnames b).mpr hbN
      have hCIb := (heroData_equiv d1 d2 heq hok1 hnames b hbN1).1
      exact Or.inr ⟨hbN1, hb0, hCIb.mem_iff.mpr hci,
        fun hc => hnotcb (hCB.mem_iff.mp hc)⟩

/-- C7 (confirmed): on two duplicate-free collections equal up to hero
insertion order and up to the order of entries within each relationship
list, successful reconciliation yields the same change count, key sets
equal as multisets, and the same relationship memberships for every
hero and field. -/
theorem c7_spec (d1 d2 st1 st2 : PyDict) (c1 c2 : Nat)
    (hnd1 : (d1.map Prod.fst).Nodup) (hnd2 : (d2.map Prod.fst).Nodup)
    (heq : DataEquiv d1 d2)
    (h1 : ensure_bidirectional_relationships d1 = .ok (st1, c1))
    (h2 : ensure_bidirectional_relationships d2 = .ok (st2, c2)) :
    c1 = c2 ∧ (st1.map Prod.fst).Perm (st2.map Prod.fst) ∧
    (∀ n ∈ namesOf st1, ∀ key ∈ relKeys, ∀ b : String,
      hasRel st1 n key b = hasRel st2 n key b) := by
  have hok1 := reconcile_ok_specOK d1 hnd1 _ h1
  have hok2 := reconcile_ok_specOK d2 hnd2 _ h2
  obtain ⟨hst1, hc1⟩ := reconcile_ok_char d1 hnd1 st1 c1 h1
  obtain ⟨hst2, hc2⟩ := reconcile_ok_char d2 hnd2 st2 c2 h2
  subst hst1
  subst hst2
  subst hc1
  subst hc2
  have hNperm : (namesOf d1).Perm (namesOf d2) := heq.1.filter _
  have hnames : ∀ s : String, s ∈ namesOf d1 ↔ s ∈ namesOf d2 :=
    fun s => hNperm.mem_iff
  refine ⟨specCount_equiv d1 d2 heq hok1, ?_, ?_⟩
  · rw [show (specState d1).map Prod.fst = d1.map Prod.fst from stB_keys d1 _ _,
      show (specState d2).map Prod.fst = d2.map Prod.fst from stB_keys d2 _ _]
    exact heq.1
  · intro n hn key hkey b
    rw [show namesOf (specState d1) = namesOf d1 from namesOf_stB d1 _ _] at hn
    have hn2 : n ∈ namesOf d2 := (hnames n).mp hn
    simp only [relKeys, List.mem_cons, List.not_mem_nil, or_false] at hkey
    rcases hkey with rfl | rfl | rfl | rfl
    · rw [show hasRel (specState d1) n "counters" b =
        (pC d1 (namesOf d1) n).contains b from hasRel_stB_c d1 hok1 _ _ n hn b,
        show hasRel (specState d2) n "counters" b =
        (pC d2 (namesOf d2) n).contains b from hasRel_stB_c d2 hok2 _ _ n hn2 b]
      exact contains_eq_of_mem_iff _ _ b (pC_mem_equiv d1 d2 heq hok1 hnames n hn b)
    · rw [show hasRel (specState d1) n "countered_by" b =
        (pCB d1 (namesOf d1) n).contains b from hasRel_stB_cb d1 hok1 _ _ n hn b,
        show hasRel (specState d2) n "countered_by" b =
        (pCB d2 (namesOf d2) n).contains b from hasRel_stB_cb d2 hok2 _ _ n hn2 b]
      exact contains_eq_of_mem_iff _ _ b (pCB_mem_equiv d1 d2 heq hok1 hnames n hn b)
    · rw [show hasRel (specState d1) n "ban_targets" b =
        (BTl d1 n).contains b from hasRel_stB_bt d1 hok1 _ _ n hn b,
        show hasRel (specState d2) n "ban_targets" b =
        (BTl d2 n).contains b from hasRel_stB_bt d2 hok2 _ _ n hn2 b]
      exact perm_contains _ _ ((heroData_equiv d1 d2 heq hok1 hnames n hn).2.2.1) b
    · rw [show hasRel (specState d1) n "synergy" b =
        (SYl d1 n).contains b from hasRel_stB_sy d1 hok1 _ _ n hn b,
        show hasRel (specState d2) n "synergy" b =
        (SYl d2 n).contains b from hasRel_stB_sy d2 hok2 _ _ n hn2 b]
      exact perm_contains _ _ ((heroData_equiv d1 d2 heq hok1 hnames n hn).2.2.2.1) b

/-- C7 (witness): order independence applied to a concrete three-hero
collection given in two different orders. -/
theorem c7_spec_witness :
    specCount exC7a = specCount exC7b ∧
    (stC7a.map Prod.fst).Perm (stC7b.map Prod.fst) ∧
    (∀ n ∈ namesOf stC7a, ∀ key ∈ relKeys, ∀ b : String,
      hasRel stC7a n key b = hasRel stC7b n key b) :=
  c7_spec exC7a exC7b stC7a stC7b (specCount exC7a) (specCount exC7b)
    (by decide) (by decide)
    ⟨by decide, by
      intro k v1 v2 h1 h2
      by_cases hA : ("A" : String) = k
      · subst hA
        have hv1 : v1 = Val.dict [("counters", Val.list [Val.str "B", Val.str "C"])] :=
          (Option.some.inj h1).symm
        have hv2 : v2 = Val.dict [("counters", Val.list [Val.str "C", Val.str "B"])] :=
          (Option.some.inj h2).symm
        refine Or.inr ⟨_, _, hv1, hv2, ?_, ?_⟩
        · intro k2 hk2
          have hne : k2 ≠ "counters" := fun h => hk2 (h ▸ (by decide))
          show (if ("counters" == k2) = true then
              some (Val.list [Val.str "B", Val.str "C"]) else none) =
            (if ("counters" == k2) = true then
              some (Val.list [Val.str "C", Val.str "B"]) else none)
          rw [show ("counters" == k2) = false from
            beq_eq_false_iff_ne.mpr (Ne.symm hne)]
          rfl
        · intro k2 hk2
          simp only [relKeys, List.mem_cons, List.not_mem_nil, or_false] at hk2
          rcases hk2 with rfl | rfl | rfl | rfl
          · exact Or.inr ⟨[Val.str "B", Val.str "C"], [Val.str "C", Val.str "B"],
              rfl, rfl, List.Perm.swap _ _ _⟩
          · exact Or.inl rfl
          · exact Or.inl rfl
          · exact Or.inl rfl
      · by_cases hB : ("B" : String) = k
        · subst hB
          have hv1 : v1 = Val.dict [] := (Option.some.inj h1).symm
          have hv2 : v2 = Val.dict [] := (Option.some.inj h2).symm
          rw [hv1, hv2]
          exact Or.inl rfl
        · by_cases hC : ("C" : String) = k
          · subst hC
            have hv1 : v1 = Val.dict [] := (Option.some.inj h1).symm
            have hv2 : v2 = Val.dict [] := (Option.some.inj h2).symm
            rw [hv1, hv2]
            exact Or.inl rfl
          · exfalso
            show False
            have h1' : (if ("A" == k) = true then
                some (Val.dict [("counters", Val.list [Val.str "B", Val.str "C"])])
              else if ("B" == k) = true then some (Val.dict [])
              else if ("C" == k) = true then some (Val.dict []) else none) = some v1 := h1
            rw [show ("A" == k) = false from beq_eq_false_iff_ne.mpr hA,
              show ("B" == k) = false from beq_eq_false_iff_ne.mpr hB,
              show ("C" == k) = false from beq_eq_false_iff_ne.mpr hC] at h1'
            exact Option.noConfusion h1'⟩
    rfl rfl
